import Mathlib

/-!
The s3 driver: spill buffer, upload source and bucket-listing loop.

A shallow embedding of `src/s3.c`: the `growbuffer` ring of 64 KiB blocks
(`growbuffer_append`, `growbuffer_read`), the upload callback
`putObjectCallback` with the tail of `put_object`, and the paging loop of
`list_bucket` with `listBucketCallback`.

Conventions of the embedding.

* A `char` array, or the memory behind a `char *`, is a function from the
  index to the byte (`Mem`); a byte is a natural number.  The bounds of a
  destination array are not tracked.
* The blocks live in a heap addressed by natural numbers.  Address `0` is the
  null pointer.  `malloc` hands out a fresh address each time, and `free`
  marks the cell as dead; every access to a dead or null cell is undefined
  behaviour and makes the embedded function return `none`.  A `memcpy` with a
  negative length is undefined behaviour as well.
* C `int` values are integers; the conversions between `int`, `uint64_t` and
  `size_t` that the code performs are written out with `wrapInt32` and
  `% 2 ^ 64`.
-/

namespace S3

/-! ## Memory -/

/-- A `char` array, indexed from 0. -/
abbrev Mem := Nat → Nat

/-- The effect of `memcpy(&dst[off], src, src.length)` where the source bytes
are given as a list. -/
def memcpyList (dst : Mem) (off : Nat) (src : List Nat) : Mem :=
  fun i => if off ≤ i ∧ i < off + src.length then src.getD (i - off) 0 else dst i

/-- The effect of `memcpy(dst, &src[off], n)`. -/
def memcpyMem (dst : Mem) (src : Mem) (off n : Nat) : Mem :=
  fun i => if i < n then src (off + i) else dst i

/-- The `n` bytes of `m` starting at index `off`. -/
def bytesOf (m : Mem) (off n : Nat) : List Nat :=
  (List.range n).map (fun i => m (off + i))

/-- Conversion of an integer value to a 32-bit `int` (two's complement). -/
def wrapInt32 (x : Int) : Int := (x + 2 ^ 31) % 2 ^ 32 - 2 ^ 31

/-! ## The growbuffer -/

/-- The C struct `growbuffer`; `prev` and `next` are heap addresses. -/
structure growbuffer where
  size : Int
  start : Int
  data : Mem
  prev : Nat
  next : Nat

/-- The heap of growbuffer blocks.  `brk` is the next address `malloc` hands
out; `oracle` lists the outcomes of the coming `malloc` calls (`false` is a
failure), and once it is used up every `malloc` succeeds. -/
structure Heap where
  cells : Nat → Option growbuffer
  brk : Nat
  oracle : List Bool

/-- The heap of a fresh process in which every `malloc` succeeds. -/
def Heap.empty : Heap := { cells := fun _ => none, brk := 1, oracle := [] }

/-- Read the block at `p`; `none` when `p` is null or not a live block. -/
def load (h : Heap) (p : Nat) : Option growbuffer :=
  if p = 0 then none else h.cells p

/-- Write the block at `p`; `none` when `p` is null or not a live block. -/
def store (h : Heap) (p : Nat) (b : growbuffer) : Option Heap :=
  match load h p with
  | none => none
  | some _ => some { h with cells := Function.update h.cells p (some b) }

/-- An assignment to fields of the block at `p`: the block becomes `f` of what
it was; `none` when `p` is null or not a live block. -/
def modify (h : Heap) (p : Nat) (f : growbuffer → growbuffer) : Option Heap :=
  match load h p with
  | none => none
  | some b => store h p (f b)

/-- The call `free(p)`; `none` when `p` is not a live block (a double free). -/
def free (h : Heap) (p : Nat) : Option Heap :=
  if p = 0 then some h else
  match load h p with
  | none => none
  | some _ => some { h with cells := Function.update h.cells p none }

/-- The contents of a block that `malloc` has just returned (indeterminate in
C; the code sets every field except `data` before reading it). -/
def freshBlock : growbuffer :=
  { size := 0, start := 0, data := fun _ => 0, prev := 0, next := 0 }

/-- The call `malloc(sizeof(growbuffer))`: the new heap and the address, `0`
on failure. -/
def malloc (h : Heap) : Heap × Nat :=
  match h.oracle with
  | false :: rest => ({ h with oracle := rest }, 0)
  | _ => ({ cells := Function.update h.cells h.brk (some freshBlock),
            brk := h.brk + 1, oracle := h.oracle.tail }, h.brk)

/-- The linking of the new block `nb` in `growbuffer_append`: before `*gb` in a
ring that has a head, alone otherwise.  Returns the heap, `*gb` and `buf`. -/
def growbuffer_append_link (h : Heap) (gb nb : Nat) : Option (Heap × Nat × Nat) :=
  -- if (*gb)
  if gb ≠ 0 then do
    -- buf->prev = (*gb)->prev;
    let g ← load h gb
    let h1 ← modify h nb (fun b => { b with prev := g.prev })
    -- buf->next = *gb;
    let h2 ← modify h1 nb (fun b => { b with next := gb })
    -- (*gb)->prev->next = buf;
    let g1 ← load h2 gb
    let h3 ← modify h2 g1.prev (fun t => { t with next := nb })
    -- (*gb)->prev = buf;
    let h4 ← modify h3 gb (fun g2 => { g2 with prev := nb })
    some (h4, gb, nb)
  else do
    -- buf->prev = buf->next = buf;
    let h1 ← modify h nb (fun b => { b with next := nb })
    let h2 ← modify h1 nb (fun b => { b with prev := nb })
    -- *gb = buf;
    some (h2, nb, nb)

/-- The first half of one iteration of the loop of `growbuffer_append`: take
the tail block `(*gb)->prev`, and when there is none or it is full allocate a
block and link it in.  Returns the heap, `*gb` and `buf`; `buf = 0` stands for
the failed `malloc` (the function then returns 0). -/
def growbuffer_append_block (h : Heap) (gb : Nat) : Option (Heap × Nat × Nat) := do
  -- growbuffer *buf = *gb ? (*gb)->prev : 0;
  let buf ← if gb ≠ 0 then (load h gb).map (fun g => g.prev) else some 0
  -- if (!buf || (buf->size == sizeof(buf->data)))
  let needNew ← if buf = 0 then some true
                else (load h buf).map (fun b => decide (b.size = 65536))
  if needNew then
    -- buf = (growbuffer *) malloc(sizeof(growbuffer));
    let (h1, nb) := malloc h
    -- if (!buf) return 0;
    if nb = 0 then some (h1, gb, 0)
    else do
      -- buf->size = 0; buf->start = 0;
      let h2 ← modify h1 nb (fun b => { b with size := 0 })
      let h3 ← modify h2 nb (fun b => { b with start := 0 })
      growbuffer_append_link h3 gb nb
  else some (h, gb, buf)

/-- The second half of one iteration of the loop of `growbuffer_append`: copy
as much of `data` as fits into the block `buf`.  Returns the heap and
`toCopy`. -/
def growbuffer_append_copy (h : Heap) (buf : Nat) (data : List Nat) : Option (Heap × Nat) := do
  let b ← load h buf
  -- int toCopy = (sizeof(buf->data) - buf->size);
  let toCopy0 : Int := wrapInt32 (65536 - b.size)
  -- if (toCopy > dataLen) toCopy = dataLen;
  let toCopy : Int := if toCopy0 > (data.length : Int) then (data.length : Int) else toCopy0
  -- memcpy(&(buf->data[buf->size]), data, toCopy);
  if toCopy < 0 ∨ b.size < 0 then none
  else do
    let h1 ← modify h buf
      (fun b => { b with data := memcpyList b.data b.size.toNat (data.take toCopy.toNat) })
    -- buf->size += toCopy
    let h2 ← modify h1 buf (fun b => { b with size := b.size + toCopy })
    some (h2, toCopy.toNat)

/-- The loop of `growbuffer_append`.  `data` is the list of the `dataLen`
bytes at the pointer `data`.  Every iteration copies at least one byte, so
`data.length` iterations of fuel are always enough.  The result is the heap,
`*gb` and the return value (nonzero on success, zero on out of memory). -/
def growbuffer_append_loop : Nat → Heap → Nat → List Nat → Option (Heap × Nat × Int)
  | 0, h, gb, data => if data.length = 0 then some (h, gb, 1) else none
  | fuel + 1, h, gb, data =>
    -- while (dataLen)
    if data.length = 0 then some (h, gb, 1)
    else
      match growbuffer_append_block h gb with
      | none => none
      | some (h1, gb1, buf) =>
        if buf = 0 then some (h1, gb1, 0)
        else
          match growbuffer_append_copy h1 buf data with
          | none => none
          | some (h2, toCopy) =>
            -- data += toCopy, dataLen -= toCopy;
            growbuffer_append_loop fuel h2 gb1 (data.drop toCopy)

/-- The function `growbuffer_append(gb, data, dataLen)`. -/
def growbuffer_append (h : Heap) (gb : Nat) (data : List Nat) : Option (Heap × Nat × Int) :=
  growbuffer_append_loop data.length h gb data

/-- The function `growbuffer_read(gb, amt, amtReturn, buffer)`: the heap, `*gb`,
`*amtReturn` and the contents of `buffer` afterwards. -/
def growbuffer_read (h : Heap) (gb : Nat) (amt : Int) (buffer : Mem) :
    Option (Heap × Nat × Int × Mem) :=
  -- *amtReturn = 0; growbuffer *buf = *gb; if (!buf) return;
  if gb = 0 then some (h, gb, 0, buffer)
  else
    match load h gb with
    | none => none
    | some b =>
      -- *amtReturn = (buf->size > amt) ? amt : buf->size;
      let amtReturn : Int := if b.size > amt then amt else b.size
      -- memcpy(buffer, &(buf->data[buf->start]), *amtReturn);
      if amtReturn < 0 ∨ b.start < 0 then none
      else
        let buffer1 := memcpyMem buffer b.data b.start.toNat amtReturn.toNat
        -- buf->start += *amtReturn, buf->size -= *amtReturn;
        let b1 : growbuffer := { b with start := b.start + amtReturn, size := b.size - amtReturn }
        match store h gb b1 with
        | none => none
        | some h1 =>
          -- if (buf->size == 0)
          if b1.size = 0 then
            -- if (buf->next == buf) *gb = 0; else *gb = buf->next;
            let gb1 := if b1.next = gb then 0 else b1.next
            -- free(buf);
            match free h1 gb with
            | none => none
            | some h2 => some (h2, gb1, amtReturn, buffer1)
          else some (h1, gb, amtReturn, buffer1)

/-! ## The upload source -/

/-- The C struct `put_object_callback_data`.  `infile` is the `FILE *`: `none`
is the null pointer, and an open stream is the list of the bytes it has not
yet delivered.  `gb` is the growbuffer handle, `contentLength` a `uint64_t`.
`readBuffer` is the array `char readBuffer[64 * 1024]`; only its first 65536
cells exist, and `putObjectCallback` is undefined when more bytes are stored
in it. -/
structure put_object_callback_data where
  infile : Option (List Nat)
  gb : Nat
  contentLength : Nat
  readBuffer : Mem

/-- The call `fread(dst, 1, count, stream)`: the number of bytes read, the
stream afterwards and the destination afterwards.  The stream delivers `count`
bytes, or what is left of it when that is less. -/
def fread (dst : Mem) (count : Nat) (stream : List Nat) : Nat × List Nat × Mem :=
  let n := min count stream.length
  (n, stream.drop n, memcpyList dst 0 (stream.take n))

/-- The function `putObjectCallback(bufferSize, buffer, callbackData)`: the
return value, the contents of the caller's `buffer` afterwards, the heap and
the callback data afterwards.  The result is `none` when the behaviour is
undefined: a dead block is accessed, `memcpy` gets a negative length, or more
than 65536 bytes are stored in `readBuffer`. -/
def putObjectCallback (h : Heap) (bufferSize : Int) (buffer : Mem)
    (data : put_object_callback_data) :
    Option (Int × Mem × Heap × put_object_callback_data) :=
  -- int ret = 0;
  let r : Option (Int × Heap × put_object_callback_data) :=
    -- if (data->contentLength)
    if data.contentLength ≠ 0 then
      -- int toRead = ((data->contentLength > bufferSize) ? bufferSize : data->contentLength);
      let bufferSize64 : Nat := (bufferSize % 2 ^ 64).toNat
      let toRead : Int :=
        wrapInt32 (if data.contentLength > bufferSize64 then bufferSize64 else data.contentLength)
      match data.infile with
      | some stream =>
        -- ret = fread(data->readBuffer, 1, toRead, data->infile);
        let (n, stream1, readBuffer1) := fread data.readBuffer (toRead % 2 ^ 64).toNat stream
        -- char readBuffer[64 * 1024]: storing more bytes writes past the end of the array
        if n > 65536 then none
        else some (wrapInt32 n, h, { data with infile := some stream1, readBuffer := readBuffer1 })
      | none =>
        -- else if (data->gb)
        if data.gb ≠ 0 then
          -- growbuffer_read(&(data->gb), data->contentLength, &ret, data->readBuffer);
          match growbuffer_read h data.gb (wrapInt32 data.contentLength) data.readBuffer with
          | none => none
          | some (h1, gb1, amtReturn, readBuffer1) =>
            -- the memcpy of growbuffer_read stores *amtReturn bytes in readBuffer[64 * 1024]
            if amtReturn > 65536 then none
            else some (amtReturn, h1, { data with gb := gb1, readBuffer := readBuffer1 })
        else some (0, h, data)
    else some (0, h, data)
  match r with
  | none => none
  | some (ret, h1, data1) =>
    -- data->contentLength -= ret; return ret;
    some (ret, buffer, h1,
      { data1 with contentLength := (((data1.contentLength : Int) - ret) % 2 ^ 64).toNat })

/-- The status of a request; only the comparison with `S3StatusOK` matters to
the driver. -/
inductive S3Status where
  | OK
  | failure (code : Nat)
  deriving DecidableEq, Repr

/-- A sequence of calls of `putObjectCallback`, one for each buffer size of
`sizes`, on the same callback data: the return values with the value of
`contentLength` after each call, and the final heap and callback data. -/
def supplyCalls : List Int → Heap → Mem → put_object_callback_data →
    Option (List (Int × Nat) × Heap × put_object_callback_data)
  | [], h, _, data => some ([], h, data)
  | s :: sizes, h, buffer, data =>
    match putObjectCallback h s buffer data with
    | none => none
    | some (ret, buffer1, h1, data1) =>
      match supplyCalls sizes h1 buffer1 data1 with
      | none => none
      | some (rets, h2, data2) => some ((ret, data1.contentLength) :: rets, h2, data2)

/-- The C struct `list_bucket_callback_data`; `nextMarker` is the C string held
in the array `char nextMarker[1024]`. -/
structure list_bucket_callback_data where
  isTruncated : Int
  nextMarker : List Char

/-- One entry of the `contents` array handed to `listBucketCallback`; the
fields besides `key` are only printed. -/
structure S3ListBucketContent where
  key : List Char

/-- The C string that `snprintf(dst, size, "%s", s)` leaves in `dst`: at most
`size - 1` characters of `s`. -/
def snprintf_s (size : Nat) (s : List Char) : List Char := s.take (size - 1)

/-- The function `listBucketCallback`; `contentsCount` is the length of
`contents`, and a null `nextMarker` is `none`.  The printing is left out. -/
def listBucketCallback (isTruncated : Int) (nextMarker : Option (List Char))
    (contents : List S3ListBucketContent) (data : list_bucket_callback_data) :
    list_bucket_callback_data :=
  -- data->isTruncated = isTruncated;
  let data1 := { data with isTruncated := isTruncated }
  -- if (!nextMarker && contentsCount) nextMarker = contents[contentsCount - 1].key;
  let nextMarker1 : Option (List Char) :=
    if nextMarker.isNone ∧ contents.length ≠ 0 then contents.getLast?.map (fun c => c.key)
    else nextMarker
  match nextMarker1 with
  -- snprintf(data->nextMarker, sizeof(data->nextMarker), "%s", nextMarker);
  | some m => { data1 with nextMarker := snprintf_s 1024 m }
  -- data->nextMarker[0] = 0;
  | none => { data1 with nextMarker := [] }

/-- The arguments of one call of `listBucketCallback`. -/
structure ListBucketCall where
  isTruncated : Int
  nextMarker : Option (List Char)
  contents : List S3ListBucketContent

/-- What the service does in answer to one `S3_list_bucket` request: the calls
of `listBucketCallback` it makes, and the status it hands to
`responseCompleteCallback`. -/
structure ListBucketResponse where
  calls : List ListBucketCall
  status : S3Status

/-- Modelled from the spec: the library call `S3_list_bucket` (its code is not
in `src/`) as far as the driver sees it.  Its effect on the callback data and
on `statusG`: `listBucketCallback` runs for each call of the response, then
`responseCompleteCallback` stores the status. -/
def S3_list_bucket (resp : ListBucketResponse) (data : list_bucket_callback_data) :
    list_bucket_callback_data × S3Status :=
  (resp.calls.foldl (fun d c => listBucketCallback c.isTruncated c.nextMarker c.contents d) data,
   resp.status)

/-- The trace of the loop of `list_bucket`: the marker of every
`S3_list_bucket` request in order, the final `statusG`, whether `printError`
ran, and whether the loop came to its end (`false` when the responses ran out
with a request pending). -/
structure ListBucketRun where
  requests : List (Option (List Char))
  statusG : S3Status
  printedError : Bool
  finished : Bool

/-- The do-while loop of `list_bucket` against a service that answers the
requests with `responses`, in order.  `marker` is the marker of the coming
request, `data` the callback data and `statusG` the global status. -/
def list_bucket_loop : List ListBucketResponse → Option (List Char) →
    list_bucket_callback_data → S3Status → ListBucketRun
  | [], marker, _, statusG =>
    { requests := [marker], statusG := statusG, printedError := false, finished := false }
  | resp :: responses, marker, data, _ =>
    -- data.isTruncated = 0; S3_list_bucket(..., marker, ..., &data);
    let (data1, statusG1) := S3_list_bucket resp { data with isTruncated := 0 }
    -- if (statusG != S3StatusOK) { printError(); break; }
    if statusG1 ≠ S3Status.OK then
      { requests := [marker], statusG := statusG1, printedError := true, finished := true }
    else
      -- marker = data.nextMarker; } while (data.isTruncated);
      if data1.isTruncated ≠ 0 then
        let run := list_bucket_loop responses (some data1.nextMarker) data1 statusG1
        { run with requests := marker :: run.requests }
      else
        { requests := [marker], statusG := statusG1, printedError := false, finished := true }

/-! ## Destroying the growbuffer -/

/-- How a run of `growbuffer_destroy` ends: it leaves the loop, with the heap it
leaves and the addresses it has freed, in order; or it reads `gb->next` of a
block that is not live (undefined behaviour), at the given address, after the
frees listed; or the fuel of the embedding is used up. -/
inductive DestroyResult where
  | done (h : Heap) (freed : List Nat)
  | deadAccess (addr : Nat) (freed : List Nat)
  | outOfFuel

/-- The loop of `growbuffer_destroy`, with `start` the handle the function was
called with, `gb` the block it is at, and `freed` the addresses freed so far.
The loop has no bound of its own: `fuel` bounds the number of iterations. -/
def growbuffer_destroy_loop : Nat → Heap → Nat → Nat → List Nat → DestroyResult
  | 0, _, _, _, _ => DestroyResult.outOfFuel
  | fuel + 1, h, start, gb, freed =>
    -- while (gb)
    if gb = 0 then DestroyResult.done h freed
    else
      -- growbuffer *next = gb->next;
      match load h gb with
      | none => DestroyResult.deadAccess gb freed
      | some b =>
        -- free(gb);
        match free h gb with
        | none => DestroyResult.deadAccess gb freed
        | some h1 =>
          -- gb = (next == start) ? 0 : next;
          growbuffer_destroy_loop fuel h1 start (if b.next = start then 0 else b.next)
            (freed ++ [gb])

/-- The function `growbuffer_destroy(gb)`. -/
def growbuffer_destroy (fuel : Nat) (h : Heap) (gb : Nat) : DestroyResult :=
  growbuffer_destroy_loop fuel h gb gb []

/-! ## The parameters and the input of `put_object` -/

/-- The loop of `convertInt`: `ret` is the `uint64_t` accumulator, `none` is the
call of `usageExit` on a character that is not a digit. -/
def convertInt_loop : List Char → Nat → Option Nat
  | [], ret => some ret
  | c :: str, ret =>
    -- if (!isdigit(*str)) usageExit(stderr);
    if !c.isDigit then none
    -- ret *= 10; ret += (*str++ - '0');
    else convertInt_loop str ((ret * 10 % 2 ^ 64 + (c.toNat - '0'.toNat)) % 2 ^ 64)

/-- The function `convertInt(str, paramName)` on the C string `str`. -/
def convertInt (str : List Char) : Option Nat := convertInt_loop str 0

/-- The handling of a `contentLength=` parameter in `put_object`: the value
taken as content length, or `none` for `usageExit` (a character that is not a
digit, or a value above 5 GB). -/
def put_object_contentLength (value : List Char) : Option Nat :=
  -- contentLength = convertInt(&(param[CONTENT_LENGTH_PREFIX_LEN]), "contentLength");
  match convertInt value with
  | none => none
  | some contentLength =>
    -- if (contentLength > (5LL * 1024 * 1024 * 1024)) usageExit(stderr);
    if contentLength > 5 * 1024 * 1024 * 1024 then none else some contentLength

/-- What the file system answers for the file named by the `filename=`
parameter: the size that `stat` reports (`none` when `stat` fails) and the
stream that `fopen` opens (`none` when `fopen` fails). -/
structure InputFile where
  statSize : Option Nat
  stream : Option (List Nat)

/-- How the set-up of the upload source in `put_object` ends: with `exit(-1)`,
or with the heap and the callback data handed to `S3_put_object`. -/
inductive PutSetup where
  | exit
  | ready (h : Heap) (data : put_object_callback_data)

/-- How one iteration of the loop of `put_object` that reads standard input
ends: with `break`, with `exit(-1)`, or at the end of the body, with the part
of standard input that is still unread. -/
inductive StageStep where
  | stop (h : Heap) (gb : Nat) (contentLength : Nat)
  | exit
  | again (h : Heap) (gb : Nat) (contentLength : Nat) (stdin : List Nat)

/-- One iteration of the loop of `put_object` that reads all of standard input
into the growbuffer.  `stdin` is the list of the bytes standard input still
holds; `none` is undefined behaviour. -/
def put_object_stage_body (h : Heap) (gb : Nat) (contentLength : Nat) (stdin : List Nat) :
    Option StageStep :=
  -- int amtRead = fread(buffer, 1, sizeof(buffer), stdin);
  let r := fread (fun _ => 0) 65536 stdin
  let amtRead : Int := wrapInt32 r.1
  -- if (amtRead == 0) break;
  if amtRead = 0 then some (StageStep.stop h gb contentLength)
  else
    -- if (!growbuffer_append(&(data.gb), buffer, amtRead)) exit(-1);
    match growbuffer_append h gb (bytesOf r.2.2 0 amtRead.toNat) with
    | none => none
    | some (h1, gb1, ok) =>
      if ok = 0 then some StageStep.exit
      else
        -- contentLength += amtRead;
        let contentLength1 : Nat := (((contentLength : Int) + amtRead) % 2 ^ 64).toNat
        -- if (amtRead < sizeof(buffer)) break;
        if amtRead < 65536 then some (StageStep.stop h1 gb1 contentLength1)
        else some (StageStep.again h1 gb1 contentLength1 r.2.1)

/-- What follows one iteration of the loop of `put_object` that reads standard
input: the result of the loop after `break` or `exit(-1)`, and else the
remaining iterations `loop`. -/
def put_object_stage_next
    (loop : Heap → Nat → Nat → List Nat → Option (Option (Heap × Nat × Nat))) :
    Option StageStep → Option (Option (Heap × Nat × Nat))
  | none => none
  | some StageStep.exit => some none
  | some (StageStep.stop h1 gb1 contentLength1) => some (some (h1, gb1, contentLength1))
  | some (StageStep.again h1 gb1 contentLength1 stdin1) => loop h1 gb1 contentLength1 stdin1

/-- The loop of `put_object` that reads all of standard input into the
growbuffer.  Every iteration but the last reads 65536 bytes, so
`stdin.length + 1` iterations of fuel are always enough.  The result is `none`
on undefined behaviour, `some none` on `exit(-1)` (out of memory), and else
the heap, the handle and `contentLength`. -/
def put_object_stage : Nat → Heap → Nat → Nat → List Nat → Option (Option (Heap × Nat × Nat))
  | 0, _, _, _, _ => none
  | fuel + 1, h, gb, contentLength, stdin =>
    put_object_stage_next (put_object_stage fuel) (put_object_stage_body h gb contentLength stdin)

/-- The set-up of the upload source in `put_object`, from `data.infile = 0` to
`data.contentLength = contentLength`.  `filename` is `none` when no
`filename=` parameter was given, `contentLength` is the value left by the
parameter parsing (0 when no `contentLength=` parameter was given), `stdin` is
the content of standard input.  The array `readBuffer` is not initialised; it
is taken as all zero. -/
def put_object_source (filename : Option InputFile) (contentLength : Nat) (stdin : List Nat)
    (h : Heap) : Option PutSetup :=
  -- data.infile = 0; data.gb = 0;
  match filename with
  | some file =>
    -- if (!contentLength) { stat(filename, &statbuf) ...; contentLength = statbuf.st_size; }
    let contentLength1 : Option Nat :=
      if contentLength = 0 then file.statSize.map (fun size => size % 2 ^ 64)
      else some contentLength
    match contentLength1 with
    | none => some PutSetup.exit
    | some contentLength2 =>
      -- if (!(data.infile = fopen(filename, "r"))) exit(-1);
      match file.stream with
      | none => some PutSetup.exit
      | some stream =>
        some (PutSetup.ready h
          { infile := some stream, gb := 0, contentLength := contentLength2,
            readBuffer := fun _ => 0 })
  | none =>
    if contentLength = 0 then
      -- Read all if stdin to get the data
      match put_object_stage (stdin.length + 1) h 0 contentLength stdin with
      | none => none
      | some none => some PutSetup.exit
      | some (some (h1, gb1, contentLength1)) =>
        some (PutSetup.ready h1
          { infile := none, gb := gb1, contentLength := contentLength1,
            readBuffer := fun _ => 0 })
    else
      -- data.infile = stdin;
      some (PutSetup.ready h
        { infile := some stdin, gb := 0, contentLength := contentLength,
          readBuffer := fun _ => 0 })

/-! ## Notions used to state the properties of the listing loop -/

/-- Whether the response reports the page as truncated: the last call of the
list callback has a nonzero `isTruncated`. -/
def ListBucketResponse.truncated (resp : ListBucketResponse) : Prop :=
  (resp.calls.getLast?.map (fun c => c.isTruncated)).getD 0 ≠ 0

instance (resp : ListBucketResponse) : Decidable resp.truncated := by
  unfold ListBucketResponse.truncated; infer_instance


/-- A page of five keys `k1` ... `k5`, reported truncated, without a next
marker, completed with status OK. -/
def pageK5 : ListBucketResponse :=
  { calls := [{ isTruncated := 1, nextMarker := none,
                contents := [⟨['k', '1']⟩, ⟨['k', '2']⟩, ⟨['k', '3']⟩, ⟨['k', '4']⟩] ++ [⟨['k', '5']⟩] }],
    status := S3Status.OK }

/-- A last page: one key, not truncated, status OK. -/
def pageLast : ListBucketResponse :=
  { calls := [{ isTruncated := 0, nextMarker := none, contents := [⟨['k', '6']⟩] }],
    status := S3Status.OK }

/-- A page that fails (status not OK) although the list callback ran and
reported truncation. -/
def pageFailed : ListBucketResponse :=
  { calls := [{ isTruncated := 1, nextMarker := none, contents := [⟨['k', '7']⟩] }],
    status := S3Status.failure 7 }

/-- A truncated page without a next marker whose only key is 1024 bytes long. -/
def pageLongKey : ListBucketResponse :=
  { calls := [{ isTruncated := 1, nextMarker := none,
                contents := [] ++ [⟨List.replicate 1024 'a'⟩] }],
    status := S3Status.OK }

/-! ## Notions used to state the properties of the growbuffer -/

/-- A block of the ring seen from outside: its address, the offset `start` of
its first unread byte, and its unread bytes. -/
structure Blk where
  addr : Nat
  off : Nat
  bytes : List Nat

/-- The block at address `a` is live, its `next` link is `nxt`, its `start` is
`s`, its `size` is the length of `c`, and the `size` bytes of `data` from
`start` on are `c`. -/
def Holds (h : Heap) (a nxt s : Nat) (c : List Nat) : Prop :=
  a ≠ 0 ∧ ∃ b, h.cells a = some b ∧ b.next = nxt ∧ b.start = (s : Int) ∧
    b.size = (c.length : Int) ∧ bytesOf b.data s c.length = c

/-- The address of the first block of `l`, and `stop` when `l` is empty. -/
def headAddr (stop : Nat) : List Blk → Nat
  | [] => stop
  | x :: _ => x.addr

/-- The blocks of `l` are live and linked in this order by their `next` links,
the `next` link of the last one being `stop`. -/
def Linked (h : Heap) (stop : Nat) : List Blk → Prop
  | [] => True
  | x :: rest => Holds h x.addr (headAddr stop rest) x.off x.bytes ∧ Linked h stop rest

/-- A chain of blocks as `growbuffer_read` walks it: linked by `next` up to
`stop`, at pairwise different addresses, each with at least one unread byte. -/
def Chain (h : Heap) (stop : Nat) (l : List Blk) : Prop :=
  Linked h stop l ∧ (l.map Blk.addr).Nodup ∧ ∀ x ∈ l, x.bytes ≠ []

/-- The ring that `growbuffer_append` builds, with `gb` the handle: the blocks
of `l` linked in a cycle through `next`, the `prev` link of the head being the
tail, nothing consumed yet, every block but the last full.  The last block may
still be empty (in the middle of an iteration). -/
def RingPre (h : Heap) (gb : Nat) (l : List Blk) : Prop :=
  Linked h gb l ∧ (l.map Blk.addr).Nodup ∧ gb = headAddr 0 l ∧
  0 < h.brk ∧ (∀ x ∈ l, x.addr < h.brk) ∧
  (∀ x ∈ l, x.off = 0 ∧ x.bytes.length ≤ 65536) ∧
  (∀ x ∈ l.dropLast, x.bytes.length = 65536) ∧
  (∀ g, h.cells gb = some g → (l.getLast?.map Blk.addr) = some g.prev)

/-- The ring between two calls of `growbuffer_append`: no block is empty. -/
def Ring (h : Heap) (gb : Nat) (l : List Blk) : Prop :=
  RingPre h gb l ∧ ∀ x ∈ l, x.bytes ≠ []

/-- The unread bytes of the blocks of `l`, in order. -/
def contents (l : List Blk) : List Nat := (l.map Blk.bytes).flatten

/-- What a sequence of reads returns from blocks holding the byte lists `cs`:
each request `r` takes `min r (length of the head block)` bytes of the head
block, and a block that is used up is dropped. -/
def drain : List (List Nat) → List Nat → List (List Nat)
  | [], _ => []
  | _ :: _, [] => []
  | c :: cs, r :: rs =>
    if r < c.length then c.take r :: drain (c.drop r :: cs) rs
    else c :: drain cs rs

/-- The byte counts of `drain`, from the lengths of the blocks alone. -/
def drainCounts : List Nat → List Nat → List Nat
  | [], _ => []
  | _ :: _, [] => []
  | c :: cs, r :: rs =>
    if r < c then r :: drainCounts ((c - r) :: cs) rs
    else c :: drainCounts cs rs

/-- A sequence of calls of `growbuffer_append` on the same handle, one for each
list of `datas`; stops at the first call that returns zero.  The result is the
heap, the handle and the last return value. -/
def appendAll : List (List Nat) → Heap → Nat → Option (Heap × Nat × Int)
  | [], h, gb => some (h, gb, 1)
  | d :: datas, h, gb =>
    match growbuffer_append h gb d with
    | none => none
    | some (h1, gb1, r) => if r = 0 then some (h1, gb1, 0) else appendAll datas h1 gb1

/-- The calls of `growbuffer_read` issued until `n` bytes have been returned:
one call for each request of `amts`, as long as bytes are outstanding.  The
result is the list of the byte lists returned (the first `*amtReturn` bytes of
`buffer` after each call), the heap and the handle. -/
def readUntil : List Int → Nat → Heap → Nat → Mem → Option (List (List Nat) × Heap × Nat)
  | [], _, h, gb, _ => some ([], h, gb)
  | amt :: amts, n, h, gb, buffer =>
    if n = 0 then some ([], h, gb)
    else
      match growbuffer_read h gb amt buffer with
      | none => none
      | some (h1, gb1, amtReturn, buffer1) =>
        match readUntil amts (n - amtReturn.toNat) h1 gb1 buffer1 with
        | none => none
        | some (outs, h2, gb2) => some (bytesOf buffer1 0 amtReturn.toNat :: outs, h2, gb2)

/-- The blocks that a sequence of reads leaves of the blocks `l`. -/
def drainRest : List Blk → List Nat → List Blk
  | [], _ => []
  | x :: rest, [] => x :: rest
  | x :: rest, r :: rs =>
    if r < x.bytes.length then drainRest (⟨x.addr, x.off + r, x.bytes.drop r⟩ :: rest) rs
    else drainRest rest rs

/-- The address of the last block of `l`, and `0` when `l` is empty. -/
def lastAddr (l : List Blk) : Nat := (l.getLast?.map Blk.addr).getD 0

/-- The sizes of the blocks left by `drainRest`, from the sizes of the blocks
alone. -/
def drainRestCounts : List Nat → List Nat → List Nat
  | [], _ => []
  | c :: cs, [] => c :: cs
  | c :: cs, r :: rs =>
    if r < c then drainRestCounts ((c - r) :: cs) rs
    else drainRestCounts cs rs

/-- The sizes of the blocks that hold `n` bytes appended to an empty buffer:
full blocks of 65536 bytes and a last block with the rest. -/
def blockSizes (n : Nat) : List Nat :=
  List.replicate (n / 65536) 65536 ++ (if n % 65536 = 0 then [] else [n % 65536])

/-- The heap holds no live block besides the blocks of `l`. -/
def OnlyBlocks (h : Heap) (l : List Blk) : Prop :=
  ∀ a, h.cells a ≠ none → a ∈ l.map Blk.addr

/-- A heap in which nothing has been allocated yet and whose coming `malloc`
calls have the outcomes `oracle`. -/
def Heap.fresh (oracle : List Bool) : Heap :=
  { cells := fun _ => none, brk := 1, oracle := oracle }

/-- A sequence of calls of `growbuffer_read`, one for each request of `amts`;
the heap and the handle after the last call. -/
def readAll : List Int → Heap → Nat → Mem → Option (Heap × Nat)
  | [], h, gb, _ => some (h, gb)
  | amt :: amts, h, gb, buffer =>
    match growbuffer_read h gb amt buffer with
    | none => none
    | some (h1, gb1, _, buffer1) => readAll amts h1 gb1 buffer1

/-- The number that a string of decimal digits denotes. -/
def digitsValue (str : List Char) : Nat :=
  str.foldl (fun acc c => acc * 10 + (c.toNat - '0'.toNat)) 0

/-- What holds of the heap and the handle between two calls of
`growbuffer_read`: the live blocks of the heap are the blocks of a chain, each
with its unread bytes inside the 65536 bytes of `data`, and the handle is the
head of the chain when there is one. -/
def ReadInv (h : Heap) (gb : Nat) : Prop :=
  ∃ stop l, Chain h stop l ∧ OnlyBlocks h l ∧ (∀ x ∈ l, x.off + x.bytes.length ≤ 65536) ∧
    (l ≠ [] → gb = headAddr stop l)

/-! ## Notions used to state the properties of the upload source -/

/-- The trace of a sequence of upload callbacks keeps the books from the
counter value `remaining`: each entry is a return value with the counter value
after the call; the return value is not negative and not more than the counter
before the call, and the counter after the call is the counter before minus the
return value. -/
def Accounted : Nat → List (Int × Nat) → Prop
  | _, [] => True
  | remaining, (ret, after) :: rest =>
    0 ≤ ret ∧ ret ≤ (remaining : Int) ∧ (after : Int) = (remaining : Int) - ret ∧
      Accounted after rest

/-- The counter value after the last call of a trace that starts from the
counter value `remaining`. -/
def lastRemaining : Nat → List (Int × Nat) → Nat
  | remaining, [] => remaining
  | _, (_, after) :: rest => lastRemaining after rest

/-- A file-backed source: seven bytes left in the stream, ten declared. -/
def sourceFile7 : put_object_callback_data :=
  { infile := some [1, 2, 3, 4, 5, 6, 7], gb := 0, contentLength := 10,
    readBuffer := fun _ => 0 }

theorem wrapInt32_eq (x : Int) (h0 : -2 ^ 31 ≤ x) (h1 : x < 2 ^ 31) : wrapInt32 x = x := by
  unfold wrapInt32
  have : (x + 2 ^ 31) % 2 ^ 32 = x + 2 ^ 31 := Int.emod_eq_of_lt (by omega) (by omega)
  omega

theorem bytesOf_length (m : Mem) (off n : Nat) : (bytesOf m off n).length = n := by
  simp [bytesOf]

theorem bytesOf_zero (m : Mem) (off : Nat) : bytesOf m off 0 = [] := by
  simp [bytesOf]

theorem bytesOf_congr (m m' : Mem) (off n : Nat)
    (h : ∀ i, off ≤ i → i < off + n → m' i = m i) : bytesOf m' off n = bytesOf m off n := by
  unfold bytesOf
  apply List.map_congr_left
  intro i hi
  exact h (off + i) (by omega) (by have := List.mem_range.mp hi; omega)

theorem bytesOf_add (m : Mem) (off n k : Nat) :
    bytesOf m off (n + k) = bytesOf m off n ++ bytesOf m (off + n) k := by
  unfold bytesOf
  rw [List.range_add, List.map_append, List.map_map]
  congr 1
  apply List.map_congr_left
  intro i _
  simp [Nat.add_assoc]

theorem bytesOf_take (m : Mem) (off n k : Nat) (hk : k ≤ n) :
    (bytesOf m off n).take k = bytesOf m off k := by
  obtain ⟨j, rfl⟩ := Nat.exists_eq_add_of_le hk
  rw [bytesOf_add, List.take_left' (bytesOf_length m off k)]

theorem bytesOf_drop (m : Mem) (off n k : Nat) (hk : k ≤ n) :
    (bytesOf m off n).drop k = bytesOf m (off + k) (n - k) := by
  obtain ⟨j, rfl⟩ := Nat.exists_eq_add_of_le hk
  rw [bytesOf_add, List.drop_left' (bytesOf_length m off k)]
  simp

theorem bytesOf_memcpyList (dst : Mem) (off : Nat) (src : List Nat) :
    bytesOf (memcpyList dst off src) off src.length = src := by
  apply List.ext_getElem
  · simp [bytesOf]
  · intro i h1 h2
    simp only [bytesOf, List.getElem_map, List.getElem_range, memcpyList]
    have hi : i < src.length := by simpa [bytesOf] using h1
    simp [hi, List.getD_eq_getElem?_getD, List.getElem?_eq_getElem hi]

theorem bytesOf_memcpyList_before (dst : Mem) (off : Nat) (src : List Nat) (o n : Nat)
    (h : o + n ≤ off) : bytesOf (memcpyList dst off src) o n = bytesOf dst o n := by
  apply bytesOf_congr
  intro i h1 h2
  simp only [memcpyList]
  rw [if_neg]
  omega

theorem bytesOf_memcpyMem (dst src : Mem) (off n : Nat) :
    bytesOf (memcpyMem dst src off n) 0 n = bytesOf src off n := by
  unfold bytesOf
  apply List.map_congr_left
  intro i hi
  have := List.mem_range.mp hi
  simp [memcpyMem, this]

/-! ## Heap lemmas -/

theorem load_of_cell {h : Heap} {p : Nat} {b : growbuffer} (hp : p ≠ 0)
    (hb : h.cells p = some b) : load h p = some b := by
  simp [load, hp, hb]

theorem store_of_cell {h : Heap} {p : Nat} {b : growbuffer} (b' : growbuffer) (hp : p ≠ 0)
    (hb : h.cells p = some b) :
    store h p b' = some { h with cells := Function.update h.cells p (some b') } := by
  simp [store, load, hp, hb]

theorem modify_of_cell {h : Heap} {p : Nat} {b : growbuffer} (f : growbuffer → growbuffer)
    (hp : p ≠ 0) (hb : h.cells p = some b) :
    modify h p f = some { h with cells := Function.update h.cells p (some (f b)) } := by
  simp [modify, store, load, hp, hb]

theorem free_of_cell {h : Heap} {p : Nat} {b : growbuffer} (hp : p ≠ 0)
    (hb : h.cells p = some b) :
    free h p = some { h with cells := Function.update h.cells p none } := by
  simp [free, load, hp, hb]

theorem Holds_congr {h h' : Heap} {a nxt s : Nat} {c : List Nat}
    (hcell : h'.cells a = h.cells a) (hh : Holds h a nxt s c) : Holds h' a nxt s c := by
  obtain ⟨ha, b, hb, rest⟩ := hh
  exact ⟨ha, b, by rw [hcell, hb], rest⟩

theorem Linked_frame {h h' : Heap} {stop : Nat} {l : List Blk}
    (hcell : ∀ y ∈ l, h'.cells y.addr = h.cells y.addr) (hl : Linked h stop l) :
    Linked h' stop l := by
  induction l with
  | nil => trivial
  | cons x rest ih =>
    exact ⟨Holds_congr (hcell x (List.mem_cons_self _ _)) hl.1,
      ih (fun y hy => hcell y (List.mem_cons_of_mem _ hy)) hl.2⟩

theorem Linked_append_singleton (h : Heap) (stop : Nat) (l : List Blk) (x : Blk) :
    Linked h stop (l ++ [x]) ↔ Linked h x.addr l ∧ Holds h x.addr stop x.off x.bytes := by
  induction l with
  | nil => simp [Linked, headAddr]
  | cons y rest ih =>
    have hh : headAddr stop (rest ++ [x]) = headAddr x.addr rest := by
      cases rest <;> simp [headAddr]
    show (Holds h y.addr (headAddr stop (rest ++ [x])) y.off y.bytes ∧
        Linked h stop (rest ++ [x])) ↔
      (Holds h y.addr (headAddr x.addr rest) y.off y.bytes ∧ Linked h x.addr rest) ∧
        Holds h x.addr stop x.off x.bytes
    rw [hh, ih]
    tauto

theorem Linked_addr_ne_zero {h : Heap} {stop : Nat} {l : List Blk} (hl : Linked h stop l) :
    ∀ y ∈ l, y.addr ≠ 0 := by
  induction l with
  | nil => simp
  | cons x rest ih =>
    intro y hy
    rcases List.mem_cons.mp hy with rfl | hy
    · exact hl.1.1
    · exact ih hl.2 y hy

theorem Linked_live {h : Heap} {stop : Nat} {l : List Blk} (hl : Linked h stop l) :
    ∀ y ∈ l, ∃ b, h.cells y.addr = some b ∧ b.start = (y.off : Int) ∧
      b.size = (y.bytes.length : Int) ∧ bytesOf b.data y.off y.bytes.length = y.bytes := by
  induction l with
  | nil => simp
  | cons x rest ih =>
    intro y hy
    rcases List.mem_cons.mp hy with rfl | hy
    · obtain ⟨_, b, hb, _, h1, h2, h3⟩ := hl.1
      exact ⟨b, hb, h1, h2, h3⟩
    · exact ih hl.2 y hy

/-! ## One call of `growbuffer_read` on a chain -/

theorem growbuffer_read_null (h : Heap) (amt : Int) (buffer : Mem) :
    growbuffer_read h 0 amt buffer = some (h, 0, 0, buffer) := by
  simp [growbuffer_read]

theorem growbuffer_read_chain (h : Heap) (stop : Nat) (x : Blk) (rest : List Blk) (amt : Int)
    (buffer : Mem) (hc : Chain h stop (x :: rest)) (hamt : 0 ≤ amt) :
    ∃ h' gb' buffer',
      growbuffer_read h x.addr amt buffer
        = some (h', gb', ((min amt.toNat x.bytes.length : Nat) : Int), buffer') ∧
      bytesOf buffer' 0 (min amt.toNat x.bytes.length)
        = x.bytes.take (min amt.toNat x.bytes.length) ∧
      h'.brk = h.brk ∧ h'.oracle = h.oracle ∧
      (∀ a, a ≠ x.addr → h'.cells a = h.cells a) ∧
      (amt.toNat < x.bytes.length →
        gb' = x.addr ∧
        Chain h' stop (⟨x.addr, x.off + amt.toNat, x.bytes.drop amt.toNat⟩ :: rest)) ∧
      (x.bytes.length ≤ amt.toNat →
        h'.cells x.addr = none ∧
        gb' = (if headAddr stop rest = x.addr then 0 else headAddr stop rest) ∧
        Chain h' stop rest) := by
  obtain ⟨hl, hnd, hne⟩ := hc
  obtain ⟨⟨ha, b, hb, hnext, hstart, hsize, hbytes⟩, hrest⟩ := hl
  have hnd' : x.addr ∉ rest.map Blk.addr ∧ (rest.map Blk.addr).Nodup := by
    rw [List.map_cons] at hnd
    exact List.nodup_cons.mp hnd
  have hxne : x.bytes ≠ [] := hne x (List.mem_cons_self _ _)
  have hlen : 0 < x.bytes.length := List.length_pos.mpr hxne
  obtain ⟨n, hn⟩ : ∃ n : Nat, amt = (n : Int) := ⟨amt.toNat, (Int.toNat_of_nonneg hamt).symm⟩
  subst hn
  simp only [Int.toNat_ofNat]
  have hframe : ∀ (c : Option growbuffer),
      Linked { h with cells := Function.update h.cells x.addr c } stop rest := by
    intro c
    apply Linked_frame _ hrest
    intro y hy
    have : y.addr ≠ x.addr := by
      intro he
      exact hnd'.1 (he ▸ List.mem_map_of_mem Blk.addr hy)
    simp [Function.update, this]
  by_cases hlt : n < x.bytes.length
  · -- part of the head block is read
    have hmin : min n x.bytes.length = n := Nat.min_eq_left (Nat.le_of_lt hlt)
    have hk : (if b.size > (n : Int) then (n : Int) else b.size) = (n : Int) := by
      rw [hsize, if_pos]; exact_mod_cast hlt
    refine ⟨{ h with cells := (Function.update h.cells x.addr
        (some { b with start := (x.off : Int) + (n : Int), size := b.size - (n : Int) })) },
      x.addr, memcpyMem buffer b.data x.off n, ?_, ?_, rfl, rfl, ?_, ?_, ?_⟩
    · simp only [growbuffer_read, ha, if_false, load_of_cell ha hb, hk, hstart]
      rw [if_neg (by omega)]
      simp only [store_of_cell _ ha hb]
      rw [if_neg (by rw [hsize]; omega)]
      simp only [hmin, Int.toNat_ofNat]
    · rw [hmin, bytesOf_memcpyMem]
      have := bytesOf_take b.data x.off _ n (Nat.le_of_lt hlt)
      rw [hbytes] at this
      exact this.symm
    · intro a hne'
      simp [Function.update, hne']
    · intro _
      refine ⟨rfl, ⟨⟨ha,
        { b with start := (x.off : Int) + (n : Int), size := b.size - (n : Int) },
        by simp, hnext, ?_, ?_, ?_⟩, hframe _⟩, ?_, ?_⟩
      · simp
      · simp only [hsize, List.length_drop]
        omega
      · simp only [List.length_drop]
        have := bytesOf_drop b.data x.off _ n (Nat.le_of_lt hlt)
        rw [hbytes] at this
        exact this.symm
      · rw [List.map_cons]; exact List.nodup_cons.mpr hnd'
      · intro y hy
        rcases List.mem_cons.mp hy with rfl | hy
        · simp only
          intro hnil
          have := congrArg List.length hnil
          simp only [List.length_drop, List.length_nil] at this
          omega
        · exact hne y (List.mem_cons_of_mem _ hy)
    · intro hle; omega
  · -- the head block is used up and freed
    have hle : x.bytes.length ≤ n := Nat.le_of_not_lt hlt
    have hmin : min n x.bytes.length = x.bytes.length := Nat.min_eq_right hle
    have hk : (if b.size > (n : Int) then (n : Int) else b.size) = (x.bytes.length : Int) := by
      rw [hsize, if_neg]; exact_mod_cast hlt
    refine ⟨{ h with cells := Function.update h.cells x.addr none },
      (if headAddr stop rest = x.addr then 0 else headAddr stop rest),
      memcpyMem buffer b.data x.off x.bytes.length, ?_, ?_, rfl, rfl, ?_, ?_, ?_⟩
    · simp only [growbuffer_read, ha, if_false, load_of_cell ha hb, hk, hstart]
      rw [if_neg (by omega)]
      simp only [store_of_cell _ ha hb]
      rw [if_pos (by rw [hsize]; omega)]
      have hcell : (Function.update h.cells x.addr
          (some { b with start := (x.off : Int) + (x.bytes.length : Int),
                         size := b.size - (x.bytes.length : Int) })) x.addr
          = some { b with start := (x.off : Int) + (x.bytes.length : Int),
                          size := b.size - (x.bytes.length : Int) } := by simp
      rw [free_of_cell ha hcell]
      simp only [hmin, Int.toNat_ofNat, hnext, Function.update_idem]
    · rw [hmin, bytesOf_memcpyMem, hbytes, List.take_length]
    · intro a hne'
      simp [Function.update, hne']
    · intro hlt'; omega
    · intro _
      refine ⟨by simp, rfl, hframe none, hnd'.2, ?_⟩
      intro y hy
      exact hne y (List.mem_cons_of_mem _ hy)

/-! ## The reference functions `drain`, `drainCounts` and `drainRest` -/

theorem drain_map_length (cs : List (List Nat)) (rs : List Nat) :
    (drain cs rs).map List.length = drainCounts (cs.map List.length) rs := by
  induction rs generalizing cs with
  | nil => cases cs <;> simp [drain, drainCounts]
  | cons r rs ih =>
    cases cs with
    | nil => simp [drain, drainCounts]
    | cons c cs =>
      simp only [drain, drainCounts, List.map_cons]
      by_cases hlt : r < c.length
      · have hmin : min r c.length = r := Nat.min_eq_left (Nat.le_of_lt hlt)
        simp [hlt, ih, hmin]
      · simp [hlt, ih]

theorem drain_flatten_initial (cs : List (List Nat)) (rs : List Nat) :
    (drain cs rs).flatten <+: cs.flatten := by
  induction rs generalizing cs with
  | nil => cases cs <;> simp [drain]
  | cons r rs ih =>
    cases cs with
    | nil => simp [drain]
    | cons c cs =>
      simp only [drain]
      by_cases hlt : r < c.length
      · simp only [hlt, if_true, List.flatten_cons]
        have := ih (c.drop r :: cs)
        rw [List.flatten_cons] at this
        obtain ⟨t, ht⟩ := this
        refine ⟨t, ?_⟩
        rw [List.append_assoc, ht, ← List.append_assoc, List.take_append_drop]
      · simp only [hlt, if_false, List.flatten_cons]
        obtain ⟨t, ht⟩ := ih cs
        exact ⟨t, by rw [List.append_assoc, ht]⟩

theorem drain_nonempty (cs : List (List Nat)) (rs : List Nat) (hcs : ∀ c ∈ cs, c ≠ [])
    (hrs : ∀ r ∈ rs, 0 < r) : ∀ o ∈ drain cs rs, o ≠ [] := by
  induction rs generalizing cs with
  | nil => cases cs <;> simp [drain]
  | cons r rs ih =>
    cases cs with
    | nil => simp [drain]
    | cons c cs =>
      have hr : 0 < r := hrs r (List.mem_cons_self _ _)
      have hrs' : ∀ r' ∈ rs, 0 < r' := fun r' h' => hrs r' (List.mem_cons_of_mem _ h')
      have hc : c ≠ [] := hcs c (List.mem_cons_self _ _)
      have hcs' : ∀ c' ∈ cs, c' ≠ [] := fun c' h' => hcs c' (List.mem_cons_of_mem _ h')
      simp only [drain]
      by_cases hlt : r < c.length
      · simp only [hlt, if_true]
        intro o ho
        rcases List.mem_cons.mp ho with rfl | ho
        · intro hnil
          have := congrArg List.length hnil
          simp only [List.length_take, List.length_nil] at this
          omega
        · refine ih (c.drop r :: cs) ?_ hrs' o ho
          intro c' hc'
          rcases List.mem_cons.mp hc' with rfl | hc'
          · intro hnil
            have := congrArg List.length hnil
            simp only [List.length_drop, List.length_nil] at this
            omega
          · exact hcs' c' hc'
      · simp only [hlt, if_false]
        intro o ho
        rcases List.mem_cons.mp ho with rfl | ho
        · exact hc
        · exact ih cs hcs' hrs' o ho

theorem drain_complete (cs : List (List Nat)) (rs : List Nat) (hcs : ∀ c ∈ cs, c ≠ [])
    (hrs : ∀ r ∈ rs, 0 < r) (hlen : cs.flatten.length ≤ rs.length) :
    (drain cs rs).flatten = cs.flatten := by
  induction rs generalizing cs with
  | nil =>
    cases cs with
    | nil => simp [drain]
    | cons c cs =>
      have : (c :: cs).flatten = [] := List.length_eq_zero.mp (Nat.le_zero.mp hlen)
      simp [drain, this]
  | cons r rs ih =>
    cases cs with
    | nil => simp [drain]
    | cons c cs =>
      have hr : 0 < r := hrs r (List.mem_cons_self _ _)
      have hrs' : ∀ r' ∈ rs, 0 < r' := fun r' h' => hrs r' (List.mem_cons_of_mem _ h')
      have hc : c ≠ [] := hcs c (List.mem_cons_self _ _)
      have hcl : 0 < c.length := List.length_pos.mpr hc
      have hcs' : ∀ c' ∈ cs, c' ≠ [] := fun c' h' => hcs c' (List.mem_cons_of_mem _ h')
      simp only [List.flatten_cons, List.length_append, List.length_cons] at hlen
      simp only [drain]
      by_cases hlt : r < c.length
      · simp only [hlt, if_true, List.flatten_cons]
        rw [ih (c.drop r :: cs)]
        · rw [List.flatten_cons, ← List.append_assoc, List.take_append_drop]
        · intro c' hc'
          rcases List.mem_cons.mp hc' with rfl | hc'
          · intro hnil
            have := congrArg List.length hnil
            simp only [List.length_drop, List.length_nil] at this
            omega
          · exact hcs' c' hc'
        · exact hrs'
        · simp only [List.flatten_cons, List.length_append, List.length_drop]
          omega
      · simp only [hlt, if_false, List.flatten_cons]
        rw [ih cs hcs' hrs' (by omega)]

theorem drainRest_nil (l : List Blk) (rs : List Nat) (hl : ∀ x ∈ l, x.bytes ≠ [])
    (hrs : ∀ r ∈ rs, 0 < r) (hlen : (contents l).length ≤ rs.length) :
    drainRest l rs = [] := by
  induction rs generalizing l with
  | nil =>
    cases l with
    | nil => simp [drainRest]
    | cons x rest =>
      have hx : 0 < x.bytes.length := List.length_pos.mpr (hl x (List.mem_cons_self _ _))
      simp only [contents, List.map_cons, List.flatten_cons, List.length_append,
        List.length_nil] at hlen
      omega
  | cons r rs ih =>
    cases l with
    | nil => simp [drainRest]
    | cons x rest =>
      have hr : 0 < r := hrs r (List.mem_cons_self _ _)
      have hrs' : ∀ r' ∈ rs, 0 < r' := fun r' h' => hrs r' (List.mem_cons_of_mem _ h')
      have hx : 0 < x.bytes.length := List.length_pos.mpr (hl x (List.mem_cons_self _ _))
      have hl' : ∀ y ∈ rest, y.bytes ≠ [] := fun y h' => hl y (List.mem_cons_of_mem _ h')
      simp only [contents, List.map_cons, List.flatten_cons, List.length_append,
        List.length_cons] at hlen
      simp only [drainRest]
      by_cases hlt : r < x.bytes.length
      · simp only [hlt, if_true]
        apply ih
        · intro y hy
          rcases List.mem_cons.mp hy with rfl | hy
          · simp only
            intro hnil
            have := congrArg List.length hnil
            simp only [List.length_drop, List.length_nil] at this
            omega
          · exact hl' y hy
        · exact hrs'
        · simp only [contents, List.map_cons, List.flatten_cons, List.length_append,
            List.length_drop]
          omega
      · simp only [hlt, if_false]
        exact ih rest hl' hrs' (by simp only [contents]; omega)

theorem drain_length_or_all (cs : List (List Nat)) (rs : List Nat) :
    (drain cs rs).flatten = cs.flatten ∨ (drain cs rs).length = rs.length := by
  induction rs generalizing cs with
  | nil =>
    cases cs with
    | nil => left; simp [drain]
    | cons c cs => right; simp [drain]
  | cons r rs ih =>
    cases cs with
    | nil => left; simp [drain]
    | cons c cs =>
      simp only [drain]
      by_cases hlt : r < c.length
      · simp only [hlt, if_true, List.flatten_cons, List.length_cons]
        rcases ih (c.drop r :: cs) with h | h
        · left
          rw [h, List.flatten_cons, ← List.append_assoc, List.take_append_drop]
        · right; rw [h]
      · simp only [hlt, if_false, List.flatten_cons, List.length_cons]
        rcases ih cs with h | h
        · left; rw [h]
        · right; rw [h]

/-! ## A sequence of reads on a chain -/

theorem readUntil_zero (amts : List Int) (h : Heap) (gb : Nat) (buffer : Mem) :
    readUntil amts 0 h gb buffer = some ([], h, gb) := by
  cases amts <;> simp [readUntil]

theorem contents_cons (x : Blk) (rest : List Blk) :
    contents (x :: rest) = x.bytes ++ contents rest := by
  simp [contents]

theorem lastAddr_cons_cons (x y : Blk) (rest : List Blk) :
    lastAddr (x :: y :: rest) = lastAddr (y :: rest) := by
  simp [lastAddr, List.getLast?_cons_cons]

theorem lastAddr_mem (x : Blk) (rest : List Blk) :
    lastAddr (x :: rest) ∈ (x :: rest).map Blk.addr := by
  induction rest generalizing x with
  | nil => simp [lastAddr]
  | cons y rest ih =>
    rw [lastAddr_cons_cons, List.map_cons]
    exact List.mem_cons_of_mem _ (ih y)

theorem readUntil_chain (amts : List Int) (h : Heap) (stop : Nat) (x : Blk) (rest : List Blk)
    (buffer : Mem) (hc : Chain h stop (x :: rest)) (hpos : ∀ a ∈ amts, 0 < a) :
    ∃ h' gb',
      readUntil amts (contents (x :: rest)).length h x.addr buffer
        = some (drain ((x :: rest).map Blk.bytes) (amts.map Int.toNat), h', gb') ∧
      Chain h' stop (drainRest (x :: rest) (amts.map Int.toNat)) ∧
      h'.brk = h.brk ∧ h'.oracle = h.oracle ∧
      (∀ a, a ∉ (x :: rest).map Blk.addr → h'.cells a = h.cells a) ∧
      (drainRest (x :: rest) (amts.map Int.toNat) ≠ [] →
        gb' = headAddr stop (drainRest (x :: rest) (amts.map Int.toNat))) ∧
      (drainRest (x :: rest) (amts.map Int.toNat) = [] →
        gb' = (if stop = lastAddr (x :: rest) then 0 else stop) ∧
        ∀ y ∈ x :: rest, h'.cells y.addr = none) := by
  induction amts generalizing h x rest buffer with
  | nil =>
    refine ⟨h, x.addr, ?_, ?_, rfl, rfl, fun _ _ => rfl, ?_, ?_⟩
    · simp [readUntil, drain]
    · simpa [drainRest] using hc
    · intro _; simp [drainRest, headAddr]
    · intro hnil; simp [drainRest] at hnil
  | cons amt amts ih =>
    have hamt : 0 < amt := hpos amt (List.mem_cons_self _ _)
    have hpos' : ∀ a ∈ amts, 0 < a := fun a ha => hpos a (List.mem_cons_of_mem _ ha)
    have hxne : x.bytes ≠ [] := hc.2.2 x (List.mem_cons_self _ _)
    have hxl : 0 < x.bytes.length := List.length_pos.mpr hxne
    have hnd : x.addr ∉ rest.map Blk.addr ∧ (rest.map Blk.addr).Nodup := by
      have := hc.2.1
      rw [List.map_cons] at this
      exact List.nodup_cons.mp this
    obtain ⟨h1, gb1, buffer1, hread, hbytes, hbrk, horacle, hframe, hpart, hfull⟩ :=
      growbuffer_read_chain h stop x rest amt buffer hc (Int.le_of_lt hamt)
    have hn0 : (contents (x :: rest)).length ≠ 0 := by
      rw [contents_cons, List.length_append]; omega
    have hstep : readUntil (amt :: amts) (contents (x :: rest)).length h x.addr buffer
        = match readUntil amts ((contents (x :: rest)).length - min amt.toNat x.bytes.length)
            h1 gb1 buffer1 with
          | none => none
          | some (outs, h2, gb2) =>
            some (bytesOf buffer1 0 (min amt.toNat x.bytes.length) :: outs, h2, gb2) := by
      simp only [readUntil, hn0, if_false, hread, Int.toNat_ofNat]
    rw [hstep, hbytes]
    by_cases hlt : amt.toNat < x.bytes.length
    · -- the head block keeps some bytes
      obtain ⟨hgb1, hc1⟩ := hpart hlt
      subst hgb1
      have hmin : min amt.toNat x.bytes.length = amt.toNat := Nat.min_eq_left (Nat.le_of_lt hlt)
      have hlen1 : (contents (x :: rest)).length - min amt.toNat x.bytes.length
          = (contents ((⟨x.addr, x.off + amt.toNat, x.bytes.drop amt.toNat⟩ : Blk) :: rest)).length := by
        rw [hmin, contents_cons, contents_cons, List.length_append, List.length_append,
          List.length_drop]
        omega
      obtain ⟨h2, gb2, hrun, hc2, hbrk2, horacle2, hframe2, hne2, hnil2⟩ :=
        ih h1 ⟨x.addr, x.off + amt.toNat, x.bytes.drop amt.toNat⟩ rest buffer1 hc1 hpos'
      have hrest : drainRest (x :: rest) ((amt :: amts).map Int.toNat)
          = drainRest ((⟨x.addr, x.off + amt.toNat, x.bytes.drop amt.toNat⟩ : Blk) :: rest)
              (amts.map Int.toNat) := by
        simp [drainRest, hlt]
      have hlast : lastAddr ((⟨x.addr, x.off + amt.toNat, x.bytes.drop amt.toNat⟩ : Blk) :: rest)
          = lastAddr (x :: rest) := by
        cases rest with
        | nil => simp [lastAddr]
        | cons y rest' => rw [lastAddr_cons_cons, lastAddr_cons_cons]
      refine ⟨h2, gb2, ?_, ?_, ?_, ?_, ?_, ?_, ?_⟩
      · rw [hlen1, hrun]
        simp [drain, hlt, hmin]
      · rw [hrest]; exact hc2
      · rw [hbrk2, hbrk]
      · rw [horacle2, horacle]
      · intro a ha
        rw [hframe2 a (by simpa using ha), hframe a (by
          intro he; apply ha; rw [he]; exact List.mem_map_of_mem _ (List.mem_cons_self _ _))]
      · rw [hrest]; exact hne2
      · rw [hrest]
        intro hnil
        obtain ⟨hg, hdead⟩ := hnil2 hnil
        rw [hlast] at hg
        refine ⟨hg, ?_⟩
        intro y hy
        rcases List.mem_cons.mp hy with hyx | hy
        · rw [hyx]
          exact hdead ⟨x.addr, x.off + amt.toNat, x.bytes.drop amt.toNat⟩
            (List.mem_cons_self _ _)
        · exact hdead y (List.mem_cons_of_mem _ hy)
    · -- the head block is used up
      have hle : x.bytes.length ≤ amt.toNat := Nat.le_of_not_lt hlt
      obtain ⟨hdead, hgb1, hc1⟩ := hfull hle
      have hmin : min amt.toNat x.bytes.length = x.bytes.length := Nat.min_eq_right hle
      have hrest : drainRest (x :: rest) ((amt :: amts).map Int.toNat)
          = drainRest rest (amts.map Int.toNat) := by
        simp [drainRest, hlt]
      have hlen1 : (contents (x :: rest)).length - min amt.toNat x.bytes.length
          = (contents rest).length := by
        rw [hmin, contents_cons, List.length_append]
        omega
      cases rest with
      | nil =>
        refine ⟨h1, gb1, ?_, ?_, hbrk, horacle, ?_, ?_, ?_⟩
        · rw [hlen1]
          simp [contents, readUntil_zero, drain, hlt, hmin]
        · rw [hrest]; simpa [drainRest] using hc1
        · intro a ha
          exact hframe a (by simpa using ha)
        · rw [hrest]; simp [drainRest]
        · intro _
          refine ⟨?_, ?_⟩
          · rw [hgb1]
            simp only [headAddr, lastAddr, List.getLast?_singleton, Option.map_some',
              Option.getD_some]
          · intro y hy
            rw [List.mem_singleton.mp hy]
            exact hdead
      | cons y rest' =>
        have hyx : y.addr ≠ x.addr := by
          intro he
          exact hnd.1 (by rw [← he]; exact List.mem_map_of_mem _ (List.mem_cons_self _ _))
        have hgb1' : gb1 = y.addr := by
          rw [hgb1]; simp [headAddr, hyx]
        subst hgb1'
        obtain ⟨h2, gb2, hrun, hc2, hbrk2, horacle2, hframe2, hne2, hnil2⟩ :=
          ih h1 y rest' buffer1 hc1 hpos'
        refine ⟨h2, gb2, ?_, ?_, ?_, ?_, ?_, ?_, ?_⟩
        · rw [hlen1, hrun]
          simp [drain, hlt, hmin]
        · rw [hrest]; exact hc2
        · rw [hbrk2, hbrk]
        · rw [horacle2, horacle]
        · intro a ha
          have ha' : a ≠ x.addr ∧ a ∉ (y :: rest').map Blk.addr := by
            rw [List.map_cons, List.mem_cons] at ha
            exact ⟨fun he => ha (Or.inl he), fun hm => ha (Or.inr hm)⟩
          rw [hframe2 a ha'.2, hframe a ha'.1]
        · rw [hrest]; exact hne2
        · rw [hrest]
          intro hnil
          obtain ⟨hg, hdead2⟩ := hnil2 hnil
          rw [lastAddr_cons_cons]
          refine ⟨hg, ?_⟩
          intro z hz
          rcases List.mem_cons.mp hz with rfl | hz
          · rw [hframe2 _ hnd.1]; exact hdead
          · exact hdead2 z hz

/-! ## One iteration of `growbuffer_append` on a ring -/

theorem malloc_ok (h : Heap) (ho : false ∉ h.oracle) :
    malloc h = ({ cells := Function.update h.cells h.brk (some freshBlock),
                  brk := h.brk + 1, oracle := h.oracle.tail }, h.brk) := by
  unfold malloc
  split
  · rename_i rest heq
    exact absurd (by rw [heq]; exact List.mem_cons_self _ _) ho
  · rfl

theorem tail_oracle_ok (o : List Bool) (ho : false ∉ o) : false ∉ o.tail :=
  fun hm => ho (List.mem_of_mem_tail hm)

theorem head_ok_of_not_mem (o : List Bool) (ho : false ∉ o) : o.head? ≠ some false := by
  cases o with
  | nil => simp
  | cons b rest =>
    intro he
    simp only [List.head?_cons, Option.some.injEq] at he
    exact ho (he ▸ List.mem_cons_self _ _)

theorem malloc_succ (h : Heap) (ho : h.oracle.head? ≠ some false) :
    malloc h = ({ cells := Function.update h.cells h.brk (some freshBlock),
                  brk := h.brk + 1, oracle := h.oracle.tail }, h.brk) := by
  unfold malloc
  split
  · rename_i rest heq
    rw [heq] at ho
    exact absurd rfl ho
  · rfl

theorem malloc_fail (h : Heap) (rest : List Bool) (ho : h.oracle = false :: rest) :
    malloc h = ({ h with oracle := rest }, 0) := by
  unfold malloc
  rw [ho]

theorem growbuffer_append_link_alone (h : Heap) (nb : Nat) (b : growbuffer) (hnb : nb ≠ 0)
    (hb : h.cells nb = some b) :
    growbuffer_append_link h 0 nb
      = some ({ h with cells :=
          (Function.update h.cells nb (some { b with next := nb, prev := nb })) }, nb, nb) := by
  simp [growbuffer_append_link, modify, store, load, hnb, hb]

theorem growbuffer_append_link_ring (h : Heap) (gb nb ta : Nat) (b g bt : growbuffer)
    (hgb : gb ≠ 0) (hnb : nb ≠ 0) (hta : ta ≠ 0) (hne : nb ≠ gb) (hne' : nb ≠ ta)
    (hb : h.cells nb = some b) (hg : h.cells gb = some g) (hprev : g.prev = ta)
    (hbt : h.cells ta = some bt) :
    ∃ h', growbuffer_append_link h gb nb = some (h', gb, nb) ∧
      h'.brk = h.brk ∧ h'.oracle = h.oracle ∧
      h'.cells nb = some { b with prev := ta, next := gb } ∧
      (∃ bt', h'.cells ta = some bt' ∧ bt'.next = nb ∧ bt'.start = bt.start ∧
        bt'.size = bt.size ∧ bt'.data = bt.data) ∧
      (∃ g', h'.cells gb = some g' ∧ g'.prev = nb ∧ (gb ≠ ta → g'.next = g.next) ∧
        g'.start = g.start ∧ g'.size = g.size ∧ g'.data = g.data) ∧
      (∀ a, a ≠ nb → a ≠ ta → a ≠ gb → h'.cells a = h.cells a) := by
  have hne2 : gb ≠ nb := fun e => hne e.symm
  have hne3 : ta ≠ nb := fun e => hne' e.symm
  by_cases hgt : gb = ta
  · subst hgt
    have hbg : bt = g := by rw [hg] at hbt; exact (Option.some.inj hbt).symm
    subst hbg
    simp [growbuffer_append_link, modify, store, load, hgb, hnb, hb, hg, hprev, hne, hne2,
      Function.update]
    intro a h1 h2
    simp [h1, h2]
  · have hgt' : ta ≠ gb := fun e => hgt e.symm
    simp [growbuffer_append_link, modify, store, load, hgb, hnb, hta, hb, hg, hprev, hbt, hne,
      hne', hne2, hne3, hgt, hgt', Function.update]
    intro a h1 h2 h3
    simp [h1, h2, h3]

theorem Linked_mono {h h' : Heap} {stop : Nat} {l : List Blk}
    (hm : ∀ y ∈ l, ∀ nxt, Holds h y.addr nxt y.off y.bytes → Holds h' y.addr nxt y.off y.bytes)
    (hl : Linked h stop l) : Linked h' stop l := by
  induction l with
  | nil => trivial
  | cons x rest ih =>
    exact ⟨hm x (List.mem_cons_self _ _) _ hl.1,
      ih (fun y hy => hm y (List.mem_cons_of_mem _ hy)) hl.2⟩

theorem headAddr_append_singleton (s : Nat) (l : List Blk) (t : Blk) :
    headAddr s (l ++ [t]) = headAddr t.addr l := by
  cases l <;> simp [headAddr]

theorem headAddr_mem (s : Nat) (l : List Blk) (hl : l ≠ []) :
    headAddr s l ∈ l.map Blk.addr := by
  cases l with
  | nil => exact absurd rfl hl
  | cons x rest => simp [headAddr]

/-- The facts about the head and the tail block that a non-empty ring gives. -/
theorem RingPre_tail {h : Heap} {gb : Nat} {l0 : List Blk} {t : Blk}
    (hr : RingPre h gb (l0 ++ [t])) :
    gb ≠ 0 ∧ t.addr ≠ 0 ∧ gb = headAddr t.addr l0 ∧
    (∃ g, h.cells gb = some g ∧ g.prev = t.addr) ∧
    (∃ bt, h.cells t.addr = some bt ∧ bt.next = gb ∧ bt.start = 0 ∧
      bt.size = (t.bytes.length : Int) ∧ bytesOf bt.data 0 t.bytes.length = t.bytes) ∧
    Linked h t.addr l0 ∧ t.addr ∉ l0.map Blk.addr ∧ (l0.map Blk.addr).Nodup := by
  obtain ⟨hl, hnd, hgb, _, _, hoff, _, hprev⟩ := hr
  have hne0 := Linked_addr_ne_zero hl
  rw [Linked_append_singleton] at hl
  obtain ⟨hl0, ht0, bt, hbt, hnext, hstart, hsize, hbytes⟩ := hl
  have htoff : t.off = 0 := (hoff t (by simp)).1
  rw [htoff] at hstart hbytes
  rw [headAddr_append_singleton] at hgb
  have hmem : gb ∈ (l0 ++ [t]).map Blk.addr := by
    rw [hgb, ← headAddr_append_singleton 0]
    exact headAddr_mem 0 _ (by simp)
  obtain ⟨y, hy, hya⟩ := List.mem_map.mp hmem
  have hgb0 : gb ≠ 0 := hya ▸ hne0 y hy
  obtain ⟨g, hg, _⟩ := Linked_live ((Linked_append_singleton h gb l0 t).mpr
    ⟨hl0, ht0, bt, hbt, hnext, by rw [htoff]; exact hstart, hsize, by rw [htoff]; exact hbytes⟩) y hy
  rw [hya] at hg
  have hp := hprev g hg
  simp only [List.getLast?_append, List.getLast?_singleton] at hp
  simp at hp
  rw [List.map_append, List.map_singleton, List.nodup_append] at hnd
  refine ⟨hgb0, ht0, hgb, ⟨g, hg, hp.symm⟩, ⟨bt, hbt, hnext, by simpa using hstart, hsize, hbytes⟩,
    hl0, ?_, hnd.1⟩
  intro hm
  exact hnd.2.2 hm (List.mem_singleton_self _)

theorem growbuffer_append_block_empty_gen (h : Heap) (hbrk : 0 < h.brk)
    (ho : h.oracle.head? ≠ some false) :
    ∃ h1, growbuffer_append_block h 0 = some (h1, h.brk, h.brk) ∧
      RingPre h1 h.brk [⟨h.brk, 0, []⟩] ∧ h1.oracle = h.oracle.tail ∧ h1.brk = h.brk + 1 ∧
      ∀ a, h1.cells a ≠ none → h.cells a ≠ none ∨ a = h.brk := by
  have hnb : h.brk ≠ 0 := by omega
  refine ⟨⟨Function.update h.cells h.brk
      (some { freshBlock with size := 0, start := 0, next := h.brk, prev := h.brk }),
      h.brk + 1, h.oracle.tail⟩, ?_, ?_, rfl, rfl, ?_⟩
  rotate_left 2
  · intro a ha
    by_cases hab : a = h.brk
    · exact Or.inr hab
    · left
      simpa [Function.update, hab] using ha
  · simp [growbuffer_append_block, malloc_succ h ho, modify, store, load,
      growbuffer_append_link, hnb, freshBlock]
  · refine ⟨⟨⟨hnb, { freshBlock with size := 0, start := 0, next := h.brk, prev := h.brk },
      by simp, rfl, rfl, rfl, by simp [bytesOf]⟩, trivial⟩, by simp, rfl,
      by simp, by simp, by simp, by simp, ?_⟩
    intro g hg
    simp only [Function.update_same, Option.some.injEq] at hg
    subst hg
    simp

theorem growbuffer_append_block_empty (h : Heap) (hbrk : 0 < h.brk) (ho : false ∉ h.oracle) :
    ∃ h1, growbuffer_append_block h 0 = some (h1, h.brk, h.brk) ∧
      RingPre h1 h.brk [⟨h.brk, 0, []⟩] ∧ h1.oracle = h.oracle.tail := by
  obtain ⟨h1, h2, h3, h4, -⟩ := growbuffer_append_block_empty_gen h hbrk (head_ok_of_not_mem _ ho)
  exact ⟨h1, h2, h3, h4⟩

theorem growbuffer_append_block_room (h : Heap) (gb : Nat) (l0 : List Blk) (t : Blk)
    (hr : RingPre h gb (l0 ++ [t])) (hroom : t.bytes.length ≠ 65536) :
    growbuffer_append_block h gb = some (h, gb, t.addr) := by
  obtain ⟨hgb0, ht0, -, ⟨g, hg, hp⟩, ⟨bt, hbt, -, -, hsize, -⟩, -, -, -⟩ := RingPre_tail hr
  have hs : bt.size ≠ 65536 := by rw [hsize]; exact_mod_cast hroom
  simp [growbuffer_append_block, load, hgb0, hg, hp, ht0, hbt, hs]

theorem growbuffer_append_block_full_gen (h : Heap) (gb : Nat) (l0 : List Blk) (t : Blk)
    (hr : RingPre h gb (l0 ++ [t])) (hfull : t.bytes.length = 65536)
    (ho : h.oracle.head? ≠ some false) :
    ∃ h1, growbuffer_append_block h gb = some (h1, gb, h.brk) ∧
      RingPre h1 gb ((l0 ++ [t]) ++ [⟨h.brk, 0, []⟩]) ∧ h1.oracle = h.oracle.tail ∧
      h1.brk = h.brk + 1 ∧ ∀ a, h1.cells a ≠ none → h.cells a ≠ none ∨ a = h.brk := by
  obtain ⟨hgb0, ht0, hhead, ⟨g, hg, hp⟩, ⟨bt, hbt, hnext, hstart, hsize, hbytes⟩, hl0, htnot,
    hnd0⟩ := RingPre_tail hr
  obtain ⟨hl, hnd, hgb, hbrk, hlt, hoff, hdl, hprev⟩ := hr
  have hs : bt.size = 65536 := by rw [hsize]; exact_mod_cast hfull
  have hnb : h.brk ≠ 0 := by omega
  have htlt : t.addr < h.brk := hlt t (by simp)
  have hgblt : gb < h.brk := by
    have hmem : gb ∈ (l0 ++ [t]).map Blk.addr := by
      rw [hgb]; exact headAddr_mem 0 _ (by simp)
    obtain ⟨y, hy, hya⟩ := List.mem_map.mp hmem
    exact hya ▸ hlt y hy
  have hne1 : h.brk ≠ gb := by omega
  have hne2 : h.brk ≠ t.addr := by omega
  have hne3 : gb ≠ h.brk := by omega
  have hne4 : t.addr ≠ h.brk := by omega
  have hstep : growbuffer_append_block h gb
      = growbuffer_append_link ⟨Function.update h.cells h.brk
          (some { freshBlock with size := 0, start := 0 }), h.brk + 1, h.oracle.tail⟩
          gb h.brk := by
    simp [growbuffer_append_block, load, hgb0, hg, hp, ht0, hbt, hs, malloc_succ h ho, modify,
      store, hnb, freshBlock]
  obtain ⟨h1, hlink, hbrk1, horacle1, hcnb, ⟨bt', hbt', hn', hs', hz', hd'⟩,
    ⟨g', hg', hp', hgn', hgs', hgz', hgd'⟩, hframe⟩ :=
    growbuffer_append_link_ring ⟨Function.update h.cells h.brk
        (some { freshBlock with size := 0, start := 0 }), h.brk + 1, h.oracle.tail⟩
      gb h.brk t.addr { freshBlock with size := 0, start := 0 } g bt hgb0 hnb ht0 hne1 hne2
      (by simp) (by simp [Function.update, hne3, hg]) hp (by simp [Function.update, hne4, hbt])
  have hlive : ∀ a, h1.cells a ≠ none → h.cells a ≠ none ∨ a = h.brk := by
    intro a ha
    by_cases hab : a = h.brk
    · exact Or.inr hab
    · left
      by_cases hat : a = t.addr
      · rw [hat, hbt]; simp
      · by_cases hag : a = gb
        · rw [hag, hg]; simp
        · rw [hframe a hab hat hag] at ha
          simpa [Function.update, hab] using ha
  refine ⟨h1, by rw [hstep, hlink], ?_, by rw [horacle1], by rw [hbrk1], hlive⟩
  have hcell_other : ∀ y ∈ l0, y.addr ≠ gb → h1.cells y.addr = h.cells y.addr := by
    intro y hy hyg
    have hy1 : y.addr ≠ h.brk := by
      have := hlt y (by simp [hy]); omega
    have hy2 : y.addr ≠ t.addr := by
      intro he; exact htnot (he ▸ List.mem_map_of_mem _ hy)
    rw [hframe y.addr hy1 hy2 hyg]
    simp [Function.update, hy1]
  have hl0' : Linked h1 t.addr l0 := by
    apply Linked_mono _ hl0
    intro y hy nxt hh
    by_cases hyg : y.addr = gb
    · obtain ⟨hy0, b, hb, hbn, hbs, hbz, hbd⟩ := hh
      rw [hyg, hg] at hb
      have hbg : g = b := Option.some.inj hb
      subst hbg
      have hgt : gb ≠ t.addr := by
        intro he; apply htnot; rw [← he, ← hyg]; exact List.mem_map_of_mem _ hy
      exact ⟨hy0, g', by rw [hyg]; exact hg', by rw [hgn' hgt]; exact hbn,
        by rw [hgs']; exact hbs, by rw [hgz']; exact hbz, by rw [hgd']; exact hbd⟩
    · exact Holds_congr (hcell_other y hy hyg) hh
  refine ⟨?_, ?_, ?_, ?_, ?_, ?_, ?_, ?_⟩
  · rw [Linked_append_singleton, Linked_append_singleton]
    refine ⟨⟨hl0', ht0, bt', hbt', hn', ?_, ?_, ?_⟩, hnb, _, hcnb, rfl, rfl, rfl, ?_⟩
    · rw [hs', hstart, (hoff t (by simp)).1]; rfl
    · rw [hz', hsize]
    · rw [hd', (hoff t (by simp)).1]; exact hbytes
    · simp [bytesOf]
  · rw [List.map_append, List.nodup_append]
    refine ⟨hnd, by simp, ?_⟩
    intro a ha hb
    simp only [List.map_cons, List.map_nil, List.mem_singleton] at hb
    obtain ⟨y, hy, hya⟩ := List.mem_map.mp ha
    have := hlt y hy
    omega
  · rw [hgb]
    cases l0 <;> simp [headAddr]
  · rw [hbrk1]; simp
  · intro x hx
    rw [hbrk1]
    rcases List.mem_append.mp hx with hx | hx
    · have := hlt x hx
      simp only
      omega
    · rw [List.mem_singleton.mp hx]
      simp
  · intro x hx
    rcases List.mem_append.mp hx with hx | hx
    · exact hoff x hx
    · rw [List.mem_singleton.mp hx]
      simp
  · intro x hx
    rw [List.dropLast_concat] at hx
    rcases List.mem_append.mp hx with hx' | hx'
    · apply hdl
      rw [List.dropLast_concat]
      exact hx'
    · rw [List.mem_singleton.mp hx']
      exact hfull
  · intro g2 hg2
    rw [hg'] at hg2
    have : g' = g2 := Option.some.inj hg2
    subst this
    rw [List.getLast?_append, List.getLast?_singleton]
    simp [hp']

theorem growbuffer_append_block_full (h : Heap) (gb : Nat) (l0 : List Blk) (t : Blk)
    (hr : RingPre h gb (l0 ++ [t])) (hfull : t.bytes.length = 65536) (ho : false ∉ h.oracle) :
    ∃ h1, growbuffer_append_block h gb = some (h1, gb, h.brk) ∧
      RingPre h1 gb ((l0 ++ [t]) ++ [⟨h.brk, 0, []⟩]) ∧ h1.oracle = h.oracle.tail := by
  obtain ⟨h1, h2, h3, h4, -⟩ :=
    growbuffer_append_block_full_gen h gb l0 t hr hfull (head_ok_of_not_mem _ ho)
  exact ⟨h1, h2, h3, h4⟩

theorem growbuffer_append_block_ring (h : Heap) (gb : Nat) (l : List Blk) (hr : Ring h gb l)
    (ho : false ∉ h.oracle) :
    ∃ h1 gb1 l0 t, growbuffer_append_block h gb = some (h1, gb1, t.addr) ∧ t.addr ≠ 0 ∧
      RingPre h1 gb1 (l0 ++ [t]) ∧ t.bytes.length < 65536 ∧ (∀ x ∈ l0, x.bytes ≠ []) ∧
      contents (l0 ++ [t]) = contents l ∧ false ∉ h1.oracle := by
  obtain ⟨hpre, hne⟩ := hr
  rcases List.eq_nil_or_concat l with rfl | ⟨l0, t, hlt⟩
  rotate_left
  · rw [List.concat_eq_append] at hlt
    subst hlt
    by_cases hfull : t.bytes.length = 65536
    · obtain ⟨h1, hblock, hring, horacle⟩ := growbuffer_append_block_full h gb l0 t hpre hfull ho
      refine ⟨h1, gb, l0 ++ [t], ⟨h.brk, 0, []⟩, hblock, ?_, hring, by simp, hne, ?_, ?_⟩
      · have := hpre.2.2.2.1
        simp only; omega
      · simp [contents]
      · rw [horacle]; exact tail_oracle_ok _ ho
    · have hle := (hpre.2.2.2.2.2.1 t (by simp)).2
      refine ⟨h, gb, l0, t, growbuffer_append_block_room h gb l0 t hpre hfull,
        (RingPre_tail hpre).2.1, hpre, by omega, ?_, rfl, ho⟩
      intro x hx
      exact hne x (by simp [hx])
  · obtain ⟨-, -, hgb, hbrk, -⟩ := hpre
    simp only [headAddr] at hgb
    subst hgb
    obtain ⟨h1, hblock, hring, horacle⟩ := growbuffer_append_block_empty h hbrk ho
    refine ⟨h1, h.brk, [], ⟨h.brk, 0, []⟩, hblock, by simp only; omega, by simpa using hring,
      by simp, by simp, by simp [contents], ?_⟩
    rw [horacle]; exact tail_oracle_ok _ ho

theorem growbuffer_append_copy_gen (h : Heap) (gb : Nat) (l0 : List Blk) (t : Blk)
    (data : List Nat) (hr : RingPre h gb (l0 ++ [t])) (hroom : t.bytes.length < 65536) :
    ∃ h2, growbuffer_append_copy h t.addr data
        = some (h2, min (65536 - t.bytes.length) data.length) ∧
      RingPre h2 gb (l0 ++ [⟨t.addr, 0,
        t.bytes ++ data.take (min (65536 - t.bytes.length) data.length)⟩]) ∧
      h2.oracle = h.oracle ∧ h2.brk = h.brk ∧ ∀ a, h2.cells a ≠ none → h.cells a ≠ none := by
  obtain ⟨hgb0, ht0, hhead, ⟨g, hg, hp⟩, ⟨bt, hbt, hnext, hstart, hsize, hbytes⟩, hl0, htnot,
    hnd0⟩ := RingPre_tail hr
  obtain ⟨hl, hnd, hgb, hbrk, hlt, hoff, hdl, hprev⟩ := hr
  have hw : wrapInt32 (65536 - bt.size) = ((65536 - t.bytes.length : Nat) : Int) := by
    rw [wrapInt32_eq _ (by rw [hsize]; omega) (by rw [hsize]; omega), hsize]
    omega
  have hk : (if wrapInt32 (65536 - bt.size) > (data.length : Int) then (data.length : Int)
      else wrapInt32 (65536 - bt.size))
      = ((min (65536 - t.bytes.length) data.length : Nat) : Int) := by
    rw [hw]
    split
    · rename_i hgt
      rw [Nat.min_eq_right (by omega)]
    · rename_i hgt
      rw [Nat.min_eq_left (by omega)]
  have hk1 : min (65536 - t.bytes.length) data.length ≤ data.length := Nat.min_le_right _ _
  have hk2 : min (65536 - t.bytes.length) data.length ≤ 65536 - t.bytes.length :=
    Nat.min_le_left _ _
  generalize min (65536 - t.bytes.length) data.length = k at hk hk1 hk2 ⊢
  have hklen : (data.take k).length = k := by
    rw [List.length_take]; omega
  have hcell : (Function.update h.cells t.addr (some { bt with
      data := memcpyList bt.data t.bytes.length (data.take k),
      size := bt.size + (k : Int) })) t.addr = some { bt with
      data := memcpyList bt.data t.bytes.length (data.take k),
      size := bt.size + (k : Int) } := by simp
  refine ⟨⟨Function.update h.cells t.addr (some { bt with
      data := memcpyList bt.data t.bytes.length (data.take k),
      size := bt.size + (k : Int) }), h.brk, h.oracle⟩, ?_, ?_, rfl, rfl, ?_⟩
  rotate_left 2
  · intro a ha
    by_cases hat : a = t.addr
    · rw [hat, hbt]; simp
    · simpa [Function.update, hat] using ha
  · simp only [growbuffer_append_copy, load_of_cell ht0 hbt, hk, Option.pure_def,
      Option.bind_eq_bind, Option.some_bind]
    rw [if_neg (by rw [hsize]; omega)]
    simp [modify, store, load, ht0, hbt, hsize]
  · have hframe : Linked ⟨Function.update h.cells t.addr (some { bt with
        data := memcpyList bt.data t.bytes.length (data.take k),
        size := bt.size + (k : Int) }), h.brk, h.oracle⟩ t.addr l0 := by
      apply Linked_frame _ hl0
      intro y hy
      have : y.addr ≠ t.addr := by
        intro he; exact htnot (he ▸ List.mem_map_of_mem _ hy)
      simp [Function.update, this]
    refine ⟨?_, ?_, ?_, hbrk, ?_, ?_, ?_, ?_⟩
    · rw [Linked_append_singleton]
      refine ⟨hframe, ht0, _, hcell, hnext, by simpa using hstart, ?_, ?_⟩
      · simp only [hsize, List.length_append, hklen]
        push_cast
        rfl
      · simp only [List.length_append, hklen]
        rw [bytesOf_add]
        congr 1
        · rw [bytesOf_memcpyList_before _ _ _ _ _ (by omega)]
          exact hbytes
        · have := bytesOf_memcpyList bt.data t.bytes.length (data.take k)
          rw [hklen] at this
          simpa using this
    · simpa using hnd
    · rw [hgb]
      cases l0 <;> simp [headAddr]
    · intro x hx
      rcases List.mem_append.mp hx with hx | hx
      · exact hlt x (by simp [hx])
      · rw [List.mem_singleton.mp hx]
        exact hlt t (by simp)
    · intro x hx
      rcases List.mem_append.mp hx with hx | hx
      · exact hoff x (by simp [hx])
      · rw [List.mem_singleton.mp hx]
        simp only [List.length_append, hklen, true_and]
        omega
    · intro x hx
      rw [List.dropLast_concat] at hx
      apply hdl
      rw [List.dropLast_concat]
      exact hx
    · intro g2 hg2
      rw [List.getLast?_append, List.getLast?_singleton]
      by_cases hgt : gb = t.addr
      · rw [hgt] at hg2
        simp only [Function.update_same, Option.some.injEq] at hg2
        subst hg2
        rw [hgt, hbt] at hg
        have : bt = g := Option.some.inj hg
        subst this
        simp [hp]
      · simp only [Function.update, hgt, dite_false] at hg2
        rw [hg] at hg2
        have : g = g2 := Option.some.inj hg2
        subst this
        simp [hp]

theorem growbuffer_append_copy_ring (h : Heap) (gb : Nat) (l0 : List Blk) (t : Blk)
    (data : List Nat) (hr : RingPre h gb (l0 ++ [t])) (hroom : t.bytes.length < 65536) :
    ∃ h2, growbuffer_append_copy h t.addr data
        = some (h2, min (65536 - t.bytes.length) data.length) ∧
      RingPre h2 gb (l0 ++ [⟨t.addr, 0,
        t.bytes ++ data.take (min (65536 - t.bytes.length) data.length)⟩]) ∧
      h2.oracle = h.oracle := by
  obtain ⟨h2, h3, h4, h5, -⟩ := growbuffer_append_copy_gen h gb l0 t data hr hroom
  exact ⟨h2, h3, h4, h5⟩

theorem growbuffer_append_loop_ring (fuel : Nat) (h : Heap) (gb : Nat) (l : List Blk)
    (data : List Nat) (hr : Ring h gb l) (ho : false ∉ h.oracle) (hfuel : data.length ≤ fuel) :
    ∃ h' gb' l', growbuffer_append_loop fuel h gb data = some (h', gb', 1) ∧ Ring h' gb' l' ∧
      contents l' = contents l ++ data ∧ false ∉ h'.oracle := by
  induction fuel generalizing h gb l data with
  | zero =>
    have : data = [] := List.length_eq_zero.mp (Nat.le_zero.mp hfuel)
    subst this
    exact ⟨h, gb, l, by simp [growbuffer_append_loop], hr, by simp, ho⟩
  | succ fuel ih =>
    by_cases hd : data = []
    · subst hd
      exact ⟨h, gb, l, by simp [growbuffer_append_loop], hr, by simp, ho⟩
    · have hdl : 0 < data.length := List.length_pos.mpr hd
      obtain ⟨h1, gb1, l0, t, hblock, ht0, hring, hroom, hne0, hcont, ho1⟩ :=
        growbuffer_append_block_ring h gb l hr ho
      obtain ⟨h2, hcopy, hring2, horacle2⟩ :=
        growbuffer_append_copy_ring h1 gb1 l0 t data hring hroom
      have hkpos : 0 < min (65536 - t.bytes.length) data.length := by
        rw [Nat.lt_min]; omega
      have hr2 : Ring h2 gb1 (l0 ++ [⟨t.addr, 0,
          t.bytes ++ data.take (min (65536 - t.bytes.length) data.length)⟩]) := by
        refine ⟨hring2, ?_⟩
        intro x hx
        rcases List.mem_append.mp hx with hx | hx
        · exact hne0 x hx
        · rw [List.mem_singleton.mp hx]
          simp only
          intro hnil
          have := congrArg List.length hnil
          simp only [List.length_append, List.length_take, List.length_nil] at this
          omega
      obtain ⟨h', gb', l', hloop, hr', hcont', ho'⟩ :=
        ih h2 gb1 _ (data.drop (min (65536 - t.bytes.length) data.length)) hr2
          (by rw [horacle2]; exact ho1) (by rw [List.length_drop]; omega)
      refine ⟨h', gb', l', ?_, hr', ?_, ho'⟩
      · have hlen : data.length ≠ 0 := by omega
        simp only [growbuffer_append_loop, hlen, if_false, hblock, ht0, hcopy]
        exact hloop
      · rw [hcont', ← hcont]
        simp only [contents, List.map_append, List.flatten_append, List.map_cons, List.map_nil,
          List.flatten_cons, List.flatten_nil, List.append_nil, List.append_assoc,
          List.take_append_drop]

theorem RingPre_empty : RingPre Heap.empty 0 [] := by
  refine ⟨trivial, by simp, rfl, by simp [Heap.empty], by simp, by simp, by simp, ?_⟩
  intro g hg
  simp [Heap.empty] at hg

theorem Ring_empty : Ring Heap.empty 0 [] := ⟨RingPre_empty, by simp⟩

theorem appendAll_ring (datas : List (List Nat)) (h : Heap) (gb : Nat) (l : List Blk)
    (hr : Ring h gb l) (ho : false ∉ h.oracle) :
    ∃ h' gb' l', appendAll datas h gb = some (h', gb', 1) ∧ Ring h' gb' l' ∧
      contents l' = contents l ++ datas.flatten ∧ false ∉ h'.oracle := by
  induction datas generalizing h gb l with
  | nil => exact ⟨h, gb, l, rfl, hr, by simp, ho⟩
  | cons d datas ih =>
    obtain ⟨h1, gb1, l1, happ, hr1, hc1, ho1⟩ :=
      growbuffer_append_loop_ring d.length h gb l d hr ho (Nat.le_refl _)
    obtain ⟨h', gb', l', hall, hr', hc', ho'⟩ := ih h1 gb1 l1 hr1 ho1
    refine ⟨h', gb', l', ?_, hr', ?_, ho'⟩
    · simp only [appendAll, growbuffer_append, happ]
      simpa using hall
    · rw [hc', hc1, List.flatten_cons, List.append_assoc]

/-! ## `growbuffer_append` when `malloc` may fail -/

theorem Ring_oracle {h : Heap} {gb : Nat} {l : List Blk} (o : List Bool) (hr : Ring h gb l) :
    Ring { h with oracle := o } gb l := by
  obtain ⟨⟨h1, h2, h3, h4, h5, h6, h7, h8⟩, h9⟩ := hr
  exact ⟨⟨@Linked_frame h { h with oracle := o } gb l (fun _ _ => rfl) h1, h2, h3, h4, h5, h6,
    h7, h8⟩, h9⟩

theorem oracle_split (o : List Bool) (ho : o.head? ≠ some false) :
    ∃ u, o = u ++ o.tail ∧ false ∉ u := by
  cases o with
  | nil => exact ⟨[], rfl, by simp⟩
  | cons b rest =>
    cases b with
    | false => exact absurd rfl ho
    | true => exact ⟨[true], rfl, by simp⟩

theorem growbuffer_append_block_fail_empty (h : Heap) (rest : List Bool)
    (ho : h.oracle = false :: rest) :
    growbuffer_append_block h 0 = some ({ h with oracle := rest }, 0, 0) := by
  simp [growbuffer_append_block, malloc_fail h rest ho]

theorem growbuffer_append_block_fail_full (h : Heap) (gb : Nat) (l0 : List Blk) (t : Blk)
    (rest : List Bool) (hr : RingPre h gb (l0 ++ [t])) (hfull : t.bytes.length = 65536)
    (ho : h.oracle = false :: rest) :
    growbuffer_append_block h gb = some ({ h with oracle := rest }, gb, 0) := by
  obtain ⟨hgb0, ht0, -, ⟨g, hg, hp⟩, ⟨bt, hbt, -, -, hsize, -⟩, -, -, -⟩ := RingPre_tail hr
  have hs : bt.size = 65536 := by rw [hsize]; exact_mod_cast hfull
  simp [growbuffer_append_block, load, hgb0, hg, hp, ht0, hbt, hs, malloc_fail h rest ho]

/-- The first half of an iteration of `growbuffer_append` on a ring, whatever
the outcome of `malloc`: either `malloc` is called and fails, and the ring is
as it was; or the ring has a last block with room, the one it had or a new
empty one. -/
theorem growbuffer_append_block_gen (h : Heap) (gb : Nat) (l : List Blk) (hr : Ring h gb l) :
    (∃ rest, h.oracle = false :: rest ∧
      growbuffer_append_block h gb = some ({ h with oracle := rest }, gb, 0)) ∨
    (∃ h1 gb1 l0 t u, growbuffer_append_block h gb = some (h1, gb1, t.addr) ∧ t.addr ≠ 0 ∧
      RingPre h1 gb1 (l0 ++ [t]) ∧ t.bytes.length < 65536 ∧ (∀ x ∈ l0, x.bytes ≠ []) ∧
      contents (l0 ++ [t]) = contents l ∧ h.oracle = u ++ h1.oracle ∧ false ∉ u ∧
      h1.brk + l.length = h.brk + (l0 ++ [t]).length ∧
      (OnlyBlocks h l → OnlyBlocks h1 (l0 ++ [t]))) := by
  obtain ⟨hpre, hne⟩ := hr
  rcases List.eq_nil_or_concat l with rfl | ⟨l0, t, hlt⟩
  · -- no block yet
    obtain ⟨-, -, hgb, hbrk, -⟩ := hpre
    simp only [headAddr] at hgb
    subst hgb
    by_cases ho : h.oracle.head? = some false
    · left
      obtain ⟨rest, hrest⟩ : ∃ rest, h.oracle = false :: rest := by
        cases hor : h.oracle with
        | nil => rw [hor] at ho; simp at ho
        | cons b rest =>
          rw [hor] at ho
          simp only [List.head?_cons, Option.some.injEq] at ho
          exact ⟨rest, by rw [ho]⟩
      exact ⟨rest, hrest, growbuffer_append_block_fail_empty h rest hrest⟩
    · right
      obtain ⟨h1, hblock, hring, horacle, hbrk1, hlive⟩ :=
        growbuffer_append_block_empty_gen h hbrk ho
      obtain ⟨u, hu, hu2⟩ := oracle_split h.oracle ho
      refine ⟨h1, h.brk, [], ⟨h.brk, 0, []⟩, u, hblock, by simp only; omega,
        by simpa using hring, by simp, by simp, by simp [contents], by rw [horacle]; exact hu,
        hu2, by rw [hbrk1]; simp, ?_⟩
      intro hob a ha
      rcases hlive a ha with h0 | h0
      · exact absurd (hob a h0) (by simp)
      · simp [h0]
  · rw [List.concat_eq_append] at hlt
    subst hlt
    by_cases hfull : t.bytes.length = 65536
    · by_cases ho : h.oracle.head? = some false
      · left
        obtain ⟨rest, hrest⟩ : ∃ rest, h.oracle = false :: rest := by
          cases hor : h.oracle with
          | nil => rw [hor] at ho; simp at ho
          | cons b rest =>
            rw [hor] at ho
            simp only [List.head?_cons, Option.some.injEq] at ho
            exact ⟨rest, by rw [ho]⟩
        exact ⟨rest, hrest, growbuffer_append_block_fail_full h gb l0 t rest hpre hfull hrest⟩
      · right
        obtain ⟨h1, hblock, hring, horacle, hbrk1, hlive⟩ :=
          growbuffer_append_block_full_gen h gb l0 t hpre hfull ho
        obtain ⟨u, hu, hu2⟩ := oracle_split h.oracle ho
        refine ⟨h1, gb, l0 ++ [t], ⟨h.brk, 0, []⟩, u, hblock, ?_, hring, by simp, hne, ?_,
          by rw [horacle]; exact hu, hu2, by rw [hbrk1]; simp; omega, ?_⟩
        · have := hpre.2.2.2.1
          simp only; omega
        · simp [contents]
        · intro hob a ha
          rcases hlive a ha with h0 | h0
          · rw [List.map_append]
            exact List.mem_append_left _ (hob a h0)
          · simp [h0]
    · right
      have hle := (hpre.2.2.2.2.2.1 t (by simp)).2
      refine ⟨h, gb, l0, t, [], growbuffer_append_block_room h gb l0 t hpre hfull,
        (RingPre_tail hpre).2.1, hpre, by omega, ?_, rfl, rfl, by simp, rfl, fun hob => hob⟩
      intro x hx
      exact hne x (by simp [hx])

/-- The loop of `growbuffer_append` on a ring, whatever the outcomes of
`malloc`.  `used` lists the outcomes the oracle gave to the `malloc` calls of
this run and `k` is the number of bytes of `data` that were stored. -/
theorem growbuffer_append_loop_gen (fuel : Nat) (h : Heap) (gb : Nat) (l : List Blk)
    (data : List Nat) (hr : Ring h gb l) (hfuel : data.length ≤ fuel) :
    ∃ h' gb' l' r used k,
      growbuffer_append_loop fuel h gb data = some (h', gb', r) ∧ Ring h' gb' l' ∧
      h.oracle = used ++ h'.oracle ∧ k ≤ data.length ∧
      contents l' = contents l ++ data.take k ∧
      ((r = 1 ∧ false ∉ used ∧ k = data.length) ∨
        (r = 0 ∧ k < data.length ∧ ∃ used', used = used' ++ [false] ∧ false ∉ used')) ∧
      h'.brk + l.length = h.brk + l'.length ∧ (OnlyBlocks h l → OnlyBlocks h' l') := by
  induction fuel generalizing h gb l data with
  | zero =>
    have : data = [] := List.length_eq_zero.mp (Nat.le_zero.mp hfuel)
    subst this
    exact ⟨h, gb, l, 1, [], 0, by simp [growbuffer_append_loop], hr, rfl, le_refl _, by simp,
      Or.inl ⟨rfl, by simp, rfl⟩, rfl, fun hob => hob⟩
  | succ fuel ih =>
    by_cases hd : data = []
    · subst hd
      exact ⟨h, gb, l, 1, [], 0, by simp [growbuffer_append_loop], hr, rfl, le_refl _, by simp,
        Or.inl ⟨rfl, by simp, rfl⟩, rfl, fun hob => hob⟩
    · have hdl : 0 < data.length := List.length_pos.mpr hd
      have hlen : data.length ≠ 0 := by omega
      rcases growbuffer_append_block_gen h gb l hr with ⟨rest, hrest, hblock⟩ |
        ⟨h1, gb1, l0, t, u, hblock, ht0, hring, hroom, hne0, hcont, hu, hu2, hbrk1, hob1⟩
      · -- malloc fails
        refine ⟨{ h with oracle := rest }, gb, l, 0, [false], 0, ?_, Ring_oracle rest hr,
          by simp [hrest], Nat.zero_le _, by simp, Or.inr ⟨rfl, hdl, [], rfl, by simp⟩, rfl,
          fun hob => hob⟩
        simp only [growbuffer_append_loop, hlen, if_false, hblock, if_true]
      · obtain ⟨h2, hcopy, hring2, horacle2, hbrk2, hlive2⟩ :=
          growbuffer_append_copy_gen h1 gb1 l0 t data hring hroom
        have hk1 : min (65536 - t.bytes.length) data.length ≤ data.length := Nat.min_le_right _ _
        have hkpos : 0 < min (65536 - t.bytes.length) data.length := by
          rw [Nat.lt_min]; omega
        generalize min (65536 - t.bytes.length) data.length = k1 at hcopy hring2 hk1 hkpos
        have hr2 : Ring h2 gb1 (l0 ++ [⟨t.addr, 0, t.bytes ++ data.take k1⟩]) := by
          refine ⟨hring2, ?_⟩
          intro x hx
          rcases List.mem_append.mp hx with hx | hx
          · exact hne0 x hx
          · rw [List.mem_singleton.mp hx]
            simp only
            intro hnil
            have := congrArg List.length hnil
            simp only [List.length_append, List.length_take, List.length_nil] at this
            omega
        obtain ⟨h', gb', l', r, used, k, hloop, hr', hused, hk, hcont', hcase, hbrk', hob'⟩ :=
          ih h2 gb1 _ (data.drop k1) hr2 (by rw [List.length_drop]; omega)
        rw [List.length_drop] at hk hcase
        refine ⟨h', gb', l', r, u ++ used, k1 + k, ?_, hr', ?_, by omega, ?_, ?_, ?_, ?_⟩
        · simp only [growbuffer_append_loop, hlen, if_false, hblock, ht0, hcopy]
          exact hloop
        · rw [List.append_assoc, ← hused, horacle2]; exact hu
        · rw [hcont', ← hcont, List.take_add]
          simp only [contents, List.map_append, List.flatten_append, List.map_cons, List.map_nil,
            List.flatten_cons, List.flatten_nil, List.append_nil, List.append_assoc]
        · rcases hcase with ⟨h1', h2', h3'⟩ | ⟨h1', h2', used', h3', h4'⟩
          · left
            refine ⟨h1', ?_, by omega⟩
            intro hm
            rcases List.mem_append.mp hm with hm | hm
            · exact hu2 hm
            · exact h2' hm
          · right
            refine ⟨h1', by omega, u ++ used', by rw [h3', List.append_assoc], ?_⟩
            intro hm
            rcases List.mem_append.mp hm with hm | hm
            · exact hu2 hm
            · exact h4' hm
        · simp only [List.length_append, List.length_singleton] at hbrk1 hbrk'
          omega
        · intro hob
          apply hob'
          intro a ha
          have := hob1 hob a (hlive2 a ha)
          simpa using this

theorem Ring_fresh (oracle : List Bool) : Ring (Heap.fresh oracle) 0 [] := by
  refine ⟨⟨trivial, by simp, rfl, by simp [Heap.fresh], by simp, by simp, by simp, ?_⟩, by simp⟩
  intro g hg
  simp [Heap.fresh] at hg

theorem OnlyBlocks_fresh (oracle : List Bool) : OnlyBlocks (Heap.fresh oracle) [] := by
  intro a ha
  simp [Heap.fresh] at ha

theorem growbuffer_append_gen (h : Heap) (gb : Nat) (l : List Blk) (data : List Nat)
    (hr : Ring h gb l) :
    ∃ h' gb' l' r used k,
      growbuffer_append h gb data = some (h', gb', r) ∧ Ring h' gb' l' ∧
      h.oracle = used ++ h'.oracle ∧ k ≤ data.length ∧
      contents l' = contents l ++ data.take k ∧
      ((r = 1 ∧ false ∉ used ∧ k = data.length) ∨
        (r = 0 ∧ k < data.length ∧ ∃ used', used = used' ++ [false] ∧ false ∉ used')) ∧
      h'.brk + l.length = h.brk + l'.length ∧ (OnlyBlocks h l → OnlyBlocks h' l') :=
  growbuffer_append_loop_gen data.length h gb l data hr (Nat.le_refl _)

/-- A sequence of appends on a ring, whatever the outcomes of `malloc`: the
result is a ring again, and when the last return value is nonzero it holds all
the bytes. -/
theorem appendAll_gen (datas : List (List Nat)) (h : Heap) (gb : Nat) (l : List Blk)
    (hr : Ring h gb l) :
    ∃ h' gb' l' r, appendAll datas h gb = some (h', gb', r) ∧ Ring h' gb' l' ∧
      (OnlyBlocks h l → OnlyBlocks h' l') ∧ h'.brk + l.length = h.brk + l'.length ∧
      (r = 1 ∨ r = 0) ∧ (r = 1 → contents l' = contents l ++ datas.flatten) ∧
      (false ∉ h.oracle → r = 1) := by
  induction datas generalizing h gb l with
  | nil =>
    exact ⟨h, gb, l, 1, rfl, hr, fun hob => hob, rfl, Or.inl rfl, fun _ => by simp, fun _ => rfl⟩
  | cons d datas ih =>
    obtain ⟨h1, gb1, l1, r1, used, k, happ, hr1, hused, hk, hc1, hcase, hbrk1, hob1⟩ :=
      growbuffer_append_gen h gb l d hr
    rcases hcase with ⟨hr11, -, hkd⟩ | ⟨hr10, -, used', hu, -⟩
    · obtain ⟨h', gb', l', r, hall, hr', hob', hbrk', hrr, hc', hor'⟩ := ih h1 gb1 l1 hr1
      refine ⟨h', gb', l', r, ?_, hr', fun hob => hob' (hob1 hob), by omega, hrr, ?_, ?_⟩
      · simp only [appendAll, happ, hr11]
        simpa using hall
      · intro hr1'
        rw [hc' hr1', hc1, hkd, List.take_length, List.flatten_cons, List.append_assoc]
      · intro hno
        apply hor'
        intro hmem
        exact hno (by rw [hused]; exact List.mem_append_right _ hmem)
    · refine ⟨h1, gb1, l1, 0, ?_, hr1, hob1, hbrk1, Or.inr rfl,
        fun hc => absurd hc (by decide), ?_⟩
      · simp only [appendAll, happ, hr10, if_true]
      · intro hno
        exact absurd (by rw [hused, hu]; simp) hno

/-- C11: after earlier appends that all returned nonzero, a call of
`growbuffer_append` in which `malloc` may fail.  `used` is the part of the list
of outcomes that the `malloc` calls of this call consume (a call made when the
list is used up succeeds).  The return value is nonzero exactly when none of
the calls failed, and then all the bytes of `data` have been stored after the
bytes of the earlier calls; when one failed, it was the last call made, the
return value is zero, the buffer is still a well-formed ring, and it holds the
bytes of the earlier calls followed by a proper prefix of `data`. -/
theorem growbuffer_append_may_fail (oracle : List Bool) (datas : List (List Nat))
    (data : List Nat) (h : Heap) (gb : Nat)
    (hbefore : appendAll datas (Heap.fresh oracle) 0 = some (h, gb, 1)) :
    ∃ h' gb' l' r used k,
      growbuffer_append h gb data = some (h', gb', r) ∧
      h.oracle = used ++ h'.oracle ∧ (r ≠ 0 ↔ false ∉ used) ∧
      Ring h' gb' l' ∧ k ≤ data.length ∧ contents l' = datas.flatten ++ data.take k ∧
      (r ≠ 0 → k = data.length) ∧
      (r = 0 → used.getLast? = some false ∧ k < data.length) := by
  obtain ⟨h0, gb0, l, r0, hall, hr, -, -, -, hc, -⟩ :=
    appendAll_gen datas (Heap.fresh oracle) 0 [] (Ring_fresh oracle)
  have he := Prod.mk.inj (Option.some.inj (hall.symm.trans hbefore))
  have hh : h0 = h := he.1
  have hg : gb0 = gb := (Prod.mk.inj he.2).1
  have hr1 : r0 = 1 := (Prod.mk.inj he.2).2
  subst hh hg
  have hcl : contents l = datas.flatten := by rw [hc hr1]; simp [contents]
  obtain ⟨h', gb', l', r, used, k, happ, hr', hused, hk, hc', hcase, -, -⟩ :=
    growbuffer_append_gen h0 gb0 l data hr
  refine ⟨h', gb', l', r, used, k, happ, hused, ?_, hr', hk, by rw [hc', hcl], ?_, ?_⟩
  · rcases hcase with ⟨h1, h2, -⟩ | ⟨h1, -, used', h3, -⟩
    · rw [h1]; exact ⟨fun _ => h2, fun _ => by decide⟩
    · rw [h1, h3]
      exact ⟨fun hc => absurd rfl hc, fun hc => absurd (by simp) hc⟩
  · intro hne
    rcases hcase with ⟨-, -, h3⟩ | ⟨h1, -, -⟩
    · exact h3
    · exact absurd h1 hne
  · intro hz
    rcases hcase with ⟨h1, -, -⟩ | ⟨-, h2, used', h3, -⟩
    · rw [h1] at hz; exact absurd hz (by decide)
    · exact ⟨by rw [h3]; simp, h2⟩

/-- Two instances of C11 on the empty buffer: with a failing first `malloc` the
call returns 0 and stores nothing; with a successful one it returns 1 and
stores the three bytes. -/
theorem growbuffer_append_may_fail_witness :
    appendAll [] (Heap.fresh [false]) 0 = some (Heap.fresh [false], 0, 1) ∧
    (∃ h' gb' l' r used k,
      growbuffer_append (Heap.fresh [false]) 0 [1, 2, 3] = some (h', gb', r) ∧
      (Heap.fresh [false]).oracle = used ++ h'.oracle ∧ (r ≠ 0 ↔ false ∉ used) ∧
      Ring h' gb' l' ∧ k ≤ [1, 2, 3].length ∧
      contents l' = ([] : List (List Nat)).flatten ++ [1, 2, 3].take k ∧
      (r ≠ 0 → k = [1, 2, 3].length) ∧
      (r = 0 → used.getLast? = some false ∧ k < [1, 2, 3].length)) ∧
    (growbuffer_append (Heap.fresh [false]) 0 [1, 2, 3]).map
      (fun r => (r.2.1, r.2.2, r.1.oracle)) = some (0, 0, []) ∧
    (growbuffer_append (Heap.fresh [true, false]) 0 [1, 2, 3]).map
      (fun r => (r.2.1, r.2.2, r.1.oracle)) = some (1, 1, [false]) :=
  ⟨rfl, growbuffer_append_may_fail [false] [] [1, 2, 3] (Heap.fresh [false]) 0 rfl,
    by decide, by decide⟩

/-! ## The layout of the ring, and from the ring to the chain -/

theorem drainRest_map_length (l : List Blk) (rs : List Nat) :
    (drainRest l rs).map (fun x => x.bytes.length)
      = drainRestCounts (l.map (fun x => x.bytes.length)) rs := by
  induction rs generalizing l with
  | nil => cases l <;> simp [drainRest, drainRestCounts]
  | cons r rs ih =>
    cases l with
    | nil => simp [drainRest, drainRestCounts]
    | cons x rest =>
      simp only [drainRest, drainRestCounts, List.map_cons]
      by_cases hlt : r < x.bytes.length
      · simp [hlt, ih]
      · simp [hlt, ih]

theorem contents_length (l : List Blk) :
    (contents l).length = (l.map (fun x => x.bytes.length)).sum := by
  induction l with
  | nil => simp [contents]
  | cons x rest ih => rw [contents_cons, List.length_append, ih]; simp

theorem Ring_layout {h : Heap} {gb : Nat} {l : List Blk} (hr : Ring h gb l) :
    l.map (fun x => x.bytes.length) = blockSizes (contents l).length := by
  obtain ⟨⟨-, -, -, -, -, hoff, hdl, -⟩, hne⟩ := hr
  rcases List.eq_nil_or_concat l with rfl | ⟨l0, t, hlt⟩
  · simp [contents, blockSizes]
  · rw [List.concat_eq_append] at hlt
    subst hlt
    rw [List.dropLast_concat] at hdl
    have h0 : l0.map (fun x => x.bytes.length) = List.replicate l0.length 65536 := by
      rw [List.eq_replicate_iff]
      refine ⟨by simp, ?_⟩
      intro b hb
      obtain ⟨y, hy, rfl⟩ := List.mem_map.mp hb
      exact hdl y hy
    have hN : (contents (l0 ++ [t])).length = 65536 * l0.length + t.bytes.length := by
      rw [contents_length, List.map_append, List.sum_append, h0]
      simp [Nat.mul_comm]
    have ht1 : 0 < t.bytes.length := List.length_pos.mpr (hne t (by simp))
    have ht2 : t.bytes.length ≤ 65536 := (hoff t (by simp)).2
    rw [hN, List.map_append, h0]
    unfold blockSizes
    by_cases hfull : t.bytes.length = 65536
    · have hd : (65536 * l0.length + t.bytes.length) / 65536 = l0.length + 1 := by omega
      have hm : (65536 * l0.length + t.bytes.length) % 65536 = 0 := by omega
      rw [hd, hm, if_pos rfl, List.append_nil, List.replicate_succ']
      simp [hfull]
    · have hd : (65536 * l0.length + t.bytes.length) / 65536 = l0.length := by omega
      have hm : (65536 * l0.length + t.bytes.length) % 65536 = t.bytes.length := by omega
      rw [hd, hm, if_neg (by omega)]
      simp

theorem Ring_chain {h : Heap} {gb : Nat} {l : List Blk} (hr : Ring h gb l) : Chain h gb l :=
  ⟨hr.1.1, hr.1.2.1, hr.2⟩

theorem Ring_handle {h : Heap} {gb : Nat} {x : Blk} {rest : List Blk}
    (hr : Ring h gb (x :: rest)) : gb = x.addr ∧ gb ≠ 0 := by
  have h1 : gb = x.addr := hr.1.2.2.1
  exact ⟨h1, h1 ▸ hr.1.1.1.1⟩

theorem Ring_handle_nil {h : Heap} {gb : Nat} (hr : Ring h gb []) : gb = 0 := hr.1.2.2.1

/-- Appending to the empty buffer and then reading: the reads are those of
`drain` on the blocks of a ring that holds the appended bytes. -/
theorem append_then_read (datas : List (List Nat)) (amts : List Int) (buffer : Mem)
    (hpos : ∀ a ∈ amts, 0 < a) :
    ∃ h gb l h' gb',
      appendAll datas Heap.empty 0 = some (h, gb, 1) ∧ Ring h gb l ∧
      contents l = datas.flatten ∧
      readUntil amts datas.flatten.length h gb buffer
        = some (drain (l.map Blk.bytes) (amts.map Int.toNat), h', gb') ∧
      (drainRest l (amts.map Int.toNat) = [] → l ≠ [] →
        gb' = (if gb = lastAddr l then 0 else gb) ∧ ∀ y ∈ l, h'.cells y.addr = none) := by
  obtain ⟨h, gb, l, happ, hr, hc, -⟩ := appendAll_ring datas Heap.empty 0 [] Ring_empty
    (by simp [Heap.empty])
  have hc : contents l = datas.flatten := by rw [hc]; simp [contents]
  cases l with
  | nil =>
    have hnil : datas.flatten = [] := by rw [← hc]; rfl
    refine ⟨h, gb, [], h, gb, happ, hr, hc, ?_, fun _ hne => absurd rfl hne⟩
    rw [hnil]
    simp [readUntil_zero, drain]
  | cons x rest =>
    obtain ⟨hgx, -⟩ := Ring_handle hr
    obtain ⟨h', gb', hrun, -, -, -, -, -, hnil⟩ :=
      readUntil_chain amts h gb x rest buffer (Ring_chain hr) hpos
    refine ⟨h, gb, x :: rest, h', gb', happ, hr, hc, ?_, fun hd _ => hnil hd⟩
    rw [← hc, hgx]
    exact hrun

/-! ## Reading back what was appended -/

theorem ring_then_read (h : Heap) (gb : Nat) (l : List Blk) (amts : List Int) (buffer : Mem)
    (hr : Ring h gb l) (hpos : ∀ a ∈ amts, 0 < a) :
    ∃ h' gb',
      readUntil amts (contents l).length h gb buffer
        = some (drain (l.map Blk.bytes) (amts.map Int.toNat), h', gb') ∧
      (drainRest l (amts.map Int.toNat) = [] → l ≠ [] →
        gb' = (if gb = lastAddr l then 0 else gb) ∧ ∀ y ∈ l, h'.cells y.addr = none) := by
  cases l with
  | nil =>
    refine ⟨h, gb, ?_, fun _ hne => absurd rfl hne⟩
    simp [contents, readUntil_zero, drain]
  | cons x rest =>
    obtain ⟨hgx, -⟩ := Ring_handle hr
    obtain ⟨h', gb', hrun, -, -, -, -, -, hnil⟩ :=
      readUntil_chain amts h gb x rest buffer (Ring_chain hr) hpos
    refine ⟨h', gb', ?_, fun hd _ => hnil hd⟩
    rw [hgx]
    exact hrun

theorem growbuffer_append_ring (data : List Nat) :
    ∃ h gb l, growbuffer_append Heap.empty 0 data = some (h, gb, 1) ∧ Ring h gb l ∧
      contents l = data := by
  obtain ⟨h, gb, l, happ, hr, hc, -⟩ := growbuffer_append_loop_ring data.length Heap.empty 0 []
    data Ring_empty (by simp [Heap.empty]) (Nat.le_refl _)
  exact ⟨h, gb, l, happ, hr, by rw [hc]; simp [contents]⟩

theorem drain_all_of_counts (cs : List (List Nat)) (rs : List Nat)
    (h : (drainCounts (cs.map List.length) rs).sum = cs.flatten.length) :
    (drain cs rs).flatten = cs.flatten := by
  apply List.IsPrefix.eq_of_length (drain_flatten_initial cs rs)
  rw [List.length_flatten, drain_map_length, h]

theorem map_bytes_length (l : List Blk) :
    (l.map Blk.bytes).map List.length = l.map (fun x => x.bytes.length) := by
  rw [List.map_map]; rfl

/-- C2: after any sequence of appends on the empty buffer (every allocation
succeeding), the reads issued for positive requests until all appended bytes
have been returned each return at least one byte; what they return, in call
order, is a prefix of the appended bytes.  It is all of the appended bytes
unless the requests ran out first, and as many requests as there are bytes
never run out. -/
theorem growbuffer_append_read_roundtrip (datas : List (List Nat)) (amts : List Int)
    (buffer : Mem) (hpos : ∀ a ∈ amts, 0 < a) :
    ∃ h gb outs h' gb',
      appendAll datas Heap.empty 0 = some (h, gb, 1) ∧
      readUntil amts datas.flatten.length h gb buffer = some (outs, h', gb') ∧
      (∀ o ∈ outs, o ≠ []) ∧
      outs.flatten <+: datas.flatten ∧
      (outs.flatten = datas.flatten ∨ outs.length = amts.length) ∧
      (datas.flatten.length ≤ amts.length → outs.flatten = datas.flatten) := by
  obtain ⟨h, gb, l, h', gb', happ, hr, hc, hrun, -⟩ := append_then_read datas amts buffer hpos
  have hne : ∀ c ∈ l.map Blk.bytes, c ≠ [] := by
    intro c hcm
    obtain ⟨x, hx, rfl⟩ := List.mem_map.mp hcm
    exact hr.2 x hx
  have hrs : ∀ r ∈ amts.map Int.toNat, 0 < r := by
    intro r hrm
    obtain ⟨a, ha, rfl⟩ := List.mem_map.mp hrm
    have := hpos a ha
    omega
  have hcf : (l.map Blk.bytes).flatten = datas.flatten := hc
  refine ⟨h, gb, _, h', gb', happ, hrun, drain_nonempty _ _ hne hrs, ?_, ?_, ?_⟩
  · rw [← hcf]; exact drain_flatten_initial _ _
  · rw [← hcf]
    have := drain_length_or_all (l.map Blk.bytes) (amts.map Int.toNat)
    rw [List.length_map] at this
    exact this
  · intro hlen
    rw [← hcf]
    apply drain_complete _ _ hne hrs
    rw [hcf, List.length_map]
    exact hlen

/-- An instance of C2: two appends, then reads of two bytes at a time; the
reads return `[1, 2]`, `[3, 4]` and `[5]`. -/
theorem growbuffer_append_read_roundtrip_witness :
    (∀ a ∈ [(2 : Int), 2, 2, 2, 2], 0 < a) ∧
    (∃ h gb outs h' gb',
      appendAll [[1, 2, 3], [4, 5]] Heap.empty 0 = some (h, gb, 1) ∧
      readUntil [2, 2, 2, 2, 2] [[1, 2, 3], [4, 5]].flatten.length h gb (fun _ => 0)
        = some (outs, h', gb') ∧
      (∀ o ∈ outs, o ≠ []) ∧
      outs.flatten <+: [[1, 2, 3], [4, 5]].flatten ∧
      (outs.flatten = [[1, 2, 3], [4, 5]].flatten ∨
        outs.length = [(2 : Int), 2, 2, 2, 2].length) ∧
      ([[1, 2, 3], [4, 5]].flatten.length ≤ [(2 : Int), 2, 2, 2, 2].length →
        outs.flatten = [[1, 2, 3], [4, 5]].flatten)) ∧
    ((appendAll [[1, 2, 3], [4, 5]] Heap.empty 0).bind
      (fun r => readUntil [2, 2, 2, 2, 2] 5 r.1 r.2.1 (fun _ => 0))).map (fun r => r.1)
      = some [[1, 2], [3, 4], [5]] :=
  ⟨by decide,
    growbuffer_append_read_roundtrip [[1, 2, 3], [4, 5]] [2, 2, 2, 2, 2] (fun _ => 0)
      (by decide),
    by decide⟩

/-! ## The handle after the ring has been drained -/

theorem ring_two_blocks {h : Heap} {gb : Nat} {l : List Blk} (hr : Ring h gb l)
    (hbig : 65536 < (contents l).length) : ∃ x y rest, l = x :: y :: rest := by
  match l, hr, hbig with
  | [], _, hbig => simp [contents] at hbig
  | [x], hr, hbig =>
    have := (hr.1.2.2.2.2.2.1 x (by simp)).2
    simp only [contents, List.map_cons, List.map_nil, List.flatten_cons, List.flatten_nil,
      List.append_nil] at hbig
    omega
  | x :: y :: rest, _, _ => exact ⟨x, y, rest, rfl⟩

theorem drainRest_nil_of_all (l : List Blk) (rs : List Nat) (hl : ∀ x ∈ l, x.bytes ≠ [])
    (hall : (drain (l.map Blk.bytes) rs).flatten.length = (contents l).length) :
    drainRest l rs = [] := by
  induction rs generalizing l with
  | nil =>
    cases l with
    | nil => simp [drainRest]
    | cons x rest =>
      have hx : 0 < x.bytes.length := List.length_pos.mpr (hl x (List.mem_cons_self _ _))
      simp only [List.map_cons, drain, List.flatten_nil, List.length_nil, contents_cons,
        List.length_append] at hall
      omega
  | cons r rs ih =>
    cases l with
    | nil => simp [drainRest]
    | cons x rest =>
      have hl2 : ∀ y ∈ rest, y.bytes ≠ [] := fun y hy => hl y (List.mem_cons_of_mem _ hy)
      simp only [List.map_cons, drain, contents_cons, List.length_append] at hall
      simp only [drainRest]
      by_cases hlt : r < x.bytes.length
      · simp only [hlt, if_true, List.flatten_cons, List.length_append, List.length_take] at hall ⊢
        apply ih
        · intro y hy
          rcases List.mem_cons.mp hy with rfl | hy
          · simp only
            intro hnil
            have := congrArg List.length hnil
            simp only [List.length_drop, List.length_nil] at this
            omega
          · exact hl2 y hy
        · simp only [List.map_cons, contents_cons, List.length_append, List.length_drop]
          omega
      · simp only [hlt, if_false, List.flatten_cons, List.length_append] at hall ⊢
        exact ih rest hl2 (by omega)

/-- The defect behind C4, in general: once a ring of more than one block (more
than 65536 bytes) has been read out completely, the handle is the address of
the first block, which has been freed. -/
theorem drained_ring_handle (h : Heap) (gb : Nat) (l : List Blk) (amts : List Int)
    (buffer : Mem) (hr : Ring h gb l) (hbig : 65536 < (contents l).length)
    (hpos : ∀ a ∈ amts, 0 < a) :
    ∃ h' gb',
      readUntil amts (contents l).length h gb buffer
        = some (drain (l.map Blk.bytes) (amts.map Int.toNat), h', gb') ∧
      ((drain (l.map Blk.bytes) (amts.map Int.toNat)).flatten.length = (contents l).length →
        gb' = gb ∧ gb ≠ 0 ∧ h'.cells gb = none) := by
  obtain ⟨h', gb', hrun, hnil⟩ := ring_then_read h gb l amts buffer hr hpos
  refine ⟨h', gb', hrun, ?_⟩
  intro hall
  obtain ⟨x, y, rest, rfl⟩ := ring_two_blocks hr hbig
  obtain ⟨hg, hdead⟩ := hnil (drainRest_nil_of_all _ _ hr.2 hall) (by simp)
  obtain ⟨hgx, hg0⟩ := Ring_handle hr
  have hnd : x.addr ∉ (y :: rest).map Blk.addr := by
    have := hr.1.2.1
    rw [List.map_cons] at this
    exact (List.nodup_cons.mp this).1
  have hlast : gb ≠ lastAddr (x :: y :: rest) := by
    rw [lastAddr_cons_cons, hgx]
    intro he
    exact hnd (he ▸ lastAddr_mem y rest)
  rw [if_neg hlast] at hg
  refine ⟨hg, hg0, ?_⟩
  rw [hgx]
  exact hdead x (List.mem_cons_self _ _)

theorem drain_append_extra (cs : List (List Nat)) (rs extra : List Nat)
    (h : drainRestCounts (cs.map List.length) rs = []) :
    drain cs (rs ++ extra) = drain cs rs := by
  induction rs generalizing cs with
  | nil =>
    cases cs with
    | nil => simp [drain]
    | cons c cs => simp [drainRestCounts] at h
  | cons r rs ih =>
    cases cs with
    | nil => simp [drain]
    | cons c cs =>
      simp only [List.map_cons, drainRestCounts] at h
      simp only [List.cons_append, drain]
      by_cases hlt : r < c.length
      · simp only [hlt, if_true] at h ⊢
        exact congrArg _ (ih (c.drop r :: cs) (by simpa using h))
      · simp only [hlt, if_false] at h ⊢
        exact congrArg _ (ih cs h)

/-- C4 at a failing input: 65537 bytes are appended in one call and read back
with requests of 65536 and 1 bytes.  The two reads return all the bytes, and
the handle they leave is not null: it is the address of a block that has been
freed. -/
theorem growbuffer_drained_handle_not_null :
    ∃ h gb outs h' gb',
      growbuffer_append Heap.empty 0 (List.replicate 65537 0) = some (h, gb, 1) ∧
      readUntil [65536, 1] 65537 h gb (fun _ => 0) = some (outs, h', gb') ∧
      outs.flatten = List.replicate 65537 0 ∧
      gb' ≠ 0 ∧ h'.cells gb' = none := by
  obtain ⟨h, gb, l, happ, hr, hc⟩ := growbuffer_append_ring (List.replicate 65537 0)
  have hlen : (contents l).length = 65537 := by rw [hc]; exact List.length_replicate _ _
  have hlay := Ring_layout hr
  rw [hlen] at hlay
  have hbs : blockSizes 65537 = [65536, 1] := by decide
  rw [hbs] at hlay
  obtain ⟨h', gb', hrun, hfin⟩ := drained_ring_handle h gb l [65536, 1] (fun _ => 0) hr
    (by omega) (by decide)
  have hamts : ([65536, 1] : List Int).map Int.toNat = [65536, 1] := by decide
  rw [hamts] at hrun hfin
  have hcounts : (drainCounts ((l.map Blk.bytes).map List.length) [65536, 1]).sum
      = (l.map Blk.bytes).flatten.length := by
    have : (l.map Blk.bytes).flatten.length = 65537 := hlen
    rw [this, map_bytes_length, hlay]
    decide
  have hall := drain_all_of_counts (l.map Blk.bytes) [65536, 1] hcounts
  obtain ⟨hg, hg0, hdead⟩ := hfin (by rw [hall]; rfl)
  rw [hlen] at hrun
  refine ⟨h, gb, _, h', gb', happ, hrun, ?_, by rw [hg]; exact hg0, by rw [hg]; exact hdead⟩
  rw [hall]
  exact hc

/-- C8 as the code has it: 130000 bytes appended in one call and read with
requests of 1000 bytes come back in 131 reads, the 66th of 536 bytes (the end
of the first block of 65536 bytes) and the 131st of 464 bytes, all others of
1000 bytes; the bytes returned are the appended bytes in order, and further
requests lead to no further read. -/
theorem read_130000_in_1000s (data : List Nat) (extra : List Int) (buffer : Mem)
    (hlen : data.length = 130000) (hextra : ∀ a ∈ extra, 0 < a) :
    ∃ h gb outs h' gb',
      growbuffer_append Heap.empty 0 data = some (h, gb, 1) ∧
      readUntil (List.replicate 131 1000 ++ extra) 130000 h gb buffer = some (outs, h', gb') ∧
      outs.map List.length
        = List.replicate 65 1000 ++ [536] ++ List.replicate 64 1000 ++ [464] ∧
      outs.flatten = data := by
  obtain ⟨h, gb, l, happ, hr, hc⟩ := growbuffer_append_ring data
  have hlen' : (contents l).length = 130000 := by rw [hc]; exact hlen
  have hlay := Ring_layout hr
  rw [hlen'] at hlay
  have hbs : blockSizes 130000 = [65536, 64464] := by decide
  rw [hbs] at hlay
  have hpos : ∀ a ∈ List.replicate 131 (1000 : Int) ++ extra, 0 < a := by
    intro a ha
    rcases List.mem_append.mp ha with ha | ha
    · rw [(List.mem_replicate.mp ha).2]; decide
    · exact hextra a ha
  obtain ⟨h', gb', hrun, -⟩ := ring_then_read h gb l _ buffer hr hpos
  have hamts : (List.replicate 131 (1000 : Int) ++ extra).map Int.toNat
      = List.replicate 131 1000 ++ extra.map Int.toNat := by
    rw [List.map_append]
    congr 1
  have hrest : drainRestCounts ((l.map Blk.bytes).map List.length) (List.replicate 131 1000)
      = [] := by
    rw [map_bytes_length, hlay]
    set_option maxRecDepth 20000 in decide
  rw [hamts, drain_append_extra _ _ _ hrest, hlen'] at hrun
  have hcounts : (drain (l.map Blk.bytes) (List.replicate 131 1000)).map List.length
      = List.replicate 65 1000 ++ [536] ++ List.replicate 64 1000 ++ [464] := by
    rw [drain_map_length, map_bytes_length, hlay]
    set_option maxRecDepth 20000 in decide
  refine ⟨h, gb, _, h', gb', happ, hrun, hcounts, ?_⟩
  rw [← hc]
  apply drain_all_of_counts
  have : (l.map Blk.bytes).flatten.length = 130000 := hlen'
  rw [this, map_bytes_length, hlay]
  set_option maxRecDepth 20000 in decide

/-- An instance of C8: 130000 zero bytes. -/
theorem read_130000_in_1000s_witness :
    (List.replicate 130000 0).length = 130000 ∧
    (∀ a ∈ ([] : List Int), 0 < a) ∧
    ∃ h gb outs h' gb',
      growbuffer_append Heap.empty 0 (List.replicate 130000 0) = some (h, gb, 1) ∧
      readUntil (List.replicate 131 1000 ++ []) 130000 h gb (fun _ => 0)
        = some (outs, h', gb') ∧
      outs.map List.length
        = List.replicate 65 1000 ++ [536] ++ List.replicate 64 1000 ++ [464] ∧
      outs.flatten = List.replicate 130000 0 :=
  ⟨List.length_replicate _ _, fun _ ha => absurd ha (List.not_mem_nil _),
    read_130000_in_1000s (List.replicate 130000 0) [] (fun _ => 0)
      (List.length_replicate _ _) (fun _ ha => absurd ha (List.not_mem_nil _))⟩

/-- C8 as stated fails: the first 130 reads of 1000 bytes requested do not
return 1000 bytes each. -/
theorem read_130000_not_130_full_reads :
    ¬ ∃ h gb outs h' gb',
      growbuffer_append Heap.empty 0 (List.replicate 130000 0) = some (h, gb, 1) ∧
      readUntil (List.replicate 130 1000) 130000 h gb (fun _ => 0) = some (outs, h', gb') ∧
      outs.map List.length = List.replicate 130 1000 := by
  rintro ⟨h, gb, outs, h', gb', happ, hrun, hcounts⟩
  obtain ⟨h0, gb0, l, happ0, hr, hc⟩ := growbuffer_append_ring (List.replicate 130000 0)
  have he := Prod.mk.inj (Option.some.inj (happ0.symm.trans happ))
  have hh : h0 = h := he.1
  have hg : gb0 = gb := (Prod.mk.inj he.2).1
  subst hh hg
  have hlen : (contents l).length = 130000 := by rw [hc]; exact List.length_replicate _ _
  have hlay := Ring_layout hr
  rw [hlen] at hlay
  have hbs : blockSizes 130000 = [65536, 64464] := by decide
  rw [hbs] at hlay
  obtain ⟨h1, gb1, hrun1, -⟩ := ring_then_read h0 gb0 l (List.replicate 130 1000)
    (fun _ => 0) hr (by intro a ha; rw [(List.mem_replicate.mp ha).2]; decide)
  rw [hlen] at hrun1
  have houts : outs = drain (l.map Blk.bytes) ((List.replicate 130 (1000 : Int)).map Int.toNat) :=
    (Prod.mk.inj (Option.some.inj (hrun.symm.trans hrun1))).1
  rw [houts, drain_map_length, map_bytes_length, hlay] at hcounts
  revert hcounts
  set_option maxRecDepth 20000 in decide

theorem map_eq_pair {α β : Type} (f : α → β) (l : List α) (a b : β) (h : l.map f = [a, b]) :
    ∃ x y, l = [x, y] ∧ f x = a ∧ f y = b := by
  match l, h with
  | [x, y], h =>
    simp only [List.map_cons, List.map_nil, List.cons.injEq, and_true] at h
    exact ⟨x, y, rfl, h.1, h.2⟩

/-- C10 at a failing input: 65537 bytes are appended, and a first read of 65536
bytes frees the first block and makes the second block (one unread byte) the
head.  The read of that last byte returns it, frees the block, and leaves as
handle the address of the first block, which is dead, instead of the empty
handle. -/
theorem growbuffer_read_last_block_handle :
    ∃ h gb h1 gb1 buffer1 h2 gb2 buffer2,
      growbuffer_append Heap.empty 0 (List.replicate 65537 0) = some (h, gb, 1) ∧
      growbuffer_read h gb 65536 (fun _ => 0) = some (h1, gb1, 65536, buffer1) ∧
      gb1 ≠ 0 ∧ gb1 ≠ gb ∧ h1.cells gb = none ∧
      (∃ b, h1.cells gb1 = some b ∧ b.size = 1) ∧
      growbuffer_read h1 gb1 1 buffer1 = some (h2, gb2, 1, buffer2) ∧
      h2.cells gb1 = none ∧ h2.cells gb = none ∧ gb2 = gb ∧ gb2 ≠ 0 := by
  obtain ⟨h, gb, l, happ, hr, hc⟩ := growbuffer_append_ring (List.replicate 65537 0)
  have hlen : (contents l).length = 65537 := by rw [hc]; exact List.length_replicate _ _
  have hlay := Ring_layout hr
  rw [hlen] at hlay
  have hbs : blockSizes 65537 = [65536, 1] := by decide
  rw [hbs] at hlay
  obtain ⟨x, y, rfl, hx, hy⟩ := map_eq_pair _ l _ _ hlay
  · obtain ⟨hgx, hg0⟩ := Ring_handle hr
    have hnd : x.addr ≠ y.addr := by
      have := hr.1.2.1
      simp only [List.map_cons, List.map_nil, List.nodup_cons, List.mem_singleton] at this
      exact this.1
    obtain ⟨h1, gb1, buffer1, hread1, -, -, -, hframe1, -, hfull1⟩ :=
      growbuffer_read_chain h gb x [y] 65536 (fun _ => 0) (Ring_chain hr) (by decide)
    have hmin1 : min (65536 : Int).toNat x.bytes.length = 65536 := by rw [hx]; rfl
    obtain ⟨hdead1, hgb1, hc1⟩ := hfull1 (by rw [hx]; decide)
    simp only [headAddr] at hgb1
    rw [if_neg (fun e => hnd e.symm)] at hgb1
    rw [hmin1] at hread1
    obtain ⟨h2, gb2, buffer2, hread2, -, -, -, hframe2, -, hfull2⟩ :=
      growbuffer_read_chain h1 gb y [] 1 buffer1 hc1 (by decide)
    have hmin2 : min (1 : Int).toNat y.bytes.length = 1 := by rw [hy]; rfl
    obtain ⟨hdead2, hgb2, -⟩ := hfull2 (by rw [hy]; decide)
    simp only [headAddr] at hgb2
    rw [hgx, if_neg hnd] at hgb2
    rw [hmin2] at hread2
    obtain ⟨by1, hby1, -, hsz1, -⟩ := Linked_live hc1.1 y (List.mem_singleton_self _)
    refine ⟨h, gb, h1, gb1, buffer1, h2, gb2, buffer2, happ, by rw [hgx]; exact hread1, ?_, ?_,
      by rw [hgx]; exact hdead1, ⟨by1, by rw [hgb1]; exact hby1, by rw [hsz1, hy]; rfl⟩,
      by rw [hgb1]; exact hread2, by rw [hgb1]; exact hdead2, ?_, by rw [hgb2, hgx],
      by rw [hgb2]; exact hr.1.1.1.1⟩
    · rw [hgb1]; exact hc1.1.1.1
    · rw [hgb1, hgx]; exact fun e => hnd e.symm
    · rw [hgx, hframe2 x.addr hnd]; exact hdead1

/-! ## The blocks of the ring after appends -/

theorem Ring_last_length {h : Heap} {gb : Nat} {l : List Blk} (hr : Ring h gb l) (x : Blk)
    (hx : l.getLast? = some x) :
    (contents l).length = 65536 * (l.length - 1) + x.bytes.length := by
  rcases List.eq_nil_or_concat l with rfl | ⟨l0, t, hlt⟩
  · simp at hx
  · rw [List.concat_eq_append] at hlt
    subst hlt
    have hdl := hr.1.2.2.2.2.2.2.1
    rw [List.dropLast_concat] at hdl
    have h0 : l0.map (fun x => x.bytes.length) = List.replicate l0.length 65536 := by
      rw [List.eq_replicate_iff]
      refine ⟨by simp, ?_⟩
      intro b hb
      obtain ⟨y, hy, rfl⟩ := List.mem_map.mp hb
      exact hdl y hy
    have hxt : t = x := by simpa using hx
    subst hxt
    rw [contents_length, List.map_append, List.sum_append, h0]
    simp [Nat.mul_comm]

theorem blockSizes_length (n : Nat) : (blockSizes n).length = (n + 65535) / 65536 := by
  unfold blockSizes
  by_cases hm : n % 65536 = 0
  · rw [if_pos hm]
    simp only [List.append_nil, List.length_replicate]
    omega
  · rw [if_neg hm]
    simp only [List.length_append, List.length_replicate, List.length_singleton]
    omega

/-- Appends to the empty buffer with no failing allocation: the result is a
ring that holds all the bytes, the heap holds no other live block, and the
number of blocks allocated is the number of blocks of the ring. -/
theorem appendAll_fresh (datas : List (List Nat)) :
    ∃ h gb l, appendAll datas Heap.empty 0 = some (h, gb, 1) ∧ Ring h gb l ∧ OnlyBlocks h l ∧
      contents l = datas.flatten ∧ h.brk = l.length + 1 := by
  obtain ⟨h, gb, l, r, hall, hr, hob, hbrk, -, hc, hor⟩ :=
    appendAll_gen datas (Heap.fresh []) 0 [] (Ring_fresh [])
  have hr1 : r = 1 := hor (by simp [Heap.fresh])
  subst hr1
  refine ⟨h, gb, l, hall, hr, hob (OnlyBlocks_fresh []), ?_, ?_⟩
  · rw [hc rfl]; simp [contents]
  · have : (Heap.fresh []).brk = 1 := rfl
    rw [this] at hbrk
    simp only [List.length_nil] at hbrk
    omega

/-- C14: for every sequence `datas` of appends to the empty buffer with no
failing allocation, of `N` bytes in total: the ring holds the `N` bytes in
`ceil(N / 65536)` blocks, which are all the live blocks of the heap and all
the blocks ever allocated; every block but the last holds 65536 bytes and the
last one holds the rest; when `N = 0` no block is allocated and the handle
stays the empty buffer. -/
theorem growbuffer_append_block_count (datas : List (List Nat)) :
    ∃ h gb l, appendAll datas Heap.empty 0 = some (h, gb, 1) ∧ Ring h gb l ∧ OnlyBlocks h l ∧
      contents l = datas.flatten ∧
      l.length = (datas.flatten.length + 65535) / 65536 ∧
      h.brk = l.length + 1 ∧
      (∀ x ∈ l.dropLast, x.bytes.length = 65536) ∧
      (∀ x, l.getLast? = some x →
        x.bytes.length = datas.flatten.length - 65536 * (l.length - 1) ∧
        0 < x.bytes.length ∧ x.bytes.length ≤ 65536) ∧
      (datas.flatten.length = 0 → gb = 0 ∧ l = [] ∧ h.brk = 1 ∧ ∀ a, h.cells a = none) := by
  obtain ⟨h, gb, l, hall, hr, hob, hc, hbrk⟩ := appendAll_fresh datas
  have hlen : l.length = (datas.flatten.length + 65535) / 65536 := by
    have := congrArg List.length (Ring_layout hr)
    rw [List.length_map, blockSizes_length, hc] at this
    exact this
  refine ⟨h, gb, l, hall, hr, hob, hc, hlen, hbrk, hr.1.2.2.2.2.2.2.1, ?_, ?_⟩
  · intro x hx
    have ht := Ring_last_length hr x hx
    rw [hc] at ht
    have hmem : x ∈ l := List.mem_of_getLast?_eq_some hx
    have h1 : 0 < x.bytes.length := List.length_pos.mpr (hr.2 x hmem)
    have h2 : x.bytes.length ≤ 65536 := (hr.1.2.2.2.2.2.1 x hmem).2
    exact ⟨by omega, h1, h2⟩
  · intro hz
    have hl0 : l.length = 0 := by rw [hlen, hz]
    have hnil : l = [] := List.length_eq_zero.mp hl0
    subst hnil
    refine ⟨Ring_handle_nil hr, rfl, by simpa using hbrk, ?_⟩
    intro a
    by_contra hne
    simpa using hob a hne

/-- An instance of C14: two appends of three bytes in total leave one block,
at address 1, with three bytes. -/
theorem growbuffer_append_block_count_witness :
    (∃ h gb l, appendAll [[1, 2], [3]] Heap.empty 0 = some (h, gb, 1) ∧ Ring h gb l ∧
      OnlyBlocks h l ∧ contents l = [[1, 2], [3]].flatten ∧
      l.length = ([[1, 2], [3]].flatten.length + 65535) / 65536 ∧
      h.brk = l.length + 1 ∧
      (∀ x ∈ l.dropLast, x.bytes.length = 65536) ∧
      (∀ x, l.getLast? = some x →
        x.bytes.length = [[1, 2], [3]].flatten.length - 65536 * (l.length - 1) ∧
        0 < x.bytes.length ∧ x.bytes.length ≤ 65536) ∧
      ([[1, 2], [3]].flatten.length = 0 →
        gb = 0 ∧ l = [] ∧ h.brk = 1 ∧ ∀ a, h.cells a = none)) ∧
    (appendAll [[1, 2], [3]] Heap.empty 0).map
      (fun r => (r.2.1, r.1.brk, (r.1.cells 1).map (fun b => b.size),
        (r.1.cells 2).map (fun b => b.size)))
      = some (1, 2, some 3, none) :=
  ⟨growbuffer_append_block_count [[1, 2], [3]], by decide⟩

/-! ## The blocks held during the reads -/

theorem Ring_ReadInv {h : Heap} {gb : Nat} {l : List Blk} (hr : Ring h gb l)
    (hob : OnlyBlocks h l) : ReadInv h gb := by
  refine ⟨gb, l, Ring_chain hr, hob, ?_, ?_⟩
  · intro x hx
    have := hr.1.2.2.2.2.2.1 x hx
    omega
  · intro hne
    cases l with
    | nil => exact absurd rfl hne
    | cons x rest => exact (Ring_handle hr).1

theorem growbuffer_read_inv (h : Heap) (gb : Nat) (amt : Int) (buffer : Mem) (h1 : Heap)
    (gb1 : Nat) (k : Int) (buffer1 : Mem) (hinv : ReadInv h gb) (hamt : 0 ≤ amt)
    (hread : growbuffer_read h gb amt buffer = some (h1, gb1, k, buffer1)) : ReadInv h1 gb1 := by
  obtain ⟨stop, l, hc, hob, hbound, hhead⟩ := hinv
  cases l with
  | nil =>
    by_cases hg : gb = 0
    · subst hg
      rw [growbuffer_read_null] at hread
      have he := Prod.mk.inj (Option.some.inj hread)
      rw [← he.1, ← (Prod.mk.inj he.2).1]
      exact ⟨stop, [], hc, hob, hbound, fun hne => absurd rfl hne⟩
    · have hcell : h.cells gb = none := by
        by_contra hne
        simpa using hob gb hne
      simp [growbuffer_read, hg, load, hcell] at hread
  | cons x rest =>
    have hgx : gb = x.addr := hhead (by simp)
    subst hgx
    obtain ⟨h', gb', buffer', hrd, -, -, -, hframe, hpart, hfull⟩ :=
      growbuffer_read_chain h stop x rest amt buffer hc hamt
    rw [hrd] at hread
    have he := Prod.mk.inj (Option.some.inj hread)
    have hh : h' = h1 := he.1
    have hg : gb' = gb1 := (Prod.mk.inj he.2).1
    subst hh hg
    have hnd : x.addr ∉ rest.map Blk.addr := by
      have := hc.2.1
      rw [List.map_cons] at this
      exact (List.nodup_cons.mp this).1
    by_cases hlt : amt.toNat < x.bytes.length
    · obtain ⟨hg', hc'⟩ := hpart hlt
      refine ⟨stop, ⟨x.addr, x.off + amt.toNat, x.bytes.drop amt.toNat⟩ :: rest, hc', ?_, ?_,
        fun _ => hg'⟩
      · intro a ha
        by_cases hax : a = x.addr
        · simp [hax]
        · rw [hframe a hax] at ha
          have := hob a ha
          simpa using this
      · intro y hy
        rcases List.mem_cons.mp hy with rfl | hy
        · have := hbound x (List.mem_cons_self _ _)
          simp only [List.length_drop]
          omega
        · exact hbound y (List.mem_cons_of_mem _ hy)
    · obtain ⟨hdead, hg', hc'⟩ := hfull (Nat.le_of_not_lt hlt)
      refine ⟨stop, rest, hc', ?_, fun y hy => hbound y (List.mem_cons_of_mem _ hy), ?_⟩
      · intro a ha
        have hax : a ≠ x.addr := by
          intro he
          rw [he] at ha
          exact ha hdead
        rw [hframe a hax] at ha
        have := hob a ha
        rw [List.map_cons] at this
        rcases List.mem_cons.mp this with he | hm
        · exact absurd he hax
        · exact hm
      · intro hne
        cases rest with
        | nil => exact absurd rfl hne
        | cons y rest2 =>
          simp only [headAddr] at hg' ⊢
          have hyx : y.addr ≠ x.addr := by
            intro he
            exact hnd (by simp [he])
          rw [if_neg hyx] at hg'
          exact hg'

theorem readAll_inv (amts : List Int) (h : Heap) (gb : Nat) (buffer : Mem) (h' : Heap)
    (gb' : Nat) (hinv : ReadInv h gb) (hamts : ∀ a ∈ amts, 0 ≤ a)
    (hread : readAll amts h gb buffer = some (h', gb')) : ReadInv h' gb' := by
  induction amts generalizing h gb buffer with
  | nil =>
    have he := Prod.mk.inj (Option.some.inj hread)
    rw [← he.1, ← he.2]
    exact hinv
  | cons amt amts ih =>
    simp only [readAll] at hread
    cases hrd : growbuffer_read h gb amt buffer with
    | none => rw [hrd] at hread; exact absurd hread (by simp)
    | some res =>
      obtain ⟨h1, gb1, k, buffer1⟩ := res
      rw [hrd] at hread
      exact ih h1 gb1 buffer1
        (growbuffer_read_inv h gb amt buffer h1 gb1 k buffer1 hinv
          (hamts amt (List.mem_cons_self _ _)) hrd)
        (fun a ha => hamts a (List.mem_cons_of_mem _ ha)) hread

theorem ReadInv_blocks {h : Heap} {gb : Nat} (hinv : ReadInv h gb) (a : Nat) (b : growbuffer)
    (hb : h.cells a = some b) : 0 ≤ b.start ∧ b.start + b.size ≤ 65536 ∧ 0 < b.size := by
  obtain ⟨stop, l, hc, hob, hbound, -⟩ := hinv
  have hmem := hob a (by rw [hb]; simp)
  obtain ⟨x, hx, rfl⟩ := List.mem_map.mp hmem
  obtain ⟨b', hb', hstart, hsize, -⟩ := Linked_live hc.1 x hx
  rw [hb] at hb'
  have hbb : b = b' := Option.some.inj hb'
  subst hbb
  have h1 := hbound x hx
  have h2 : 0 < x.bytes.length := List.length_pos.mpr (hc.2.2 x hx)
  rw [hstart, hsize]
  omega

/-- The reads on a chain are defined as long as the requests before the last
one total less than the bytes held: then no read is issued on a drained
buffer. -/
theorem readAll_chain_defined (amts : List Int) (h : Heap) (stop : Nat) (x : Blk)
    (rest : List Blk) (buffer : Mem) (hc : Chain h stop (x :: rest))
    (hamts : ∀ a ∈ amts, 0 ≤ a)
    (hsum : (amts.dropLast.map Int.toNat).sum < (contents (x :: rest)).length) :
    ∃ h' gb', readAll amts h x.addr buffer = some (h', gb') := by
  induction amts generalizing h x rest buffer with
  | nil => exact ⟨h, x.addr, rfl⟩
  | cons amt amts ih =>
    obtain ⟨h1, gb1, buffer1, hrd, -, -, -, -, hpart, hfull⟩ :=
      growbuffer_read_chain h stop x rest amt buffer hc (hamts amt (List.mem_cons_self _ _))
    simp only [readAll, hrd]
    cases amts with
    | nil => exact ⟨h1, gb1, rfl⟩
    | cons amt2 amts2 =>
      rw [List.dropLast_cons₂, List.map_cons, List.sum_cons, contents_cons,
        List.length_append] at hsum
      by_cases hlt : amt.toNat < x.bytes.length
      · obtain ⟨hg1, hc1⟩ := hpart hlt
        rw [hg1]
        apply ih h1 ⟨x.addr, x.off + amt.toNat, x.bytes.drop amt.toNat⟩ rest buffer1 hc1
          (fun a ha => hamts a (List.mem_cons_of_mem _ ha))
        rw [contents_cons, List.length_append]
        simp only [List.length_drop]
        omega
      · obtain ⟨-, hg1, hc1⟩ := hfull (Nat.le_of_not_lt hlt)
        cases rest with
        | nil =>
          simp only [contents, List.map_nil, List.flatten_nil, List.length_nil] at hsum
          omega
        | cons y rest2 =>
          have hyx : y.addr ≠ x.addr := by
            have := hc.2.1
            simp only [List.map_cons, List.nodup_cons, List.mem_cons, not_or] at this
            exact fun he => this.1.1 he.symm
          simp only [headAddr] at hg1
          rw [if_neg hyx] at hg1
          rw [hg1]
          apply ih h1 y rest2 buffer1 hc1 (fun a ha => hamts a (List.mem_cons_of_mem _ ha))
          omega

/-- C15: appends to the empty buffer (whatever the outcomes of `malloc`) leave
a heap `h` and a handle `gb` such that after reads with requests `amts` that
are not negative, every live block `b` of the heap, and so every block held by
the buffer, has `0 <= start`, `start + size <= 65536` and `0 < size`.  The
reads return when all the appends succeeded and the requests before the last
one total less than the bytes appended (no read is then issued after the
buffer was drained). -/
theorem growbuffer_block_bounds (oracle : List Bool) (datas : List (List Nat))
    (amts : List Int) (buffer : Mem) (hamts : ∀ a ∈ amts, 0 ≤ a) :
    ∃ h gb r, appendAll datas (Heap.fresh oracle) 0 = some (h, gb, r) ∧
      (∀ h' gb', readAll amts h gb buffer = some (h', gb') →
        ∀ a b, h'.cells a = some b → 0 ≤ b.start ∧ b.start + b.size ≤ 65536 ∧ 0 < b.size) ∧
      (r = 1 → (amts.dropLast.map Int.toNat).sum < datas.flatten.length →
        ∃ h' gb', readAll amts h gb buffer = some (h', gb')) := by
  obtain ⟨h, gb, l, r, hall, hr, hob, -, -, hc, -⟩ :=
    appendAll_gen datas (Heap.fresh oracle) 0 [] (Ring_fresh oracle)
  have hinv : ReadInv h gb := Ring_ReadInv hr (hob (OnlyBlocks_fresh oracle))
  refine ⟨h, gb, r, hall, ?_, ?_⟩
  · intro h' gb' hread a b hb
    exact ReadInv_blocks (readAll_inv amts h gb buffer h' gb' hinv hamts hread) a b hb
  · intro hr1 hsum
    have hcl : contents l = datas.flatten := by rw [hc hr1]; simp [contents]
    cases l with
    | nil =>
      rw [← hcl] at hsum
      simp [contents] at hsum
    | cons x rest =>
      rw [(Ring_handle hr).1]
      exact readAll_chain_defined amts h gb x rest buffer (Ring_chain hr) hamts
        (by rw [hcl]; exact hsum)

/-- An instance of C15: three bytes are appended and two are read; the block
at address 1 is then held with `start = 2` and `size = 1`. -/
theorem growbuffer_block_bounds_witness :
    (∀ a ∈ [(2 : Int)], 0 ≤ a) ∧
    (∃ h gb r, appendAll [[1, 2, 3]] (Heap.fresh []) 0 = some (h, gb, r) ∧
      (∀ h' gb', readAll [2] h gb (fun _ => 0) = some (h', gb') →
        ∀ a b, h'.cells a = some b → 0 ≤ b.start ∧ b.start + b.size ≤ 65536 ∧ 0 < b.size) ∧
      (r = 1 → ([(2 : Int)].dropLast.map Int.toNat).sum < [[1, 2, 3]].flatten.length →
        ∃ h' gb', readAll [2] h gb (fun _ => 0) = some (h', gb'))) ∧
    ((appendAll [[1, 2, 3]] (Heap.fresh []) 0).bind
      (fun r => readAll [2] r.1 r.2.1 (fun _ => 0))).map
        (fun r => (r.2, (r.1.cells 1).map (fun b => (b.start, b.size))))
      = some (1, some (2, 1)) :=
  ⟨by decide, growbuffer_block_bounds [] [[1, 2, 3]] [2] (fun _ => 0) (by decide), by decide⟩

/-! ## `growbuffer_destroy` -/

/-- The loop of `growbuffer_destroy` on blocks linked up to `start`, none of
which but the first is `start`: every block is freed once, in order, and no
other block is touched. -/
theorem growbuffer_destroy_loop_linked (l : List Blk) (fuel : Nat) (h : Heap) (start : Nat)
    (freed : List Nat) (hl : Linked h start l) (hnd : (l.map Blk.addr).Nodup)
    (hs : start ∉ l.tail.map Blk.addr) (hfuel : l.length < fuel) :
    ∃ h', growbuffer_destroy_loop fuel h start (headAddr 0 l) freed
        = DestroyResult.done h' (freed ++ l.map Blk.addr) ∧
      (∀ x ∈ l, h'.cells x.addr = none) ∧
      (∀ a, a ∉ l.map Blk.addr → h'.cells a = h.cells a) := by
  induction l generalizing fuel h freed with
  | nil =>
    cases fuel with
    | zero => simp at hfuel
    | succ f =>
      exact ⟨h, by simp [growbuffer_destroy_loop, headAddr], by simp, fun _ _ => rfl⟩
  | cons x rest ih =>
    cases fuel with
    | zero => simp at hfuel
    | succ f =>
      obtain ⟨⟨ha, b, hb, hnext, -⟩, hrest⟩ := hl
      rw [List.map_cons] at hnd
      obtain ⟨hx, hnd2⟩ := List.nodup_cons.mp hnd
      have hrest1 : Linked { h with cells := Function.update h.cells x.addr none } start rest := by
        apply Linked_frame _ hrest
        intro y hy
        have : y.addr ≠ x.addr := by
          intro he
          exact hx (he ▸ List.mem_map_of_mem Blk.addr hy)
        simp [Function.update, this]
      have hgo : (if b.next = start then 0 else b.next) = headAddr 0 rest := by
        rw [hnext]
        cases rest with
        | nil => simp [headAddr]
        | cons y rest2 =>
          simp only [headAddr]
          rw [if_neg]
          intro he
          exact hs (by simp [he])
      have hs2 : start ∉ rest.tail.map Blk.addr := by
        intro hm
        apply hs
        simp only [List.tail_cons]
        obtain ⟨y, hy, hya⟩ := List.mem_map.mp hm
        exact List.mem_map.mpr ⟨y, List.mem_of_mem_tail hy, hya⟩
      obtain ⟨h', hrun, hdead, hframe⟩ :=
        ih f { h with cells := Function.update h.cells x.addr none } (freed ++ [x.addr])
          hrest1 hnd2 hs2 (by simp only [List.length_cons] at hfuel; omega)
      refine ⟨h', ?_, ?_, ?_⟩
      · show growbuffer_destroy_loop (f + 1) h start x.addr freed = _
        simp only [growbuffer_destroy_loop, ha, if_false, load_of_cell ha hb,
          free_of_cell ha hb]
        rw [hgo, hrun]
        simp
      · intro y hy
        rcases List.mem_cons.mp hy with rfl | hy
        · rw [hframe y.addr hx]
          simp
        · exact hdead y hy
      · intro a hna
        rw [List.map_cons, List.mem_cons, not_or] at hna
        rw [hframe a hna.2]
        simp [Function.update, hna.1]

/-- On a ring as the appends leave it, `growbuffer_destroy` frees every block
once and stops. -/
theorem growbuffer_destroy_ring {h : Heap} {gb : Nat} {l : List Blk} (hr : Ring h gb l) :
    ∃ h', growbuffer_destroy (l.length + 1) h gb = DestroyResult.done h' (l.map Blk.addr) ∧
      (∀ x ∈ l, h'.cells x.addr = none) ∧
      (∀ a, a ∉ l.map Blk.addr → h'.cells a = h.cells a) := by
  have hs : gb ∉ l.tail.map Blk.addr := by
    cases l with
    | nil => simp
    | cons x rest =>
      rw [(Ring_handle hr).1]
      have := hr.1.2.1
      rw [List.map_cons] at this
      exact (List.nodup_cons.mp this).1
  obtain ⟨h', hrun, hdead, hframe⟩ :=
    growbuffer_destroy_loop_linked l (l.length + 1) h gb [] hr.1.1 hr.1.2.1 hs (Nat.lt_succ_self _)
  refine ⟨h', ?_, hdead, hframe⟩
  unfold growbuffer_destroy
  have hg : gb = headAddr 0 l := hr.1.2.2.1
  rw [List.nil_append] at hrun
  rw [← hg] at hrun
  exact hrun

/-- C12 at a failing input: 65537 bytes are appended and 65536 are read, so
that the first block is freed and the second block, with one unread byte, is
the head.  `growbuffer_destroy` on this handle frees the second block, follows
its `next` link to the first block, which `growbuffer_read` already freed, and
reads the `next` field of that dead block. -/
theorem growbuffer_destroy_follows_freed_link :
    ∃ h gb h1 gb1 buffer1,
      growbuffer_append Heap.empty 0 (List.replicate 65537 0) = some (h, gb, 1) ∧
      growbuffer_read h gb 65536 (fun _ => 0) = some (h1, gb1, 65536, buffer1) ∧
      gb1 ≠ 0 ∧ gb1 ≠ gb ∧ h1.cells gb = none ∧
      (∃ b, h1.cells gb1 = some b ∧ b.size = 1 ∧ b.next = gb) ∧
      ∀ fuel, growbuffer_destroy (fuel + 2) h1 gb1 = DestroyResult.deadAccess gb [gb1] := by
  obtain ⟨h, gb, l, happ, hr, hc⟩ := growbuffer_append_ring (List.replicate 65537 0)
  have hlen : (contents l).length = 65537 := by rw [hc]; exact List.length_replicate _ _
  have hlay := Ring_layout hr
  rw [hlen] at hlay
  have hbs : blockSizes 65537 = [65536, 1] := by decide
  rw [hbs] at hlay
  obtain ⟨x, y, rfl, hx, hy⟩ := map_eq_pair _ l _ _ hlay
  obtain ⟨hgx, hg0⟩ := Ring_handle hr
  have hnd : x.addr ≠ y.addr := by
    have := hr.1.2.1
    simp only [List.map_cons, List.map_nil, List.nodup_cons, List.mem_singleton] at this
    exact this.1
  obtain ⟨h1, gb1, buffer1, hread1, -, -, -, hframe1, -, hfull1⟩ :=
    growbuffer_read_chain h gb x [y] 65536 (fun _ => 0) (Ring_chain hr) (by decide)
  have hmin1 : min (65536 : Int).toNat x.bytes.length = 65536 := by rw [hx]; rfl
  obtain ⟨hdead1, hgb1, hc1⟩ := hfull1 (by rw [hx]; decide)
  simp only [headAddr] at hgb1
  rw [if_neg (fun e => hnd e.symm)] at hgb1
  rw [hmin1] at hread1
  obtain ⟨⟨hya, by1, hby1, hnext1, -, hsz1, -⟩, -⟩ := hc1.1
  simp only [headAddr] at hnext1
  refine ⟨h, gb, h1, gb1, buffer1, happ, by rw [hgx]; exact hread1, by rw [hgb1]; exact hya,
    by rw [hgb1, hgx]; exact fun e => hnd e.symm, by rw [hgx]; exact hdead1,
    ⟨by1, by rw [hgb1]; exact hby1, by rw [hsz1, hy]; rfl, hnext1⟩, ?_⟩
  intro fuel
  have hcell : (Function.update h1.cells y.addr none) gb = none := by
    rw [hgx]
    simp only [Function.update, hnd, dite_false]
    exact hdead1
  have hload : load { h1 with cells := Function.update h1.cells y.addr none } gb = none := by
    simp [load, hcell]
  rw [hgb1]
  simp only [growbuffer_destroy, growbuffer_destroy_loop, hya, if_false, load_of_cell hya hby1,
    free_of_cell hya hby1, hnext1]
  have hif : (if gb = y.addr then 0 else gb) = gb := if_neg (by rw [hgx]; exact hnd)
  simp only [hif, hg0, if_false, hload, List.nil_append]

/-! ## The upload callback -/

theorem wrapInt32_le (x : Int) (h0 : 0 ≤ x) : wrapInt32 x ≤ x := by
  unfold wrapInt32
  omega

theorem growbuffer_read_ret_bounds (h : Heap) (gb : Nat) (amt : Int) (buffer : Mem)
    (h1 : Heap) (gb1 : Nat) (k : Int) (buffer1 : Mem)
    (hread : growbuffer_read h gb amt buffer = some (h1, gb1, k, buffer1)) :
    0 ≤ k ∧ (k ≤ amt ∨ k = 0) := by
  unfold growbuffer_read at hread
  by_cases hgb : gb = 0
  · simp only [hgb, if_true, Option.some.injEq, Prod.mk.injEq] at hread
    obtain ⟨-, -, rfl, -⟩ := hread
    exact ⟨le_refl _, Or.inr rfl⟩
  · simp only [hgb, if_false] at hread
    cases hb : load h gb with
    | none => rw [hb] at hread; exact absurd hread (by simp)
    | some b =>
      rw [hb] at hread
      simp only at hread
      have hk : (if b.size > amt then amt else b.size) ≤ amt := by
        split <;> omega
      generalize (if b.size > amt then amt else b.size) = k0 at hread hk
      by_cases hneg : k0 < 0 ∨ b.start < 0
      · rw [if_pos hneg] at hread; exact absurd hread (by simp)
      · rw [if_neg hneg] at hread
        have hk0 : 0 ≤ k0 := by
          by_contra hc; exact hneg (Or.inl (by omega))
        cases hst : store h gb { b with start := b.start + k0, size := b.size - k0 } with
        | none => rw [hst] at hread; exact absurd hread (by simp)
        | some h2 =>
          rw [hst] at hread
          simp only at hread
          by_cases hz : b.size - k0 = 0
          · rw [if_pos hz] at hread
            cases hfr : free h2 gb with
            | none => rw [hfr] at hread; exact absurd hread (by simp)
            | some h3 =>
              rw [hfr] at hread
              simp only [Option.some.injEq, Prod.mk.injEq] at hread
              obtain ⟨-, -, rfl, -⟩ := hread
              exact ⟨hk0, Or.inl hk⟩
          · rw [if_neg hz] at hread
            simp only [Option.some.injEq, Prod.mk.injEq] at hread
            obtain ⟨-, -, rfl, -⟩ := hread
            exact ⟨hk0, Or.inl hk⟩

/-- The file branch of the callback, written out. -/
theorem putObjectCallback_file (h : Heap) (s : Int) (buffer : Mem)
    (data : put_object_callback_data) (f : List Nat) (hf : data.infile = some f)
    (hs0 : 0 ≤ s) (hs1 : s < 2 ^ 31) (hL : data.contentLength < 2 ^ 64)
    (hne : data.contentLength ≠ 0)
    (hfit : min (min data.contentLength s.toNat) f.length ≤ 65536) :
    putObjectCallback h s buffer data
      = some (((min (min data.contentLength s.toNat) f.length : Nat) : Int), buffer, h,
          { data with
            infile := some (f.drop (min (min data.contentLength s.toNat) f.length)),
            readBuffer := memcpyList data.readBuffer 0
              (f.take (min (min data.contentLength s.toNat) f.length)),
            contentLength :=
              data.contentLength - min (min data.contentLength s.toNat) f.length }) := by
  obtain ⟨n, rfl⟩ : ∃ n : Nat, s = (n : Int) := ⟨s.toNat, (Int.toNat_of_nonneg hs0).symm⟩
  have hn : n < 2 ^ 31 := by exact_mod_cast hs1
  have hbs : ((n : Int) % 2 ^ 64).toNat = n := by
    rw [Int.emod_eq_of_lt (by omega) (by omega)]; exact Int.toNat_ofNat _
  have hmin : (if data.contentLength > n then (n : Int) else (data.contentLength : Int))
      = ((min data.contentLength n : Nat) : Int) := by
    split
    · rw [Nat.min_eq_right (by omega)]
    · rw [Nat.min_eq_left (by omega)]
  have hm1 : min data.contentLength n < 2 ^ 31 := by
    have := Nat.min_le_right data.contentLength n; omega
  have htr : wrapInt32 ((min data.contentLength n : Nat) : Int) = (min data.contentLength n : Nat) :=
    wrapInt32_eq _ (by omega) (by omega)
  have hcount : (((min data.contentLength n : Nat) : Int) % 2 ^ 64).toNat
      = min data.contentLength n := by
    rw [Int.emod_eq_of_lt (by omega) (by omega)]; exact Int.toNat_ofNat _
  have hk1 : min (min data.contentLength n) f.length < 2 ^ 31 := by
    have := Nat.min_le_left (min data.contentLength n) f.length; omega
  have hk2 : min (min data.contentLength n) f.length ≤ data.contentLength := by
    have := Nat.min_le_left (min data.contentLength n) f.length
    have := Nat.min_le_left data.contentLength n
    omega
  have hret : wrapInt32 ((min (min data.contentLength n) f.length : Nat) : Int)
      = (min (min data.contentLength n) f.length : Nat) :=
    wrapInt32_eq _ (by omega) (by omega)
  have hsub : (((data.contentLength : Int) - ((min (min data.contentLength n) f.length : Nat) : Int))
      % 2 ^ 64).toNat = data.contentLength - min (min data.contentLength n) f.length := by
    rw [Int.emod_eq_of_lt (by omega) (by omega)]
    omega
  simp only [Int.toNat_ofNat] at hfit
  have hgt : ¬ (min (min data.contentLength n) f.length > 65536) := by omega
  unfold putObjectCallback
  simp only [hne, ne_eq, not_false_eq_true, if_true, hf, hbs, hmin, htr, hcount, fread, hret,
    hsub, Int.toNat_ofNat, hgt, if_false]

/-- The file branch of the callback when `fread` delivers more than the 65536
bytes that `readBuffer` holds: the behaviour is undefined. -/
theorem putObjectCallback_file_overflow (h : Heap) (s : Int) (buffer : Mem)
    (data : put_object_callback_data) (f : List Nat) (hf : data.infile = some f)
    (hs0 : 0 ≤ s) (hs1 : s < 2 ^ 31) (hL : data.contentLength < 2 ^ 64)
    (hover : 65536 < min (min data.contentLength s.toNat) f.length) :
    putObjectCallback h s buffer data = none := by
  obtain ⟨n, rfl⟩ : ∃ n : Nat, s = (n : Int) := ⟨s.toNat, (Int.toNat_of_nonneg hs0).symm⟩
  have hn : n < 2 ^ 31 := by exact_mod_cast hs1
  simp only [Int.toNat_ofNat] at hover
  have hne : data.contentLength ≠ 0 := by
    have := Nat.min_le_left (min data.contentLength n) f.length
    have := Nat.min_le_left data.contentLength n
    omega
  have hbs : ((n : Int) % 2 ^ 64).toNat = n := by
    rw [Int.emod_eq_of_lt (by omega) (by omega)]; exact Int.toNat_ofNat _
  have hmin : (if data.contentLength > n then (n : Int) else (data.contentLength : Int))
      = ((min data.contentLength n : Nat) : Int) := by
    split
    · rw [Nat.min_eq_right (by omega)]
    · rw [Nat.min_eq_left (by omega)]
  have hm1 : min data.contentLength n < 2 ^ 31 := by
    have := Nat.min_le_right data.contentLength n; omega
  have htr : wrapInt32 ((min data.contentLength n : Nat) : Int) = (min data.contentLength n : Nat) :=
    wrapInt32_eq _ (by omega) (by omega)
  have hcount : (((min data.contentLength n : Nat) : Int) % 2 ^ 64).toNat
      = min data.contentLength n := by
    rw [Int.emod_eq_of_lt (by omega) (by omega)]; exact Int.toNat_ofNat _
  have hgt : min (min data.contentLength n) f.length > 65536 := hover
  unfold putObjectCallback
  simp only [hne, ne_eq, not_false_eq_true, if_true, hf, hbs, hmin, htr, hcount, fread, hgt]

/-- One call of the callback keeps the books: the return value is not negative
and not more than `contentLength`, and `contentLength` goes down by it; the
caller's buffer is returned as it was. -/
theorem putObjectCallback_account (h : Heap) (s : Int) (buffer : Mem)
    (data : put_object_callback_data) (ret : Int) (buffer1 : Mem) (h1 : Heap)
    (data1 : put_object_callback_data)
    (hs0 : 0 ≤ s) (hs1 : s < 2 ^ 31) (hL : data.contentLength < 2 ^ 64)
    (hcall : putObjectCallback h s buffer data = some (ret, buffer1, h1, data1)) :
    0 ≤ ret ∧ ret ≤ (data.contentLength : Int) ∧
    (data1.contentLength : Int) = (data.contentLength : Int) - ret ∧ buffer1 = buffer := by
  by_cases hne : data.contentLength = 0
  · simp only [putObjectCallback, hne, ne_eq, not_true_eq_false, if_false, Option.some.injEq,
      Prod.mk.injEq] at hcall
    obtain ⟨rfl, rfl, -, rfl⟩ := hcall
    simp only [hne, Nat.cast_zero, sub_zero, Int.zero_emod, Int.toNat_zero, le_refl, and_self]
  · cases hf : data.infile with
    | some f =>
      by_cases hfit : min (min data.contentLength s.toNat) f.length ≤ 65536
      swap
      · rw [putObjectCallback_file_overflow h s buffer data f hf hs0 hs1 hL (by omega)] at hcall
        exact absurd hcall (by simp)
      rw [putObjectCallback_file h s buffer data f hf hs0 hs1 hL hne hfit] at hcall
      simp only [Option.some.injEq, Prod.mk.injEq] at hcall
      obtain ⟨rfl, rfl, -, rfl⟩ := hcall
      have hk2 : min (min data.contentLength s.toNat) f.length ≤ data.contentLength := by
        have := Nat.min_le_left (min data.contentLength s.toNat) f.length
        have := Nat.min_le_left data.contentLength s.toNat
        omega
      refine ⟨by omega, by exact_mod_cast hk2, ?_, rfl⟩
      simp only
      omega
    | none =>
      by_cases hgb : data.gb = 0
      · simp only [putObjectCallback, hne, ne_eq, not_false_eq_true, if_true, hf, hgb,
          not_true_eq_false, if_false, Option.some.injEq, Prod.mk.injEq] at hcall
        obtain ⟨rfl, rfl, -, rfl⟩ := hcall
        refine ⟨le_refl _, by omega, ?_, rfl⟩
        simp only [sub_zero]
        rw [Int.emod_eq_of_lt (by omega) (by omega)]
        simp
      · simp only [putObjectCallback, hne, ne_eq, not_false_eq_true, if_true, hf, hgb,
          if_false] at hcall
        cases hread : growbuffer_read h data.gb (wrapInt32 data.contentLength) data.readBuffer with
        | none => rw [hread] at hcall; exact absurd hcall (by simp)
        | some r =>
          obtain ⟨h2, gb2, k, rb⟩ := r
          rw [hread] at hcall
          by_cases hkb : k > 65536
          · simp only [hkb, if_true] at hcall
            exact absurd hcall (by simp)
          simp only [hkb, if_false, Option.some.injEq, Prod.mk.injEq] at hcall
          obtain ⟨rfl, rfl, -, rfl⟩ := hcall
          obtain ⟨hk0, hk1⟩ := growbuffer_read_ret_bounds _ _ _ _ _ _ _ _ hread
          have hw := wrapInt32_le (data.contentLength : Int) (by omega)
          have hkL : k ≤ (data.contentLength : Int) := by
            rcases hk1 with hk1 | hk1 <;> omega
          refine ⟨hk0, hkL, ?_, rfl⟩
          simp only
          rw [Int.toNat_of_nonneg (Int.emod_nonneg _ (by omega)),
            Int.emod_eq_of_lt (by omega) (by omega)]

/-- The callback on a source whose counter is 0: nothing happens. -/
theorem putObjectCallback_done (h : Heap) (s : Int) (buffer : Mem)
    (data : put_object_callback_data) (hz : data.contentLength = 0) :
    putObjectCallback h s buffer data = some (0, buffer, h, data) := by
  unfold putObjectCallback
  simp only [hz, ne_eq, not_true_eq_false, if_false, Nat.cast_zero, sub_zero, Int.zero_emod,
    Int.toNat_zero]
  rw [← hz]

theorem accounted_sum (remaining : Nat) (rets : List (Int × Nat)) (ha : Accounted remaining rets) :
    (lastRemaining remaining rets : Int) = (remaining : Int) - (rets.map Prod.fst).sum := by
  induction rets generalizing remaining with
  | nil => simp [lastRemaining]
  | cons r rest ih =>
    obtain ⟨ret, after⟩ := r
    obtain ⟨-, -, h3, h4⟩ := ha
    simp only [lastRemaining, List.map_cons, List.sum_cons]
    rw [ih after h4, h3]
    omega

theorem accounted_chain (remaining : Nat) (rets : List (Int × Nat))
    (ha : Accounted remaining rets) :
    List.Chain (fun a b => b ≤ a) remaining (rets.map Prod.snd) := by
  induction rets generalizing remaining with
  | nil => exact List.Chain.nil
  | cons r rest ih =>
    obtain ⟨ret, after⟩ := r
    obtain ⟨h1, h2, h3, h4⟩ := ha
    exact List.Chain.cons (by simp only; omega) (ih after h4)

theorem accounted_nonneg (remaining : Nat) (rets : List (Int × Nat))
    (ha : Accounted remaining rets) : ∀ r ∈ rets, 0 ≤ r.1 := by
  induction rets generalizing remaining with
  | nil => simp
  | cons r rest ih =>
    obtain ⟨ret, after⟩ := r
    obtain ⟨h1, -, -, h4⟩ := ha
    intro r hr
    rcases List.mem_cons.mp hr with rfl | hr
    · exact h1
    · exact ih after h4 r hr

theorem supplyCalls_account (sizes : List Int) (h : Heap) (buffer : Mem)
    (data : put_object_callback_data) (rets : List (Int × Nat)) (h' : Heap)
    (data' : put_object_callback_data)
    (hL : data.contentLength < 2 ^ 64) (hsizes : ∀ s ∈ sizes, 0 ≤ s ∧ s < 2 ^ 31)
    (hrun : supplyCalls sizes h buffer data = some (rets, h', data')) :
    Accounted data.contentLength rets ∧
    data'.contentLength = lastRemaining data.contentLength rets := by
  induction sizes generalizing h buffer data rets with
  | nil =>
    simp only [supplyCalls, Option.some.injEq, Prod.mk.injEq] at hrun
    obtain ⟨rfl, -, rfl⟩ := hrun
    exact ⟨trivial, rfl⟩
  | cons s sizes ih =>
    obtain ⟨hs0, hs1⟩ := hsizes s (List.mem_cons_self _ _)
    simp only [supplyCalls] at hrun
    cases hcall : putObjectCallback h s buffer data with
    | none => rw [hcall] at hrun; exact absurd hrun (by simp)
    | some r =>
      obtain ⟨ret, buffer1, h1, data1⟩ := r
      rw [hcall] at hrun
      simp only at hrun
      obtain ⟨hr0, hr1, hr2, -⟩ :=
        putObjectCallback_account h s buffer data ret buffer1 h1 data1 hs0 hs1 hL hcall
      cases hrest : supplyCalls sizes h1 buffer1 data1 with
      | none => rw [hrest] at hrun; exact absurd hrun (by simp)
      | some r2 =>
        obtain ⟨rets2, h2, data2⟩ := r2
        rw [hrest] at hrun
        simp only [Option.some.injEq, Prod.mk.injEq] at hrun
        obtain ⟨rfl, rfl, rfl⟩ := hrun
        have hL1 : data1.contentLength < 2 ^ 64 := by omega
        obtain ⟨ha, hl⟩ := ih h1 buffer1 data1 rets2 hL1
          (fun s' hs' => hsizes s' (List.mem_cons_of_mem _ hs')) hrest
        exact ⟨⟨hr0, hr1, hr2, ha⟩, hl⟩

theorem supplyCalls_file_total (sizes : List Int) (h : Heap) (buffer : Mem)
    (data : put_object_callback_data) (hL : data.contentLength < 2 ^ 64)
    (hsizes : ∀ s ∈ sizes, 0 ≤ s ∧ s ≤ 65536) (hf : data.infile ≠ none) :
    ∃ r, supplyCalls sizes h buffer data = some r := by
  induction sizes generalizing h buffer data with
  | nil => exact ⟨_, rfl⟩
  | cons s sizes ih =>
    obtain ⟨hs0, hs1⟩ := hsizes s (List.mem_cons_self _ _)
    have hsz := fun s' hs' => hsizes s' (List.mem_cons_of_mem _ hs')
    by_cases hz : data.contentLength = 0
    · obtain ⟨r, hr⟩ := ih h buffer data hL hsz hf
      simp only [supplyCalls, putObjectCallback_done h s buffer data hz, hr]
      exact ⟨_, rfl⟩
    · obtain ⟨f, hff⟩ := Option.ne_none_iff_exists'.mp hf
      have hfit : min (min data.contentLength s.toNat) f.length ≤ 65536 := by
        have := Nat.min_le_left (min data.contentLength s.toNat) f.length
        have := Nat.min_le_right data.contentLength s.toNat
        omega
      have hcall := putObjectCallback_file h s buffer data f hff hs0 (by omega) hL hz hfit
      obtain ⟨r, hr⟩ := ih h buffer
        { data with
          infile := some (f.drop (min (min data.contentLength s.toNat) f.length)),
          readBuffer := memcpyList data.readBuffer 0
            (f.take (min (min data.contentLength s.toNat) f.length)),
          contentLength := data.contentLength - min (min data.contentLength s.toNat) f.length }
        (by simp only; omega) hsz (by simp)
      simp only [supplyCalls, hcall, hr]
      exact ⟨_, rfl⟩

/-- The growbuffer branch of the callback, written out. -/
theorem putObjectCallback_gb (h : Heap) (s : Int) (buffer : Mem)
    (data : put_object_callback_data) (h1 : Heap) (gb1 : Nat) (k : Int) (rb : Mem)
    (hf : data.infile = none) (hgb : data.gb ≠ 0) (hne : data.contentLength ≠ 0)
    (hread : growbuffer_read h data.gb (wrapInt32 data.contentLength) data.readBuffer
      = some (h1, gb1, k, rb)) (hk : k ≤ 65536) :
    putObjectCallback h s buffer data
      = some (k, buffer, h1,
          { data with gb := gb1, readBuffer := rb,
                      contentLength := (((data.contentLength : Int) - k) % 2 ^ 64).toNat }) := by
  have hkb : ¬ (k > 65536) := by omega
  unfold putObjectCallback
  simp only [hne, ne_eq, not_false_eq_true, if_true, hf, hgb, hread, hkb, if_false]

/-- On a source staged in the growbuffer, with the counter equal to the number
of staged bytes not yet read and below 2^31, and blocks of at most 65536
bytes, every sequence of calls of the callback runs to its end. -/
theorem supplyCalls_gb_total (sizes : List Int) (h : Heap) (buffer : Mem)
    (data : put_object_callback_data) (stop : Nat) (l : List Blk)
    (hf : data.infile = none) (hc : Chain h stop l)
    (hbound : ∀ x ∈ l, x.bytes.length ≤ 65536)
    (hgb : l ≠ [] → data.gb = headAddr stop l)
    (hlen : data.contentLength = (contents l).length) (hL : data.contentLength < 2 ^ 31) :
    ∃ r, supplyCalls sizes h buffer data = some r := by
  induction sizes generalizing h buffer data l with
  | nil => exact ⟨_, rfl⟩
  | cons s sizes ih =>
    cases l with
    | nil =>
      have hz : data.contentLength = 0 := by rw [hlen]; rfl
      obtain ⟨r, hr⟩ := ih h buffer data [] hf hc hbound hgb hlen hL
      simp only [supplyCalls, putObjectCallback_done h s buffer data hz, hr]
      exact ⟨_, rfl⟩
    | cons x rest =>
      have hx : 0 < x.bytes.length := List.length_pos.mpr (hc.2.2 x (List.mem_cons_self _ _))
      rw [contents_cons, List.length_append] at hlen
      have hne : data.contentLength ≠ 0 := by omega
      have hgx : data.gb = x.addr := hgb (by simp)
      have hx0 : x.addr ≠ 0 := hc.1.1.1
      have hw : wrapInt32 (data.contentLength : Int) = (data.contentLength : Int) :=
        wrapInt32_eq _ (by omega) (by omega)
      obtain ⟨h1, gb1, rb, hread, -, -, -, -, -, hfull⟩ :=
        growbuffer_read_chain h stop x rest (data.contentLength : Int) data.readBuffer hc
          (by omega)
      have hmin : min ((data.contentLength : Int)).toNat x.bytes.length = x.bytes.length := by
        rw [Int.toNat_ofNat]; exact Nat.min_eq_right (by omega)
      rw [hmin] at hread
      obtain ⟨-, hgb1, hc1⟩ := hfull (by rw [Int.toNat_ofNat]; omega)
      have hxb : x.bytes.length ≤ 65536 := hbound x (List.mem_cons_self _ _)
      have hcall := putObjectCallback_gb h s buffer data h1 gb1 (x.bytes.length : Int) rb hf
        (by rw [hgx]; exact hx0) hne (by rw [hw, hgx]; exact hread) (by exact_mod_cast hxb)
      have hsub : (((data.contentLength : Int) - (x.bytes.length : Int)) % 2 ^ 64).toNat
          = (contents rest).length := by
        rw [Int.emod_eq_of_lt (by omega) (by omega)]
        omega
      rw [hsub] at hcall
      obtain ⟨r, hr⟩ := ih h1 buffer
        { data with gb := gb1, readBuffer := rb, contentLength := (contents rest).length } rest
        hf hc1 (fun y hy => hbound y (List.mem_cons_of_mem _ hy))
        (by
          intro hrest
          simp only
          rw [hgb1]
          cases rest with
          | nil => exact absurd rfl hrest
          | cons y rest2 =>
            have hnd := hc.2.1
            simp only [List.map_cons, List.nodup_cons, List.mem_cons, not_or] at hnd
            simp only [headAddr]
            rw [if_neg (fun e => hnd.1.1 e.symm)])
        rfl (by simp only; omega)
      simp only [supplyCalls, hcall, hr]
      exact ⟨_, rfl⟩

/-- The books of the upload callback over the runs that are defined.  Over a
sequence of calls with buffer sizes that are non-negative `int` values, on a
source with counter `L`, each call returns a non-negative count that is not
more than the counter before it and the counter goes down by exactly that
count; so the counter never increases, never wraps, and ends as `L` minus the
sum of the counts returned.  The calls run to their end on a file-backed
source when no buffer size is above the 65536 bytes of `readBuffer`, and on a
source staged in the growbuffer whose counter is the number of staged bytes
and below 2^31. -/
theorem supplyCalls_accounting (sizes : List Int) (h : Heap) (buffer : Mem)
    (data : put_object_callback_data) (hL : data.contentLength < 2 ^ 64)
    (hsizes : ∀ s ∈ sizes, 0 ≤ s ∧ s < 2 ^ 31) :
    (data.infile ≠ none → (∀ s ∈ sizes, s ≤ 65536) →
      ∃ r, supplyCalls sizes h buffer data = some r) ∧
    (∀ l, data.infile = none → Ring h data.gb l →
      data.contentLength = (contents l).length → data.contentLength < 2 ^ 31 →
      ∃ r, supplyCalls sizes h buffer data = some r) ∧
    ∀ rets h' data', supplyCalls sizes h buffer data = some (rets, h', data') →
      Accounted data.contentLength rets ∧
      (∀ r ∈ rets, 0 ≤ r.1) ∧
      List.Chain (fun a b => b ≤ a) data.contentLength (rets.map Prod.snd) ∧
      (data'.contentLength : Int) = (data.contentLength : Int) - (rets.map Prod.fst).sum := by
  refine ⟨fun hf hfit => supplyCalls_file_total sizes h buffer data hL
    (fun s hs => ⟨(hsizes s hs).1, hfit s hs⟩) hf, ?_, ?_⟩
  · intro l hf hr hlen hL31
    refine supplyCalls_gb_total sizes h buffer data data.gb l hf (Ring_chain hr)
      (fun x hx => (hr.1.2.2.2.2.2.1 x hx).2) ?_ hlen hL31
    intro hl
    cases l with
    | nil => exact absurd rfl hl
    | cons x rest => exact (Ring_handle hr).1
  · intro rets h' data' hrun
    obtain ⟨ha, hl⟩ := supplyCalls_account sizes h buffer data rets h' data' hL hsizes hrun
    exact ⟨ha, accounted_nonneg _ _ ha, accounted_chain _ _ ha,
      by rw [hl]; exact accounted_sum _ _ ha⟩

/-- An instance of the books: ten bytes declared, seven in the file, three
calls with a buffer of four bytes return 4, 3 and 0 bytes and leave the
counter at 6, 3 and 3.  And on a source of five bytes staged in the
growbuffer, two calls return 5 and 0 bytes and leave the counter at 0. -/
theorem supplyCalls_accounting_witness :
    sourceFile7.contentLength < 2 ^ 64 ∧
    (∀ s ∈ [(4 : Int), 4, 4], 0 ≤ s ∧ s < 2 ^ 31) ∧
    ((sourceFile7.infile ≠ none → (∀ s ∈ [(4 : Int), 4, 4], s ≤ 65536) →
        ∃ r, supplyCalls [4, 4, 4] Heap.empty (fun _ => 0) sourceFile7 = some r) ∧
      (∀ l, sourceFile7.infile = none → Ring Heap.empty sourceFile7.gb l →
        sourceFile7.contentLength = (contents l).length → sourceFile7.contentLength < 2 ^ 31 →
        ∃ r, supplyCalls [4, 4, 4] Heap.empty (fun _ => 0) sourceFile7 = some r) ∧
      ∀ rets h' data',
        supplyCalls [4, 4, 4] Heap.empty (fun _ => 0) sourceFile7 = some (rets, h', data') →
        Accounted sourceFile7.contentLength rets ∧
        (∀ r ∈ rets, 0 ≤ r.1) ∧
        List.Chain (fun a b => b ≤ a) sourceFile7.contentLength (rets.map Prod.snd) ∧
        (data'.contentLength : Int)
          = (sourceFile7.contentLength : Int) - (rets.map Prod.fst).sum) ∧
    (supplyCalls [4, 4, 4] Heap.empty (fun _ => 0) sourceFile7).map (fun r => r.1)
      = some [(4, 6), (3, 3), (0, 3)] ∧
    ((growbuffer_append Heap.empty 0 [1, 2, 3, 4, 5]).bind
      (fun r => supplyCalls [4, 4] r.1 (fun _ => 0)
        { infile := none, gb := r.2.1, contentLength := 5, readBuffer := fun _ => 0 })).map
      (fun r => r.1) = some [(5, 0), (0, 0)] :=
  ⟨by decide, by decide,
    supplyCalls_accounting [4, 4, 4] Heap.empty (fun _ => 0) sourceFile7 (by decide) (by decide),
    by decide, by decide⟩

/-! ## A put whose input is short -/

/-- C1 at a failing input: 100 bytes are staged in the growbuffer, the counter
is 100 and the transport offers a buffer of 10 bytes; the callback returns 100,
more than the 10 bytes asked for. -/
theorem putObjectCallback_gb_exceeds_request :
    ((growbuffer_append Heap.empty 0 (List.replicate 100 7)).bind
      (fun r => putObjectCallback r.1 10 (fun _ => 0)
        { infile := none, gb := r.2.1, contentLength := 100, readBuffer := fun _ => 0 })).map
      (fun r => r.1) = some 100 := by
  decide

/-- C9 at a failing input: a file-backed source with the bytes 10, 20, 30 and a
buffer of three bytes that holds zeros.  The callback returns 3; the bytes are
in `readBuffer`, and the caller's buffer still holds the zeros. -/
theorem putObjectCallback_leaves_buffer :
    (putObjectCallback Heap.empty 3 (fun _ => 0)
      { infile := some [10, 20, 30], gb := 0, contentLength := 3, readBuffer := fun _ => 0 }).map
      (fun r => (r.1, bytesOf r.2.1 0 3, bytesOf r.2.2.2.readBuffer 0 3))
      = some (3, [0, 0, 0], [10, 20, 30]) := by
  decide

/-! ## The set-up of the upload source in `put_object` -/

theorem Ring_contents_nil {h : Heap} {gb : Nat} {l : List Blk} (hr : Ring h gb l) :
    contents l = [] ↔ gb = 0 := by
  cases l with
  | nil => exact ⟨fun _ => Ring_handle_nil hr, fun _ => rfl⟩
  | cons x rest =>
    constructor
    · intro hc
      rw [contents_cons] at hc
      exact absurd (List.append_eq_nil.mp hc).1 (hr.2 x (List.mem_cons_self _ _))
    · intro hg
      exact absurd hg (Ring_handle hr).2

/-- The loop that reads standard input into the growbuffer: it ends with
`exit(-1)`, which takes a failing `malloc`, or it leaves a ring that holds
the old bytes and then all of standard input, with `contentLength` advanced by
the number of bytes read. -/
theorem put_object_stage_ring (fuel : Nat) (h : Heap) (gb : Nat) (l : List Blk)
    (contentLength : Nat) (stdin : List Nat) (hr : Ring h gb l)
    (hcl : contentLength < 2 ^ 64) (hfuel : stdin.length < fuel) :
    (put_object_stage fuel h gb contentLength stdin = some none ∧ false ∈ h.oracle) ∨
    ∃ h1 gb1 l1,
      put_object_stage fuel h gb contentLength stdin
        = some (some (h1, gb1, (contentLength + stdin.length) % 2 ^ 64)) ∧
      Ring h1 gb1 l1 ∧ contents l1 = contents l ++ stdin ∧
      (OnlyBlocks h l → OnlyBlocks h1 l1) := by
  induction fuel generalizing h gb l contentLength stdin with
  | zero => exact absurd hfuel (Nat.not_lt_zero _)
  | succ f ih =>
    obtain ⟨n, hn⟩ : ∃ n, n = min 65536 stdin.length := ⟨_, rfl⟩
    have hn1 : n ≤ 65536 := by rw [hn]; exact Nat.min_le_left _ _
    have hn2 : n ≤ stdin.length := by rw [hn]; exact Nat.min_le_right _ _
    have hw : wrapInt32 (n : Int) = (n : Int) := wrapInt32_eq _ (by omega) (by omega)
    have hf : fread (fun _ => 0) 65536 stdin
        = (n, stdin.drop n, memcpyList (fun _ => 0) 0 (stdin.take n)) := by
      rw [hn]; rfl
    simp only [put_object_stage, put_object_stage_body, hf, hw, Int.toNat_ofNat]
    by_cases hz : n = 0
    · have hnil : stdin = [] := by
        have : stdin.length = 0 := by
          rcases Nat.le_total 65536 stdin.length with hle | hle
          · rw [Nat.min_eq_left hle] at hn; omega
          · rw [Nat.min_eq_right hle] at hn; omega
        exact List.length_eq_zero.mp this
      subst hnil
      right
      refine ⟨h, gb, l, ?_, hr, by simp, fun hob => hob⟩
      rw [if_pos (by rw [hz]; rfl)]
      simp only [put_object_stage_next, List.length_nil, Nat.add_zero]
      rw [Nat.mod_eq_of_lt hcl]
    · rw [if_neg (by exact_mod_cast hz)]
      have hchunk : bytesOf (memcpyList (fun _ => 0) 0 (stdin.take n)) 0 n = stdin.take n := by
        have hlen : (stdin.take n).length = n := by
          rw [List.length_take]; exact Nat.min_eq_left hn2
        have := bytesOf_memcpyList (fun _ => 0) 0 (stdin.take n)
        rw [hlen] at this
        exact this
      rw [hchunk]
      obtain ⟨h1, gb1, l1, r, used, k, happ, hr1, hused, -, hc1, hcase, -, hob1⟩ :=
        growbuffer_append_gen h gb l (stdin.take n) hr
      rw [happ]
      rcases hcase with ⟨hr11, -, hk⟩ | ⟨hr10, -, used', hu, -⟩
      · rw [hk, List.take_length] at hc1
        have hnext : (((contentLength : Int) + (n : Int)) % 2 ^ 64).toNat
            = (contentLength + n) % 2 ^ 64 := by omega
        simp only [hr11, one_ne_zero, if_false, hnext]
        by_cases hlt : n < 65536
        · have hall : n = stdin.length := by
            rcases Nat.le_total 65536 stdin.length with hle | hle
            · rw [Nat.min_eq_left hle] at hn; omega
            · rw [Nat.min_eq_right hle] at hn; exact hn
          rw [if_pos (by exact_mod_cast hlt)]
          right
          refine ⟨h1, gb1, l1, by simp only [put_object_stage_next, hall], hr1, ?_, hob1⟩
          rw [hc1, hall, List.take_length]
        · rw [if_neg (by exact_mod_cast hlt)]
          simp only [put_object_stage_next]
          have hlen : (stdin.drop n).length < f := by
            rw [List.length_drop]; omega
          rcases ih h1 gb1 l1 ((contentLength + n) % 2 ^ 64) (stdin.drop n) hr1
              (Nat.mod_lt _ (by decide)) hlen with ⟨hex, hmem⟩ | ⟨h2, gb2, l2, hrun, hr2, hc2, hob2⟩
          · left
            exact ⟨hex, by rw [hused]; exact List.mem_append_right _ hmem⟩
          · right
            refine ⟨h2, gb2, l2, ?_, hr2, ?_, fun hob => hob2 (hob1 hob)⟩
            · rw [hrun, List.length_drop]
              have : ((contentLength + n) % 2 ^ 64 + (stdin.length - n)) % 2 ^ 64
                  = (contentLength + stdin.length) % 2 ^ 64 := by omega
              rw [this]
            · rw [hc2, hc1, List.append_assoc, List.take_append_drop]
      · left
        refine ⟨by simp only [hr10, if_true, put_object_stage_next], ?_⟩
        rw [hused, hu]
        simp

/-- The set-up of the upload source with no `filename=` parameter and no
content length: standard input is read into the growbuffer; the set-up ends
with `exit(-1)` only on a failing `malloc`, and else the source has no file,
its growbuffer holds all of standard input, and its counter is the number of
bytes of standard input. -/
theorem put_object_source_stdin (stdin : List Nat) (oracle : List Bool) :
    (put_object_source none 0 stdin (Heap.fresh oracle) = some PutSetup.exit ∧ false ∈ oracle) ∨
    ∃ h1 gb1 l1,
      put_object_source none 0 stdin (Heap.fresh oracle)
        = some (PutSetup.ready h1 ⟨none, gb1, stdin.length % 2 ^ 64, fun _ => 0⟩) ∧
      Ring h1 gb1 l1 ∧ contents l1 = stdin ∧ OnlyBlocks h1 l1 := by
  rcases put_object_stage_ring (stdin.length + 1) (Heap.fresh oracle) 0 [] 0 stdin
      (Ring_fresh oracle) (by decide) (Nat.lt_succ_self _) with
    ⟨hex, hmem⟩ | ⟨h1, gb1, l1, hrun, hr1, hc1, hob1⟩
  · left
    exact ⟨by simp only [put_object_source, if_true, hex], hmem⟩
  · right
    refine ⟨h1, gb1, l1, ?_, hr1, by rw [hc1]; simp [contents], hob1 (OnlyBlocks_fresh oracle)⟩
    simp only [put_object_source, if_true, hrun, Nat.zero_add]

/-- C13 as amended: the set-up of the upload source always ends, with
`exit(-1)` or with a source handed to `S3_put_object`.  Such a source never has
both a file and a growbuffer; it has neither exactly when there is no
`filename=` parameter, the content length is 0 (no `contentLength=` parameter,
or one with the value 0) and standard input is empty; in every other case it
has exactly one of the two: the file when there is a `filename=` parameter or
a content length other than 0, and the growbuffer else. -/
theorem put_object_source_store (filename : Option InputFile) (contentLength : Nat)
    (stdin : List Nat) (oracle : List Bool) :
    ∃ r, put_object_source filename contentLength stdin (Heap.fresh oracle) = some r ∧
      ∀ h data, r = PutSetup.ready h data →
        ¬ (data.infile ≠ none ∧ data.gb ≠ 0) ∧
        ((data.infile = none ∧ data.gb = 0) ↔
          (filename = none ∧ contentLength = 0 ∧ stdin = [])) ∧
        (data.infile ≠ none ↔ (filename ≠ none ∨ contentLength ≠ 0)) := by
  cases filename with
  | some file =>
    simp only [put_object_source]
    cases hcl : (if contentLength = 0 then file.statSize.map (fun size => size % 2 ^ 64)
        else some contentLength) with
    | none => exact ⟨PutSetup.exit, rfl, fun h data he => by cases he⟩
    | some contentLength2 =>
      cases hs : file.stream with
      | none => exact ⟨PutSetup.exit, rfl, fun h data he => by cases he⟩
      | some stream =>
        refine ⟨_, rfl, ?_⟩
        intro h data he
        cases he
        simp
  | none =>
    by_cases hz : contentLength = 0
    · subst hz
      rcases put_object_source_stdin stdin oracle with
        ⟨hex, -⟩ | ⟨h1, gb1, l1, hrun, hr1, hc1, -⟩
      · exact ⟨PutSetup.exit, hex, fun h data he => by cases he⟩
      · refine ⟨_, hrun, ?_⟩
        intro h data he
        cases he
        have hiff := Ring_contents_nil hr1
        rw [hc1] at hiff
        refine ⟨fun hboth => hboth.1 rfl, ?_, by simp⟩
        simp only [true_and]
        exact hiff.symm
    · refine ⟨PutSetup.ready (Heap.fresh oracle) ⟨some stdin, 0, contentLength, fun _ => 0⟩,
        by simp only [put_object_source, hz, if_false], ?_⟩
      intro h data he
      cases he
      simp [hz]

/-- An instance of C13 as amended: three bytes on standard input, no
`filename=` and no `contentLength=` parameter; the source has no file and the
growbuffer at address 1, and its counter is 3. -/
theorem put_object_source_store_witness :
    (∃ r, put_object_source none 0 [1, 2, 3] (Heap.fresh []) = some r ∧
      ∀ h data, r = PutSetup.ready h data →
        ¬ (data.infile ≠ none ∧ data.gb ≠ 0) ∧
        ((data.infile = none ∧ data.gb = 0) ↔
          ((none : Option InputFile) = none ∧ 0 = 0 ∧ [1, 2, 3] = ([] : List Nat))) ∧
        (data.infile ≠ none ↔ ((none : Option InputFile) ≠ none ∨ 0 ≠ 0))) ∧
    (put_object_source none 0 [1, 2, 3] (Heap.fresh [])).map
      (fun r => match r with
        | PutSetup.exit => none
        | PutSetup.ready _ data => some (data.infile, data.gb, data.contentLength))
      = some (some (none, 1, 3)) :=
  ⟨put_object_source_store none 0 [1, 2, 3] [], by decide⟩

/-- C13 as stated fails: with no `filename=` parameter, no `contentLength=`
parameter and an empty standard input, the source that `put_object` hands to
`S3_put_object` has neither a file nor a growbuffer. -/
theorem put_object_source_no_store :
    ∃ h data, put_object_source none 0 [] Heap.empty = some (PutSetup.ready h data) ∧
      data.infile = none ∧ data.gb = 0 ∧ data.contentLength = 0 :=
  ⟨Heap.empty, ⟨none, 0, 0, fun _ => 0⟩, rfl, rfl, rfl, rfl⟩

/-- C16: on a source whose counter is 0, `putObjectCallback` returns 0 for
every `bufferSize`, and leaves the counter, the file, the growbuffer handle
and the heap (so the blocks of the growbuffer) as they are; the caller's
buffer is left as it is too.  The source that `put_object` builds from an
empty standard input, with no `filename=` and no `contentLength=` parameter,
has the counter 0, so the first call on it returns 0. -/
theorem putObjectCallback_counter_zero (h : Heap) (bufferSize : Int) (buffer : Mem)
    (data : put_object_callback_data) (hz : data.contentLength = 0) :
    putObjectCallback h bufferSize buffer data = some (0, buffer, h, data) ∧
    ∀ oracle : List Bool, ∃ data0,
      put_object_source none 0 [] (Heap.fresh oracle)
        = some (PutSetup.ready (Heap.fresh oracle) data0) ∧
      data0.contentLength = 0 ∧
      putObjectCallback (Heap.fresh oracle) bufferSize buffer data0
        = some (0, buffer, Heap.fresh oracle, data0) := by
  refine ⟨putObjectCallback_done h bufferSize buffer data hz, ?_⟩
  intro oracle
  have hsrc : put_object_source none 0 [] (Heap.fresh oracle)
      = some (PutSetup.ready (Heap.fresh oracle) ⟨none, 0, 0, fun _ => 0⟩) := by
    rfl
  exact ⟨⟨none, 0, 0, fun _ => 0⟩, hsrc, rfl,
    putObjectCallback_done (Heap.fresh oracle) bufferSize buffer _ rfl⟩

/-- Two instances of C16: a source with a file and the counter 0, called with
`bufferSize = 10`, and the source built from an empty standard input. -/
theorem putObjectCallback_counter_zero_witness :
    (⟨some [1, 2, 3], 0, 0, fun _ => 0⟩ : put_object_callback_data).contentLength = 0 ∧
    (putObjectCallback Heap.empty 10 (fun _ => 7) ⟨some [1, 2, 3], 0, 0, fun _ => 0⟩
        = some (0, fun _ => 7, Heap.empty, ⟨some [1, 2, 3], 0, 0, fun _ => 0⟩) ∧
      ∀ oracle : List Bool, ∃ data0,
        put_object_source none 0 [] (Heap.fresh oracle)
          = some (PutSetup.ready (Heap.fresh oracle) data0) ∧
        data0.contentLength = 0 ∧
        putObjectCallback (Heap.fresh oracle) 10 (fun _ => 7) data0
          = some (0, fun _ => 7, Heap.fresh oracle, data0)) :=
  ⟨rfl, putObjectCallback_counter_zero Heap.empty 10 (fun _ => 7)
    ⟨some [1, 2, 3], 0, 0, fun _ => 0⟩ rfl⟩

/-! ## The `contentLength=` parameter -/

theorem digitsValue_foldl (str : List Char) (acc : Nat) :
    str.foldl (fun acc c => acc * 10 + (c.toNat - '0'.toNat)) acc
      = acc * 10 ^ str.length + digitsValue str := by
  unfold digitsValue
  induction str generalizing acc with
  | nil => simp
  | cons c cs ih =>
    simp only [List.foldl_cons, List.length_cons]
    rw [ih, ih (0 * 10 + (c.toNat - '0'.toNat))]
    ring

theorem digitsValue_cons (c : Char) (cs : List Char) :
    digitsValue (c :: cs) = (c.toNat - '0'.toNat) * 10 ^ cs.length + digitsValue cs := by
  have := digitsValue_foldl cs (0 * 10 + (c.toNat - '0'.toNat))
  simp only [Nat.zero_mul, Nat.zero_add] at this
  unfold digitsValue at this ⊢
  simpa using this

/-- The loop of `convertInt` on a string of digits computes the number that
`ret` followed by the digits denotes, modulo `2 ^ 64`. -/
theorem convertInt_loop_digits (str : List Char) (ret : Nat) (hret : ret < 2 ^ 64)
    (hd : ∀ c ∈ str, c.isDigit = true) :
    convertInt_loop str ret = some ((ret * 10 ^ str.length + digitsValue str) % 2 ^ 64) := by
  induction str generalizing ret with
  | nil =>
    simp only [convertInt_loop, List.length_nil, pow_zero, Nat.mul_one]
    have : digitsValue [] = 0 := rfl
    rw [this, Nat.add_zero, Nat.mod_eq_of_lt hret]
  | cons c cs ih =>
    have hc : c.isDigit = true := hd c (List.mem_cons_self _ _)
    simp only [convertInt_loop, hc, Bool.not_true, Bool.false_eq_true, if_false]
    rw [ih _ (Nat.mod_lt _ (Nat.two_pow_pos 64)) (fun x hx => hd x (List.mem_cons_of_mem _ hx))]
    congr 1
    have h1 : (ret * 10 % 2 ^ 64 + (c.toNat - '0'.toNat)) % 2 ^ 64
        ≡ ret * 10 + (c.toNat - '0'.toNat) [MOD 2 ^ 64] :=
      (Nat.mod_modEq _ _).trans ((Nat.mod_modEq _ _).add_right _)
    have h2 := (h1.mul_right (10 ^ cs.length)).add_right (digitsValue cs)
    rw [digitsValue_cons, List.length_cons]
    have h3 : ret * 10 ^ (cs.length + 1) + ((c.toNat - '0'.toNat) * 10 ^ cs.length + digitsValue cs)
        = (ret * 10 + (c.toNat - '0'.toNat)) * 10 ^ cs.length + digitsValue cs := by ring
    rw [h3]
    exact h2

/-- On a string of digits `convertInt` returns the number it denotes modulo
`2 ^ 64`. -/
theorem convertInt_digits (str : List Char) (hd : ∀ c ∈ str, c.isDigit = true) :
    convertInt str = some (digitsValue str % 2 ^ 64) := by
  unfold convertInt
  rw [convertInt_loop_digits str 0 (Nat.two_pow_pos 64) hd]
  simp

theorem convertInt_loop_nondigit (str : List Char) (ret : Nat)
    (hd : ∃ c ∈ str, c.isDigit = false) : convertInt_loop str ret = none := by
  induction str generalizing ret with
  | nil => obtain ⟨c, hc, -⟩ := hd; exact absurd hc (List.not_mem_nil _)
  | cons c cs ih =>
    by_cases hc : c.isDigit = true
    · simp only [convertInt_loop, hc, Bool.not_true, Bool.false_eq_true, if_false]
      apply ih
      obtain ⟨x, hx, hxd⟩ := hd
      rcases List.mem_cons.mp hx with rfl | hx
      · rw [hc] at hxd; exact absurd hxd (by decide)
      · exact ⟨x, hx, hxd⟩
    · have hc' : c.isDigit = false := by simpa using hc
      simp [convertInt_loop, hc']

/-- On a string with a character that is not a digit `convertInt` ends in
`usageExit`. -/
theorem convertInt_nondigit (str : List Char) (hd : ∃ c ∈ str, c.isDigit = false) :
    convertInt str = none :=
  convertInt_loop_nondigit str 0 hd

/-- The handling of `contentLength=` on a string of digits: the value is
compared with 5 GB after the reduction modulo `2 ^ 64`. -/
theorem put_object_contentLength_digits (str : List Char) (hd : ∀ c ∈ str, c.isDigit = true) :
    put_object_contentLength str
      = if digitsValue str % 2 ^ 64 > 5368709120 then none
        else some (digitsValue str % 2 ^ 64) := by
  unfold put_object_contentLength
  rw [convertInt_digits str hd]

/-- C17 at a failing input: the parameter `contentLength=18446744073709551617`
is a string of digits that denotes `2 ^ 64 + 1`, more than 5 GB.  `convertInt`
returns 1 for it, and `put_object` does not reject it but takes 1 as the
content length. -/
theorem put_object_contentLength_wraps :
    (∀ c ∈ "18446744073709551617".toList, c.isDigit = true) ∧
    digitsValue "18446744073709551617".toList = 18446744073709551617 ∧
    5368709120 < digitsValue "18446744073709551617".toList ∧
    convertInt "18446744073709551617".toList = some 1 ∧
    put_object_contentLength "18446744073709551617".toList = some 1 := by
  decide

/-! ## The callback on a source staged from 2 GiB or more -/

/-- A read with a negative amount on a live head block: `*amtReturn` is the
negative amount, which `memcpy` gets as its length. -/
theorem growbuffer_read_negative (h : Heap) (stop : Nat) (x : Blk) (rest : List Blk)
    (amt : Int) (buffer : Mem) (hc : Chain h stop (x :: rest)) (hamt : amt < 0) :
    growbuffer_read h x.addr amt buffer = none := by
  obtain ⟨⟨ha, b, hb, -, -, hsize, -⟩, -⟩ := hc.1
  have hk : (if b.size > amt then amt else b.size) = amt := by
    rw [if_pos (by rw [hsize]; omega)]
  simp only [growbuffer_read, ha, if_false, load_of_cell ha hb, hk]
  rw [if_pos (Or.inl hamt)]

/-- The growbuffer branch of the callback when the counter, converted to
`int`, is negative: `growbuffer_read` is called with that negative amount. -/
theorem putObjectCallback_gb_negative (h : Heap) (s : Int) (buffer : Mem)
    (data : put_object_callback_data) (stop : Nat) (x : Blk) (rest : List Blk)
    (hc : Chain h stop (x :: rest)) (hf : data.infile = none) (hgb : data.gb = x.addr)
    (hneg : wrapInt32 data.contentLength < 0) :
    putObjectCallback h s buffer data = none := by
  have hne : data.contentLength ≠ 0 := by
    intro h0
    rw [h0] at hneg
    exact absurd hneg (by decide)
  have hx0 : x.addr ≠ 0 := hc.1.1.1
  unfold putObjectCallback
  simp only [hne, ne_eq, not_false_eq_true, if_true, hf, hgb, hx0,
    growbuffer_read_negative h stop x rest _ data.readBuffer hc hneg]

/-- A put of standard input of at least 2^31 and less than 2^32 bytes, with no
`filename=` and no `contentLength=` parameter and no failing `malloc`: the
source is staged in the growbuffer, its counter is the number of bytes, and
every call of the callback on it is undefined. -/
theorem put_object_source_large (stdin : List Nat) (hlo : 2 ^ 31 ≤ stdin.length)
    (hhi : stdin.length < 2 ^ 32) :
    ∃ h data,
      put_object_source none 0 stdin Heap.empty = some (PutSetup.ready h data) ∧
      data.infile = none ∧ data.gb ≠ 0 ∧ data.contentLength = stdin.length ∧
      ∀ (bufferSize : Int) (buffer : Mem), putObjectCallback h bufferSize buffer data = none := by
  rcases put_object_source_stdin stdin [] with ⟨-, hmem⟩ | ⟨h1, gb1, l1, hrun, hr1, hc1, -⟩
  · exact absurd hmem (List.not_mem_nil _)
  · have hmod : stdin.length % 2 ^ 64 = stdin.length := Nat.mod_eq_of_lt (by omega)
    rw [hmod] at hrun
    cases l1 with
    | nil =>
      have : stdin.length = 0 := by rw [← hc1]; rfl
      omega
    | cons x rest =>
      obtain ⟨hgx, hg0⟩ := Ring_handle hr1
      refine ⟨h1, ⟨none, gb1, stdin.length, fun _ => 0⟩, hrun, rfl, hg0, rfl, ?_⟩
      intro bufferSize buffer
      apply putObjectCallback_gb_negative h1 bufferSize buffer _ gb1 x rest (Ring_chain hr1) rfl
        hgx
      show wrapInt32 ((stdin.length : Nat) : Int) < 0
      unfold wrapInt32
      omega

/-- C3 at a failing input: 2147483648 bytes (2 GiB) on standard input, no
`filename=` and no `contentLength=` parameter.  `put_object` stages the bytes
in the growbuffer and sets the counter to 2147483648.  The callback passes the
counter to `growbuffer_read` as the `int` amount, which is -2147483648, and
`memcpy` is called with that negative length: the first call has no defined
result, for every buffer size, and there is no counter left to keep the books
of. -/
theorem putObjectCallback_two_gib_staged :
    ∃ h data,
      put_object_source none 0 (List.replicate 2147483648 0) Heap.empty
        = some (PutSetup.ready h data) ∧
      data.infile = none ∧ data.gb ≠ 0 ∧ data.contentLength = 2147483648 ∧
      wrapInt32 2147483648 = -2147483648 ∧
      ∀ (bufferSize : Int) (buffer : Mem), putObjectCallback h bufferSize buffer data = none := by
  have hlen : (List.replicate 2147483648 (0 : Nat)).length = 2147483648 :=
    List.length_replicate _ _
  obtain ⟨h, data, hrun, hf, hgb, hcl, hcall⟩ :=
    put_object_source_large (List.replicate 2147483648 0) (by rw [hlen]; decide)
      (by rw [hlen]; decide)
  rw [hlen] at hcl
  exact ⟨h, data, hrun, hf, hgb, hcl, by decide, hcall⟩

/-! ## The listing loop -/

theorem foldl_callback_isTruncated (calls : List ListBucketCall) (d : list_bucket_callback_data) :
    (calls.foldl (fun d c => listBucketCallback c.isTruncated c.nextMarker c.contents d) d).isTruncated
      = (calls.getLast?.map (fun c => c.isTruncated)).getD d.isTruncated := by
  induction calls using List.reverseRecOn generalizing d with
  | nil => simp
  | append_singleton l c ih =>
    simp only [List.foldl_append, List.foldl_cons, List.foldl_nil, List.getLast?_append,
      List.getLast?_singleton]
    simp only [listBucketCallback]
    split <;> simp

theorem S3_list_bucket_truncated (resp : ListBucketResponse) (d : list_bucket_callback_data) :
    (S3_list_bucket resp { d with isTruncated := 0 }).1.isTruncated ≠ 0 ↔ resp.truncated := by
  simp [S3_list_bucket, foldl_callback_isTruncated, ListBucketResponse.truncated]

theorem S3_list_bucket_status (resp : ListBucketResponse) (d : list_bucket_callback_data) :
    (S3_list_bucket resp d).2 = resp.status := rfl

theorem list_bucket_loop_stop (resp : ListBucketResponse) (rest : List ListBucketResponse)
    (marker : Option (List Char)) (data : list_bucket_callback_data) (statusG : S3Status)
    (h : ¬ (resp.status = S3Status.OK ∧ resp.truncated)) :
    (list_bucket_loop (resp :: rest) marker data statusG).requests = [marker] ∧
    (list_bucket_loop (resp :: rest) marker data statusG).statusG = resp.status ∧
    (list_bucket_loop (resp :: rest) marker data statusG).finished = true ∧
    (list_bucket_loop (resp :: rest) marker data statusG).printedError
      = decide (resp.status ≠ S3Status.OK) := by
  have ht := S3_list_bucket_truncated resp data
  have hs := S3_list_bucket_status resp { data with isTruncated := 0 }
  simp only [list_bucket_loop]
  generalize S3_list_bucket resp { data with isTruncated := 0 } = r at ht hs
  obtain ⟨d1, s1⟩ := r
  simp only at ht hs
  subst hs
  by_cases hok : resp.status = S3Status.OK
  · have hnt : ¬ resp.truncated := fun ht' => h ⟨hok, ht'⟩
    have : d1.isTruncated = 0 := by
      by_contra hc; exact hnt (ht.mp hc)
    simp [hok, this]
  · simp [hok]

theorem list_bucket_loop_continue (resp : ListBucketResponse) (rest : List ListBucketResponse)
    (marker : Option (List Char)) (data : list_bucket_callback_data) (statusG : S3Status)
    (hok : resp.status = S3Status.OK) (htr : resp.truncated) :
    list_bucket_loop (resp :: rest) marker data statusG =
      { list_bucket_loop rest
          (some (S3_list_bucket resp { data with isTruncated := 0 }).1.nextMarker)
          (S3_list_bucket resp { data with isTruncated := 0 }).1 S3Status.OK with
        requests := marker :: (list_bucket_loop rest
          (some (S3_list_bucket resp { data with isTruncated := 0 }).1.nextMarker)
          (S3_list_bucket resp { data with isTruncated := 0 }).1 S3Status.OK).requests } := by
  have ht := S3_list_bucket_truncated resp data
  have hs := S3_list_bucket_status resp { data with isTruncated := 0 }
  simp only [list_bucket_loop]
  generalize S3_list_bucket resp { data with isTruncated := 0 } = r at ht hs
  obtain ⟨d1, s1⟩ := r
  simp only at ht hs
  subst hs
  have : d1.isTruncated ≠ 0 := ht.mpr htr
  simp [hok, this]

theorem list_bucket_loop_requests_pos (responses : List ListBucketResponse)
    (marker : Option (List Char)) (data : list_bucket_callback_data) (statusG : S3Status) :
    0 < (list_bucket_loop responses marker data statusG).requests.length := by
  cases responses with
  | nil => simp [list_bucket_loop]
  | cons resp rest =>
    by_cases h : resp.status = S3Status.OK ∧ resp.truncated
    · rw [list_bucket_loop_continue resp rest marker data statusG h.1 h.2]; simp
    · rw [(list_bucket_loop_stop resp rest marker data statusG h).1]; simp

theorem S3_list_bucket_synthesized (resp : ListBucketResponse) (d : list_bucket_callback_data)
    (pre : List ListBucketCall) (t : Int) (contents : List S3ListBucketContent)
    (last : S3ListBucketContent)
    (hcalls : resp.calls = pre ++ [⟨t, none, contents ++ [last]⟩]) :
    (S3_list_bucket resp d).1.nextMarker = last.key.take 1023 := by
  simp [S3_list_bucket, hcalls, List.foldl_append, listBucketCallback, snprintf_s]

theorem truncated_of_last_call (resp : ListBucketResponse)
    (pre : List ListBucketCall) (c : ListBucketCall)
    (hcalls : resp.calls = pre ++ [c]) (ht : c.isTruncated ≠ 0) : resp.truncated := by
  simp [ListBucketResponse.truncated, hcalls, ht]

theorem list_bucket_second_request (resp : ListBucketResponse) (rest : List ListBucketResponse)
    (marker : Option (List Char)) (data : list_bucket_callback_data) (statusG : S3Status)
    (pre : List ListBucketCall) (t : Int) (contents : List S3ListBucketContent)
    (last : S3ListBucketContent)
    (hok : resp.status = S3Status.OK)
    (hcalls : resp.calls = pre ++ [⟨t, none, contents ++ [last]⟩]) (ht : t ≠ 0) :
    (list_bucket_loop (resp :: rest) marker data statusG).requests[1]?
        = some (some (last.key.take 1023)) ∧
    ∀ p2 more, rest = p2 :: more → ¬ (p2.status = S3Status.OK ∧ p2.truncated) →
      (list_bucket_loop (resp :: rest) marker data statusG).requests
          = [marker, some (last.key.take 1023)] ∧
      (list_bucket_loop (resp :: rest) marker data statusG).finished = true := by
  have htr : resp.truncated := truncated_of_last_call resp pre _ hcalls ht
  have hm := S3_list_bucket_synthesized resp { data with isTruncated := 0 } pre t contents last hcalls
  rw [list_bucket_loop_continue resp rest marker data statusG hok htr, hm]
  constructor
  · cases rest with
    | nil => simp [list_bucket_loop]
    | cons p2 more =>
      by_cases h : p2.status = S3Status.OK ∧ p2.truncated
      · rw [list_bucket_loop_continue p2 more _ _ _ h.1 h.2]; simp
      · rw [(list_bucket_loop_stop p2 more _ _ _ h).1]; simp
  · intro p2 more hrest h
    subst hrest
    obtain ⟨h1, -, h3, -⟩ := list_bucket_loop_stop p2 more (some (last.key.take 1023))
      (S3_list_bucket resp { data with isTruncated := 0 }).1 S3Status.OK h
    simp [h1, h3]

/-- C6: request `i + 1` is issued exactly when page `i` completed with status
OK and was reported truncated; after a page whose status is not OK no request
follows, and that status is left in `statusG` (with `printError` called). -/
theorem list_bucket_continues_iff (responses : List ListBucketResponse)
    (marker : Option (List Char)) (data : list_bucket_callback_data) (statusG : S3Status)
    (i : Nat) (hi : i < responses.length)
    (hreq : i < (list_bucket_loop responses marker data statusG).requests.length) :
    (i + 1 < (list_bucket_loop responses marker data statusG).requests.length ↔
      responses[i].status = S3Status.OK ∧ responses[i].truncated) ∧
    (responses[i].status ≠ S3Status.OK →
      (list_bucket_loop responses marker data statusG).requests.length = i + 1 ∧
      (list_bucket_loop responses marker data statusG).statusG = responses[i].status ∧
      (list_bucket_loop responses marker data statusG).printedError = true ∧
      (list_bucket_loop responses marker data statusG).finished = true) := by
  induction responses generalizing marker data statusG i with
  | nil => simp at hi
  | cons resp rest ih =>
    by_cases h : resp.status = S3Status.OK ∧ resp.truncated
    · rw [list_bucket_loop_continue resp rest marker data statusG h.1 h.2] at hreq ⊢
      cases i with
      | zero =>
        have hp := list_bucket_loop_requests_pos rest
          (some (S3_list_bucket resp { data with isTruncated := 0 }).1.nextMarker)
          (S3_list_bucket resp { data with isTruncated := 0 }).1 S3Status.OK
        simp only [List.getElem_cons_zero, List.length_cons]
        refine ⟨⟨fun _ => h, fun _ => by omega⟩, fun hne => absurd h.1 hne⟩
      | succ j =>
        simp only [List.length_cons, Nat.add_lt_add_iff_right] at hi hreq
        have := ih (some (S3_list_bucket resp { data with isTruncated := 0 }).1.nextMarker)
          (S3_list_bucket resp { data with isTruncated := 0 }).1 S3Status.OK j hi hreq
        simpa using this
    · obtain ⟨h1, h2, h3, h4⟩ := list_bucket_loop_stop resp rest marker data statusG h
      rw [h1] at hreq
      simp only [List.length_singleton, Nat.lt_one_iff] at hreq
      subst hreq
      simp only [h1, h2, h3, h4, List.getElem_cons_zero, List.length_singleton]
      refine ⟨⟨fun hc => by omega, fun hc => absurd hc h⟩, fun hne => ?_⟩
      simp [hne]

/-- C5, as the code has it: after a page that completed with status OK, was
reported truncated, carried no next marker and had at least one item, the next
request is issued with the first 1023 bytes of the key of the last item, which
is the key itself when the key is at most 1023 bytes long; and when the
response to that request is not both OK and truncated, these two requests are
all the loop makes. -/
theorem list_bucket_marker_from_last_key (resp : ListBucketResponse)
    (rest : List ListBucketResponse) (marker : Option (List Char))
    (data : list_bucket_callback_data) (statusG : S3Status)
    (pre : List ListBucketCall) (t : Int) (contents : List S3ListBucketContent)
    (last : S3ListBucketContent)
    (hok : resp.status = S3Status.OK)
    (hcalls : resp.calls = pre ++ [⟨t, none, contents ++ [last]⟩]) (ht : t ≠ 0) :
    (list_bucket_loop (resp :: rest) marker data statusG).requests[1]?
        = some (some (last.key.take 1023)) ∧
    (last.key.length ≤ 1023 →
      (list_bucket_loop (resp :: rest) marker data statusG).requests[1]?
        = some (some last.key)) ∧
    ∀ p2 more, rest = p2 :: more → ¬ (p2.status = S3Status.OK ∧ p2.truncated) →
      (list_bucket_loop (resp :: rest) marker data statusG).requests
          = [marker, some (last.key.take 1023)] ∧
      (list_bucket_loop (resp :: rest) marker data statusG).finished = true := by
  obtain ⟨h1, h2⟩ := list_bucket_second_request resp rest marker data statusG pre t contents
    last hok hcalls ht
  refine ⟨h1, fun hlen => ?_, h2⟩
  rw [h1, List.take_of_length_le hlen]

/-- The scenario of C5: page `pageK5` then page `pageLast`; the second request
carries the marker `k5` and there is no third request. -/
theorem list_bucket_marker_from_last_key_witness :
    pageK5.status = S3Status.OK ∧
    pageK5.calls = [] ++ [⟨1, none,
      [⟨['k', '1']⟩, ⟨['k', '2']⟩, ⟨['k', '3']⟩, ⟨['k', '4']⟩] ++ [⟨['k', '5']⟩]⟩] ∧
    (1 : Int) ≠ 0 ∧
    (list_bucket_loop [pageK5, pageLast] none ⟨0, []⟩ S3Status.OK).requests
        = [none, some ['k', '5']] ∧
    (list_bucket_loop [pageK5, pageLast] none ⟨0, []⟩ S3Status.OK).finished = true :=
  ⟨rfl, rfl, by decide,
    ((list_bucket_marker_from_last_key pageK5 [pageLast] none ⟨0, []⟩ S3Status.OK [] 1
      [⟨['k', '1']⟩, ⟨['k', '2']⟩, ⟨['k', '3']⟩, ⟨['k', '4']⟩] ⟨['k', '5']⟩ rfl rfl
      (by decide)).2.2 pageLast [] rfl (by decide))⟩

/-- C5 as stated fails for a key of 1024 bytes: the marker of the second
request is not that key. -/
theorem list_bucket_long_key_marker_differs :
    ¬ ((list_bucket_loop [pageLongKey, pageLast] none ⟨0, []⟩ S3Status.OK).requests[1]?
        = some (some (List.replicate 1024 'a'))) := by
  rw [(list_bucket_second_request pageLongKey [pageLast] none ⟨0, []⟩ S3Status.OK [] 1 []
    ⟨List.replicate 1024 'a'⟩ rfl rfl (by decide)).1]
  intro h
  have h1 : List.take 1023 (List.replicate 1024 'a') = List.replicate 1024 'a' :=
    Option.some.inj (Option.some.inj h)
  have h2 := congrArg List.length h1
  rw [List.length_take, List.length_replicate] at h2
  omega

/-- A run of C6: the second page fails, so two requests are made and the
failing status is the result. -/
theorem list_bucket_continues_iff_witness :
    ∃ (hi : 1 < [pageK5, pageFailed, pageLast].length),
    1 < (list_bucket_loop [pageK5, pageFailed, pageLast] none ⟨0, []⟩ S3Status.OK).requests.length ∧
    (1 + 1 < (list_bucket_loop [pageK5, pageFailed, pageLast] none ⟨0, []⟩
        S3Status.OK).requests.length ↔
      [pageK5, pageFailed, pageLast][1].status = S3Status.OK ∧
      [pageK5, pageFailed, pageLast][1].truncated) ∧
    ([pageK5, pageFailed, pageLast][1].status ≠ S3Status.OK →
      (list_bucket_loop [pageK5, pageFailed, pageLast] none ⟨0, []⟩ S3Status.OK).requests.length
        = 1 + 1 ∧
      (list_bucket_loop [pageK5, pageFailed, pageLast] none ⟨0, []⟩ S3Status.OK).statusG
        = [pageK5, pageFailed, pageLast][1].status ∧
      (list_bucket_loop [pageK5, pageFailed, pageLast] none ⟨0, []⟩ S3Status.OK).printedError
        = true ∧
      (list_bucket_loop [pageK5, pageFailed, pageLast] none ⟨0, []⟩ S3Status.OK).finished
        = true) :=
  ⟨by decide, by decide,
    list_bucket_continues_iff [pageK5, pageFailed, pageLast] none ⟨0, []⟩ S3Status.OK 1
      (by decide) (by decide)⟩

end S3
